import Mathlib

/-!
# The software sound mixer of `engine/arctic_platform_pi_sound.cpp`

A shallow embedding of the mixer state, the playback control functions
(`StartSoundBuffer`, `StopSoundBuffer`, `SetMasterVolume`, `GetMasterVolume`),
the mixing pass `MixSound`, the write loop of `SoundMixerThreadFunction` and
the device opening, strategy choice and shutdown of `StartSoundMixer` and
`StopSoundMixer`, and of the window procedure `WndProc` of
`engine/arctic_platform_windows.cpp`, followed by the properties established
about them.

Conventions of the embedding
* `std::vector<SoundBuffer>` is a `List SoundBuffer`; `push_back` appends at
  the end, `pop_back` is `List.dropLast`, `v[i] = v[size - 1]` is `List.set`.
* Loop counters are natural numbers.  In both removal loops the source
  executes `idx--` followed by the `++idx` of the loop header; in unsigned
  arithmetic the two cancel (also at `idx = 0`), so the embedding continues
  with the same `idx`.
* Each loop is a structurally recursive function with an iteration budget;
  the entry points pass the length of the slot list, which bounds the number
  of iterations because every iteration either advances `idx` or shortens the
  list.
* `float` is IEEE-754 binary32 with round-to-nearest-even, see `F32`.
* The mutex only serialises the calls; the embedding is the sequential
  behaviour of each call.
* Calls to the audio device are answered by values given as arguments: a list
  of results consumed in order, or a function from device names to results.
-/

namespace arctic

/-! ## binary32 -/

/-- A `float` value: a finite number, an infinity or a NaN.  Finite values are
kept as rationals; every arithmetic result is rounded to binary32 by
`F32.round`.  The sign of zero is not represented: it is not observable
through comparison or conversion to an integer, the only uses made of floats
here. -/
inductive F32 where
  | fin (q : ℚ)
  | pinf
  | ninf
  | nan
  deriving DecidableEq

namespace F32

/-- Rounding of a rational to the nearest integer, ties to the even one. -/
def roundEven (x : ℚ) : Int :=
  if x - ⌊x⌋ < 1 / 2 then ⌊x⌋
  else if 1 / 2 < x - ⌊x⌋ then ⌊x⌋ + 1
  else if ⌊x⌋ % 2 = 0 then ⌊x⌋ else ⌊x⌋ + 1

/-- Binary exponent of the unit in the last place of binary32 at `q`: 24
significant bits, the exponent of subnormal numbers at the bottom. -/
def ulpExp (q : ℚ) : Int :=
  max (Int.log 2 |q| - 23) (-149)

/-- Rounding of an exact result to binary32, to nearest with ties to even;
what reaches `2 ^ 128` in magnitude overflows to an infinity. -/
def round (q : ℚ) : F32 :=
  let r : ℚ := (roundEven (q / 2 ^ ulpExp q) : ℚ) * 2 ^ ulpExp q
  if 2 ^ 128 ≤ r then pinf
  else if r ≤ -(2 ^ 128) then ninf
  else fin r

/-- `static_cast<float>(n)` for an integer `n`. -/
def ofInt (n : Int) : F32 :=
  round n

/-- The product `a * b` of two floats. -/
def mul : F32 → F32 → F32
  | fin a, fin b => round (a * b)
  | fin a, pinf => if a = 0 then nan else if 0 < a then pinf else ninf
  | fin a, ninf => if a = 0 then nan else if 0 < a then ninf else pinf
  | pinf, fin b => if b = 0 then nan else if 0 < b then pinf else ninf
  | ninf, fin b => if b = 0 then nan else if 0 < b then ninf else pinf
  | pinf, pinf => pinf
  | pinf, ninf => ninf
  | ninf, pinf => ninf
  | ninf, ninf => pinf
  | nan, _ => nan
  | _, nan => nan

/-- The comparison `a < b` of two floats; false when either is a NaN. -/
def lt : F32 → F32 → Bool
  | fin a, fin b => decide (a < b)
  | fin _, pinf => true
  | ninf, fin _ => true
  | ninf, pinf => true
  | _, _ => false

/-- `std::max(a, b)`, which is `(a < b) ? b : a`. -/
def max (a b : F32) : F32 :=
  if lt a b then b else a

/-- `std::min(a, b)`, which is `(b < a) ? b : a`. -/
def min (a b : F32) : F32 :=
  if lt b a then b else a

/-- Truncation of a rational toward zero. -/
def trunc (q : ℚ) : Int :=
  if 0 ≤ q then ⌊q⌋ else ⌈q⌉

/-- `static_cast<Si32>(x)`: truncation toward zero.  C++ defines the
conversion only for a finite value whose truncation is a value of `Si32`.  For
every other operand (a value outside that range, an infinity, a NaN) the
embedding takes what the truncating conversion instruction `cvttss2si` of an
x86-64 build returns, the value `-2 ^ 31`. -/
def toSi32 : F32 → Int
  | fin q => if -(2 ^ 31) ≤ trunc q ∧ trunc q ≤ 2 ^ 31 - 1 then trunc q else -(2 ^ 31)
  | pinf => -(2 ^ 31)
  | ninf => -(2 ^ 31)
  | nan => -(2 ^ 31)

end F32

/-- The value of an integer as a two's complement `Si32`. -/
def wrapSi32 (n : Int) : Int :=
  (n + 2 ^ 31) % 2 ^ 32 - 2 ^ 31

/-- The value of an integer as a two's complement `Si16`. -/
def wrapSi16 (n : Int) : Int :=
  (n + 2 ^ 15) % 2 ^ 16 - 2 ^ 15

/-- `static_cast<Si16>(x)`: the conversion to a 32-bit integer narrowed to 16
bits.  `MixSound` applies it to values already clamped to `[-32767, 32767]`. -/
def F32.toSi16 (x : F32) : Int :=
  wrapSi16 (F32.toSi32 x)

/-! ## Sound sources and mixer state -/

/-- Modelled from the spec: the sample source `easy::Sound` (declared in
`engine/easy_sound.h`, which is not among the sources).  `instance_id` is the
identity of the object returned by `GetInstance()`, `DurationSamples` the
total duration in frames, and `StreamOut start count` the interleaved stereo
frames written to the scratch buffer for the window starting at `start`; the
returned frame count `size` is the length of that list.  The source never
writes more frames than were requested. -/
structure Sound where
  instance_id : Nat
  DurationSamples : Int
  StreamOut : Int → Nat → List (Int × Int)
  StreamOut_le : ∀ start count, (StreamOut start count).length ≤ count

/-- `struct SoundBuffer`: one active playback slot. -/
structure SoundBuffer where
  sound : Sound
  volume : F32
  next_position : Int

/-- `struct SoundMixerState` together with the play counters of the sounds.
Modelled from the spec: `playing i` is the play-reference count of the sound
with identity `i`, moved by `IncPlaying` and `DecPlaying` (declared outside
the sources). -/
structure SoundMixerState where
  master_volume : F32
  buffers : List SoundBuffer
  do_quit : Bool
  playing : Nat → Int

/-- Modelled from the spec: `GetInstance()->IncPlaying()` adds one to the play
count of the instance. -/
def IncPlaying (playing : Nat → Int) (i : Nat) : Nat → Int :=
  Function.update playing i (playing i + 1)

/-- Modelled from the spec: `GetInstance()->DecPlaying()` takes one from the
play count of the instance. -/
def DecPlaying (playing : Nat → Int) (i : Nat) : Nat → Int :=
  Function.update playing i (playing i - 1)

/-- `StartSoundBuffer(sound, volume)`. -/
def StartSoundBuffer (st : SoundMixerState) (sound : Sound) (volume : F32) :
    SoundMixerState :=
  let buffer : SoundBuffer := { sound := sound, volume := volume, next_position := 0 }
  { st with
    playing := IncPlaying st.playing buffer.sound.instance_id
    buffers := st.buffers ++ [buffer] }

/-- The assignment `buffers[idx] = buffers[buffers.size() - 1]`. -/
def assignLast (buffers : List SoundBuffer) (idx : Nat) : List SoundBuffer :=
  match buffers.getLast? with
  | some last => buffers.set idx last
  | none => buffers

/-- The `for` loop of `StopSoundBuffer`, `fuel` bounding the iterations left. -/
def stopLoop (inst : Nat) :
    Nat → Nat → List SoundBuffer → (Nat → Int) → List SoundBuffer × (Nat → Int)
  | 0, _, buffers, playing => (buffers, playing)
  | fuel + 1, idx, buffers, playing =>
    if h : idx < buffers.length then
      let buffer := buffers[idx]
      if buffer.sound.instance_id = inst then
        let playing1 := DecPlaying playing buffer.sound.instance_id
        let buffers1 :=
          if idx ≠ buffers.length - 1 then assignLast buffers idx else buffers
        stopLoop inst fuel idx buffers1.dropLast playing1
      else
        stopLoop inst fuel (idx + 1) buffers playing
    else
      (buffers, playing)

/-- `StopSoundBuffer(sound)`. -/
def StopSoundBuffer (st : SoundMixerState) (sound : Sound) : SoundMixerState :=
  let r := stopLoop sound.instance_id st.buffers.length 0 st.buffers st.playing
  { st with buffers := r.1, playing := r.2 }

/-- `SetMasterVolume(volume)`. -/
def SetMasterVolume (st : SoundMixerState) (volume : F32) : SoundMixerState :=
  { st with master_volume := volume }

/-- `GetMasterVolume()`. -/
def GetMasterVolume (st : SoundMixerState) : F32 :=
  st.master_volume

/-! ## `MixSound` -/

/-- The inner loop of `MixSound` over the `size` frames in the scratch buffer,
`in_data` holding the frames from index `i` on: each channel sample is scaled
by the slot volume, converted to `Si32` and added to its accumulator (`Si32`
addition, two's complement), and `next_position` advances by one per frame. -/
def accumulate (volume : F32) :
    List (Int × Int) → Nat → (Nat → Int) → Int → (Nat → Int) × Int
  | [], _, mix, next_position => (mix, next_position)
  | (left, right) :: in_data, i, mix, next_position =>
    let mix1 := Function.update mix (i * 2)
      (wrapSi32 (mix (i * 2) + F32.toSi32 (F32.mul (F32.ofInt left) volume)))
    let mix2 := Function.update mix1 (i * 2 + 1)
      (wrapSi32 (mix1 (i * 2 + 1) + F32.toSi32 (F32.mul (F32.ofInt right) volume)))
    accumulate volume in_data (i + 1) mix2 (next_position + 1)

/-- The loop of `MixSound` over the active slots, `fuel` bounding the
iterations left.  `mix` is the accumulator array `data->mix`, indexed by
sample. -/
def mixLoop (period_size : Nat) :
    Nat → Nat → List SoundBuffer → (Nat → Int) → (Nat → Int) →
      List SoundBuffer × (Nat → Int) × (Nat → Int)
  | 0, _, buffers, playing, mix => (buffers, playing, mix)
  | fuel + 1, idx, buffers, playing, mix =>
    if h : idx < buffers.length then
      let sound := buffers[idx]
      let in_data := sound.sound.StreamOut sound.next_position period_size
      let size := in_data.length
      let r := accumulate sound.volume in_data 0 mix sound.next_position
      let sound1 : SoundBuffer := { sound with next_position := r.2 }
      let buffers1 := buffers.set idx sound1
      if sound1.next_position = sound1.sound.DurationSamples ∨ size = 0 then
        let playing1 := DecPlaying playing sound1.sound.instance_id
        mixLoop period_size fuel idx (assignLast buffers1 idx).dropLast playing1 r.1
      else
        mixLoop period_size fuel (idx + 1) buffers1 playing r.1
    else
      (buffers, playing, mix)

/-- The output stage for one accumulated sample: scale by the master volume,
clamp to `[-32767, 32767]`, convert to `Si16`. -/
def outputSample (master_volume : F32) (acc : Int) : Int :=
  let val := F32.mul (F32.ofInt acc) master_volume
  F32.toSi16 (F32.min (F32.max val (F32.fin (-32767))) (F32.fin 32767))

/-- The two bytes stored for a sample: `res & 0xff`, then `(res >> 8) & 0xff`. -/
def sampleBytes (res : Int) : List Int :=
  [res % 256, res / 256 % 256]

/-- `MixSound()` for a period of `period_size` frames: the mixer state after
the pass and the bytes written to `data->samples`. -/
def MixSound (period_size : Nat) (st : SoundMixerState) : SoundMixerState × List Int :=
  let buffer_samples_total := period_size * 2
  let master_volume := st.master_volume
  let r := mixLoop period_size st.buffers.length 0 st.buffers st.playing (fun _ => 0)
  let out_buffer := (List.range buffer_samples_total).flatMap fun i =>
    sampleBytes (outputSample master_volume (r.2.2 i))
  ({ st with buffers := r.1, playing := r.2.1 }, out_buffer)

/-- The slot loop of `MixSound` together with a record of its `StreamOut`
calls: the fourth component lists, in the order of the calls, the slots on
which `StreamOut` was called and whose frames were accumulated.  The first
three components are those of `mixLoop`. -/
def mixLoopLog (period_size : Nat) :
    Nat → Nat → List SoundBuffer → (Nat → Int) → (Nat → Int) →
      List SoundBuffer × (Nat → Int) × (Nat → Int) × List SoundBuffer
  | 0, _, buffers, playing, mix => (buffers, playing, mix, [])
  | fuel + 1, idx, buffers, playing, mix =>
    if h : idx < buffers.length then
      let sound := buffers[idx]
      let in_data := sound.sound.StreamOut sound.next_position period_size
      let size := in_data.length
      let r := accumulate sound.volume in_data 0 mix sound.next_position
      let sound1 : SoundBuffer := { sound with next_position := r.2 }
      let buffers1 := buffers.set idx sound1
      if sound1.next_position = sound1.sound.DurationSamples ∨ size = 0 then
        let playing1 := DecPlaying playing sound1.sound.instance_id
        let rest :=
          mixLoopLog period_size fuel idx (assignLast buffers1 idx).dropLast playing1 r.1
        (rest.1, rest.2.1, rest.2.2.1, sound :: rest.2.2.2)
      else
        let rest := mixLoopLog period_size fuel (idx + 1) buffers1 playing r.1
        (rest.1, rest.2.1, rest.2.2.1, sound :: rest.2.2.2)
    else
      (buffers, playing, mix, [])

/-- The slots on which a pass of `MixSound` calls `StreamOut`, in the order of
the calls. -/
def mixVisits (period_size : Nat) (st : SoundMixerState) : List SoundBuffer :=
  (mixLoopLog period_size st.buffers.length 0 st.buffers st.playing (fun _ => 0)).2.2.2

/-! ## The polling thread's write loop -/

/-- See `EAGAIN`. -/
def ENOENT : Int := 2

/-- See `EAGAIN`. -/
def ENOSYS : Int := 38

/-- A call made to the audio device, with its arguments and the value it
returned.  `out_buffer` is the offset of the pointer passed to
`snd_pcm_writei` from `g_data.samples.data()`, counted in `Si16` samples. -/
inductive DeviceCall where
  | writei (out_buffer : Int) (frames : Int) (result : Int)
  | prepare (result : Int)
  | resume (result : Int)
  | sleep
  deriving DecidableEq

/-- How a run of the write loop ends on a given sequence of device results:
the loop is left because `size_left` dropped to 0, a `Check` fails and
terminates the process, or the results recorded are used up while the loop is
still waiting for the device. -/
inductive LoopOutcome where
  | completed
  | fatal
  | starved
  deriving DecidableEq

/-- The state of a run of the write loop of `SoundMixerThreadFunction`.
`calls` records the device calls made so far, oldest first. -/
structure WriteRun where
  outcome : LoopOutcome
  out_buffer : Int
  size_left : Int
  calls : List DeviceCall

/-- How a driver function can fail: a `Check` fails and `Fatal` terminates the
process, or a C++ exception leaves the function (`std::system_error`, thrown
by `std::thread::join` on a thread object that is not joinable). -/
inductive Failure where
  | fatal
  | system_error
  deriving DecidableEq

/-- The part of the driver state that `StartSoundMixer` and `StopSoundMixer`
share: the quit flag, whether `sound_thread` has a thread to join
(`sound_thread.joinable()`), the handler pointer `g_data.ahandler` (`none`
for `nullptr`) and whether the device `g_data.handle` is open. -/
structure MixerRuntime where
  do_quit : Bool
  thread_joinable : Bool
  ahandler : Option Nat
  handle_open : Bool
  deriving DecidableEq

/-- A step taken by `StartSoundMixer` or `StopSoundMixer` that is visible
outside the driver state. -/
inductive RuntimeCall where
  | open_device (name : String)
  | add_handler
  | start_thread
  | initial_write
  | pcm_start
  | join_thread
  | del_handler
  | close_device
  deriving DecidableEq

/-- The device opening of `StartSoundMixer`.  `output_device_name` is `none`
for a null pointer, and `snd_pcm_open name` is the value the call returns for
device `name`.  The result is the list of devices on which `snd_pcm_open` was
called and the name of the device opened, or the failure. -/
def openOutputDevice (output_device_name : Option String) (snd_pcm_open : String → Int) :
    List String × Except Failure String :=
  match output_device_name with
  | none =>
    let err := snd_pcm_open "default"
    if err = -ENOENT then
      let err2 := snd_pcm_open "plughw:0,0"
      if err2 ≥ 0 then (["default", "plughw:0,0"], Except.ok "plughw:0,0")
      else (["default", "plughw:0,0"], Except.error Failure.fatal)
    else
      if err ≥ 0 then (["default"], Except.ok "default")
      else (["default"], Except.error Failure.fatal)
  | some name =>
    let err := snd_pcm_open name
    if err ≥ 0 then ([name], Except.ok name)
    else ([name], Except.error Failure.fatal)

/-- The driver state when `StartSoundMixer` reaches the choice of a running
strategy: the device is open, `sound_thread` is default-constructed and
`g_data.ahandler` is null. -/
def configuredRuntime : MixerRuntime where
  do_quit := false
  thread_joinable := false
  ahandler := none
  handle_open := true

/-- The end of `StartSoundMixer`, from `snd_async_add_pcm_handler` on.
`add_result` is the value that call returns and `handler` the handler it
stores on success; `writes` are the values of the three initial
`snd_pcm_writei` calls, `prepared` tells whether the device is in state
`SND_PCM_STATE_PREPARED` afterwards and `start_result` is the value of
`snd_pcm_start`. -/
def startStrategy (rt : MixerRuntime) (period_size : Int) (add_result : Int)
    (handler : Nat) (writes : Int × Int × Int) (prepared : Bool) (start_result : Int) :
    List RuntimeCall × Except Failure MixerRuntime :=
  if add_result = -ENOSYS then
    ([RuntimeCall.add_handler, RuntimeCall.start_thread],
      Except.ok { rt with thread_joinable := true })
  else if add_result ≥ 0 then
    let rt1 : MixerRuntime := { rt with ahandler := some handler }
    if writes.1 ≥ 0 ∧ writes.1 = period_size then
      if writes.2.1 ≥ 0 ∧ writes.2.1 = period_size then
        if writes.2.2 ≥ 0 ∧ writes.2.2 = period_size then
          if prepared then
            if start_result ≥ 0 then
              ([RuntimeCall.add_handler, RuntimeCall.initial_write,
                RuntimeCall.initial_write, RuntimeCall.initial_write,
                RuntimeCall.pcm_start], Except.ok rt1)
            else
              ([RuntimeCall.add_handler, RuntimeCall.initial_write,
                RuntimeCall.initial_write, RuntimeCall.initial_write,
                RuntimeCall.pcm_start], Except.error Failure.fatal)
          else
            ([RuntimeCall.add_handler, RuntimeCall.initial_write,
              RuntimeCall.initial_write, RuntimeCall.initial_write], Except.ok rt1)
        else
          ([RuntimeCall.add_handler, RuntimeCall.initial_write,
            RuntimeCall.initial_write, RuntimeCall.initial_write],
            Except.error Failure.fatal)
      else
        ([RuntimeCall.add_handler, RuntimeCall.initial_write, RuntimeCall.initial_write],
          Except.error Failure.fatal)
    else
      ([RuntimeCall.add_handler, RuntimeCall.initial_write], Except.error Failure.fatal)
  else
    ([RuntimeCall.add_handler], Except.error Failure.fatal)

/-- `StopSoundMixer()`.  `del_result` is the value `snd_async_del_handler`
returns if it is called.  `sound_thread.join()` is called whether or not a
thread was started; on a thread object that is not joinable it throws
`std::system_error`.  The result is the list of the calls made and the driver
state left, or the failure. -/
def StopSoundMixer (rt : MixerRuntime) (del_result : Int) :
    List RuntimeCall × Except Failure MixerRuntime :=
  let rt1 : MixerRuntime := { rt with do_quit := true }
  if rt1.thread_joinable then
    let rt2 : MixerRuntime := { rt1 with thread_joinable := false }
    match rt2.ahandler with
    | some _ =>
      if del_result ≥ 0 then
        ([RuntimeCall.join_thread, RuntimeCall.del_handler, RuntimeCall.close_device],
          Except.ok { rt2 with handle_open := false })
      else
        ([RuntimeCall.join_thread, RuntimeCall.del_handler], Except.error Failure.fatal)
    | none =>
      ([RuntimeCall.join_thread, RuntimeCall.close_device],
        Except.ok { rt2 with handle_open := false })
  else
    ([RuntimeCall.join_thread], Except.error Failure.system_error)

/-! ## The window procedure of `engine/arctic_platform_windows.cpp` -/

/-- The message identifiers of `<winuser.h>` that `WndProc` tests for; the
header is not among the sources. -/
def WM_DESTROY : Nat := 0x0002

/-- See `WM_DESTROY`. -/
def WM_PAINT : Nat := 0x000F

/-- See `WM_DESTROY`. -/
def WM_KEYDOWN : Nat := 0x0100

/-- See `WM_DESTROY`. -/
def WM_KEYUP : Nat := 0x0101

/-- The kind of an input message that `OnKey` sets, `InputMessage::kKeyboard`. -/
inductive InputMessageKind where
  | kKeyboard

/-- The fields of `InputMessage` that `OnKey` fills in: `kind`,
`keyboard.key` and `keyboard.key_state`.  The type `KeyCode` is declared in
`engine/arctic_input.h`, which is not among the sources, and is a parameter. -/
structure InputMessage (KeyCode : Type) where
  kind : InputMessageKind
  key : KeyCode
  key_state : Nat

/-- A call `WndProc` makes to the window system or to the input queue. -/
inductive WindowCall (KeyCode : Type) where
  | BeginPaint
  | EndPaint
  | PushInputMessage (msg : InputMessage KeyCode)
  | PostQuitMessage (exit_code : Int)
  | DefWindowProc (message : Nat) (word_param : Nat) (long_param : Int)

/-- `OnKey(word_param, long_param, is_down)`: the calls it makes.
`TranslateKeyCode` maps the virtual-key code to a `KeyCode`; its table uses
the constants of the absent headers and is a parameter. -/
def OnKey {KeyCode : Type} (TranslateKeyCode : Nat → KeyCode) (word_param : Nat)
    (_long_param : Int) (is_down : Bool) : List (WindowCall KeyCode) :=
  let key := TranslateKeyCode word_param
  let msg : InputMessage KeyCode :=
    { kind := InputMessageKind.kKeyboard, key := key,
      key_state := if is_down then 1 else 2 }
  [WindowCall.PushInputMessage msg]

/-- The statements of `case WM_KEYUP:` of `WndProc`, up to its `break`. -/
def caseKeyUp {KeyCode : Type} (TranslateKeyCode : Nat → KeyCode) (word_param : Nat)
    (long_param : Int) : List (WindowCall KeyCode) :=
  OnKey TranslateKeyCode word_param long_param false

/-- The statements executed from `case WM_PAINT:` of `WndProc` on.  The block
of the case is not followed by a `break`, so control continues with the
statements of `case WM_KEYUP:`. -/
def casePaint {KeyCode : Type} (TranslateKeyCode : Nat → KeyCode) (word_param : Nat)
    (long_param : Int) : List (WindowCall KeyCode) :=
  [WindowCall.BeginPaint, WindowCall.EndPaint] ++
    caseKeyUp TranslateKeyCode word_param long_param

/-- `WndProc(window_handle, message, word_param, long_param)`: the calls it
makes and the value it returns.  `DefWindowProc` gives the value the default
window procedure returns. -/
def WndProc {KeyCode : Type} (TranslateKeyCode : Nat → KeyCode)
    (DefWindowProc : Nat → Nat → Int → Int) (message : Nat) (word_param : Nat)
    (long_param : Int) : List (WindowCall KeyCode) × Int :=
  if message = WM_PAINT then
    (casePaint TranslateKeyCode word_param long_param, 0)
  else if message = WM_KEYUP then
    (caseKeyUp TranslateKeyCode word_param long_param, 0)
  else if message = WM_KEYDOWN then
    (OnKey TranslateKeyCode word_param long_param true, 0)
  else if message = WM_DESTROY then
    ([WindowCall.PostQuitMessage 0], 0)
  else
    ([WindowCall.DefWindowProc message word_param long_param],
      DefWindowProc message word_param long_param)

/-! ## Auxiliary notions used in the statements -/

/-- The accumulators after the locked pass of `MixSound`, which starts from
the zeroed array. -/
def mixAccumulators (period_size : Nat) (st : SoundMixerState) : Nat → Int :=
  (mixLoop period_size st.buffers.length 0 st.buffers st.playing (fun _ => 0)).2.2

/-- The `Si16` samples whose bytes `MixSound` writes, `period_size * 2` of
them. -/
def mixSamples (period_size : Nat) (st : SoundMixerState) : List Int :=
  (List.range (period_size * 2)).map fun i =>
    outputSample st.master_volume (mixAccumulators period_size st i)

/-- What swap-with-last removal leaves of the slots behind the removed one:
the last of them comes first, the others keep their order. -/
def moveLast (rest : List SoundBuffer) : List SoundBuffer :=
  match rest.getLast? with
  | some last => last :: rest.dropLast
  | none => []

/-- The slots of `buffers` that do not reference instance `inst`. -/
def others (inst : Nat) (buffers : List SoundBuffer) : List SoundBuffer :=
  buffers.filter (fun b => decide (b.sound.instance_id ≠ inst))

/-- The number of slots of `buffers` that reference instance `inst`. -/
def slotCount (inst : Nat) (buffers : List SoundBuffer) : Nat :=
  buffers.countP (fun b => decide (b.sound.instance_id = inst))

/-- A call of the playback control API. -/
inductive ControlCall where
  | start (sound : Sound) (volume : F32)
  | stop (sound : Sound)

/-- The effect of one playback control call. -/
def ControlCall.run (st : SoundMixerState) : ControlCall → SoundMixerState
  | .start sound volume => StartSoundBuffer st sound volume
  | .stop sound => StopSoundBuffer st sound

/-- The effect of a sequence of playback control calls, first call first. -/
def runControl (st : SoundMixerState) (calls : List ControlCall) : SoundMixerState :=
  calls.foldl ControlCall.run st

/-- The number of starts of instance `inst` after its last stop, the calls
given latest first. -/
def startsSinceStopRev (inst : Nat) : List ControlCall → Nat
  | [] => 0
  | .start sound _ :: earlier =>
    (if sound.instance_id = inst then 1 else 0) + startsSinceStopRev inst earlier
  | .stop sound :: earlier =>
    if sound.instance_id = inst then 0 else startsSinceStopRev inst earlier

/-- The number of starts of instance `inst` made since the last stop of
`inst` in `calls` (since the beginning when it was never stopped). -/
def startsSinceStop (inst : Nat) (calls : List ControlCall) : Nat :=
  startsSinceStopRev inst calls.reverse

/-- Whether `calls` contains a stop of instance `inst`. -/
def stoppedIn (inst : Nat) (calls : List ControlCall) : Bool :=
  calls.any fun c =>
    match c with
    | .start _ _ => false
    | .stop sound => decide (sound.instance_id = inst)

/-- The frames the source of a slot streams out in a pass over `period_size`
frames. -/
def SoundBuffer.frames (period_size : Nat) (b : SoundBuffer) : List (Int × Int) :=
  b.sound.StreamOut b.next_position period_size

/-- The slot with its cursor moved past the frames of this pass. -/
def SoundBuffer.advance (period_size : Nat) (b : SoundBuffer) : SoundBuffer :=
  { b with next_position := b.next_position + (b.frames period_size).length }

/-- The removal condition of `MixSound`: the cursor reaches the duration of
the source after the frames of this pass, or the source produced nothing. -/
def SoundBuffer.finished (period_size : Nat) (b : SoundBuffer) : Prop :=
  (b.advance period_size).next_position = b.sound.DurationSamples ∨
    (b.frames period_size).length = 0

instance (period_size : Nat) (b : SoundBuffer) : Decidable (b.finished period_size) :=
  inferInstanceAs (Decidable (_ ∨ _))

/-- The sample of `in_data` that belongs to accumulator `j`: channel `j % 2`
of frame `j / 2`, if the source produced that frame. -/
def sampleAt (in_data : List (Int × Int)) (j : Nat) : Option Int :=
  (in_data[j / 2]?).map fun frame => if j % 2 = 0 then frame.1 else frame.2

/-- What a slot adds to accumulator `j` in a pass: its sample scaled by the
slot volume and converted to `Si32`, nothing beyond the frames produced. -/
def SoundBuffer.contribution (period_size : Nat) (b : SoundBuffer) (j : Nat) : Int :=
  match sampleAt (b.frames period_size) j with
  | some x => F32.toSi32 (F32.mul (F32.ofInt x) b.volume)
  | none => 0

/-- The slots a pass of `MixSound` keeps, each advanced past its frames. -/
def survivors (period_size : Nat) (buffers : List SoundBuffer) : List SoundBuffer :=
  (buffers.filter fun b => decide (¬ b.finished period_size)).map
    (SoundBuffer.advance period_size)

/-- The number of slots of instance `i` that meet the removal condition of a
pass of `MixSound`. -/
def removedCount (period_size : Nat) (i : Nat) (buffers : List SoundBuffer) : Nat :=
  buffers.countP fun b => decide (b.finished period_size ∧ b.sound.instance_id = i)

/-- The exact sum of what the slots add to accumulator `j` in a pass. -/
def mixedSum (period_size : Nat) (buffers : List SoundBuffer) (j : Nat) : Int :=
  (buffers.map fun b => b.contribution period_size j).sum

/-- The source contract assumed of a stream: the duration is not negative and
`StreamOut(start, count)` returns `min(count, duration - start)` frames for a
start within the stream. -/
def Sound.wellBehaved (s : Sound) : Prop :=
  0 ≤ s.DurationSamples ∧
    ∀ (start : Int) (count : Nat), 0 ≤ start → start ≤ s.DurationSamples →
      ((s.StreamOut start count).length : Int) = min (count : Int) (s.DurationSamples - start)

/-- A call that changes the mixer state: a playback control call or a mixing
pass over a period of `period_size` frames. -/
inductive MixerCall where
  | start (sound : Sound) (volume : F32)
  | stop (sound : Sound)
  | mix (period_size : Nat)

/-- The mixer state after one call. -/
def MixerCall.run (st : SoundMixerState) : MixerCall → SoundMixerState
  | .start sound volume => StartSoundBuffer st sound volume
  | .stop sound => StopSoundBuffer st sound
  | .mix period_size => (MixSound period_size st).1

/-- The mixer state after a sequence of calls, first call first. -/
def runMixer (st : SoundMixerState) (calls : List MixerCall) : SoundMixerState :=
  calls.foldl MixerCall.run st

/-- The sources started by a call obey the source contract. -/
def MixerCall.wellBehaved : MixerCall → Prop
  | .start sound _ => sound.wellBehaved
  | _ => True

/-- The bound on the cursor of a slot: within the duration of its source, and
strictly inside it when the duration is not zero. -/
def SoundBuffer.cursorInBounds (b : SoundBuffer) : Prop :=
  0 ≤ b.next_position ∧ b.next_position ≤ b.sound.DurationSamples ∧
    (b.sound.DurationSamples ≠ 0 → b.next_position < b.sound.DurationSamples)

/-- The float `x` is at least the number `c`. -/
def F32.atLeast (c : ℚ) : F32 → Prop
  | .fin r => c ≤ r
  | .pinf => True
  | _ => False

/-- The float `x` is at most the number `c`. -/
def F32.atMost (c : ℚ) : F32 → Prop
  | .fin r => r ≤ c
  | .ninf => True
  | _ => False

instance (c : ℚ) (x : F32) : Decidable (F32.atLeast c x) := by
  cases x <;> unfold F32.atLeast <;> infer_instance

instance (c : ℚ) (x : F32) : Decidable (F32.atMost c x) := by
  cases x <;> unfold F32.atMost <;> infer_instance

/-- The clamp and conversion of the output stage applied to the scaled
value `val`. -/
def clampOutput (val : F32) : Int :=
  F32.toSi16 (F32.min (F32.max val (F32.fin (-32767))) (F32.fin 32767))

/-- The integer `x` is a value of the type `Si16`. -/
def isSi16 (x : Int) : Prop :=
  -32768 ≤ x ∧ x ≤ 32767

instance (x : Int) : Decidable (isSi16 x) :=
  inferInstanceAs (Decidable (_ ∧ _))

/-- Saturation of an integer at `-32767` and `32767`. -/
def clampSi16 (n : Int) : Int :=
  max (-32767) (min n 32767)

/-- The frames the device accepted in the recorded calls: the sum of the
non-negative results of the `snd_pcm_writei` calls. -/
def acceptedFrames : List DeviceCall → Int
  | [] => 0
  | DeviceCall.writei _ _ result :: calls =>
    (if 0 ≤ result then result else 0) + acceptedFrames calls
  | _ :: calls => acceptedFrames calls

/-- Every recorded `snd_pcm_writei` call starts at sample offset twice the
number of frames accepted before it and requests `period_size` minus that
many frames, `accepted` frames having been accepted before the first call
of the list. -/
def writesPlaced (period_size : Int) : Int → List DeviceCall → Prop
  | _, [] => True
  | accepted, DeviceCall.writei out_buffer frames result :: calls =>
    out_buffer = 2 * accepted ∧ frames = period_size - accepted ∧
      writesPlaced period_size (accepted + (if 0 ≤ result then result else 0)) calls
  | accepted, _ :: calls => writesPlaced period_size accepted calls

/-- What holds of a run of the write loop over a benign sequence of results:
no `Check` has failed, every write was placed at twice the frames accepted
before it and requested the frames still missing, the frames accepted and
the final position account for `period_size - size_left` frames, and the loop
completed exactly when no frame is left. -/
def WriteRun.sound (period_size : Int) (r : WriteRun) : Prop :=
  r.outcome ≠ LoopOutcome.fatal ∧
  writesPlaced period_size 0 r.calls ∧
  acceptedFrames r.calls = period_size - r.size_left ∧
  r.out_buffer = 2 * (period_size - r.size_left) ∧
  0 ≤ r.size_left ∧
  (r.outcome = LoopOutcome.completed ↔ r.size_left = 0)

/-- The input messages pushed by a sequence of calls, in order. -/
def pushedMessages {KeyCode : Type} :
    List (WindowCall KeyCode) → List (InputMessage KeyCode)
  | [] => []
  | WindowCall.PushInputMessage msg :: calls => msg :: pushedMessages calls
  | _ :: calls => pushedMessages calls

/-! ## Concrete sources and states -/

/-- Modelled from the spec: a source decoded in memory.  It holds the frames
`frames`, reports their number as its duration and streams out the frames of
the requested window that exist. -/
def pcmSound (id : Nat) (frames : List (Int × Int)) : Sound where
  instance_id := id
  DurationSamples := frames.length
  StreamOut := fun start count =>
    if start < 0 then [] else (frames.drop start.toNat).take count
  StreamOut_le := by
    intro start count
    show (if start < 0 then [] else (frames.drop start.toNat).take count).length ≤ count
    split
    · simp
    · simp only [List.length_take]; exact Nat.min_le_left _ _

/-- The slot `StartSoundBuffer` creates for `sound` at volume `1.0`. -/
def freshSlot (sound : Sound) : SoundBuffer where
  sound := sound
  volume := F32.fin 1
  next_position := 0

/-- A slot at cursor 0 and volume `0.5` on a source of 100 frames, each frame
`(1000, -2001)`. -/
def halfVolumeSlot : SoundBuffer where
  sound := pcmSound 1 (List.replicate 100 (1000, -2001))
  volume := F32.fin (1 / 2)
  next_position := 0

/-- A slot at volume `1.0` on a source of two frames, the first of them the
full-scale frame `(32767, 32767)`. -/
def fullScaleSlot : SoundBuffer :=
  freshSlot (pcmSound 1 [(32767, 32767), (0, 0)])

/-- A slot at volume `0.3` on a silent source of four frames. -/
def silentSlot (id : Nat) : SoundBuffer where
  sound := pcmSound id (List.replicate 4 (0, 0))
  volume := F32.fin (3 / 10)
  next_position := 0

/-- A slot at cursor 0 and volume `1000000.0` on a source of one frame, the
full-scale frame `(32767, 32767)`. -/
def amplifiedSlot : SoundBuffer where
  sound := pcmSound 1 [(32767, 32767)]
  volume := F32.fin 1000000
  next_position := 0

/-- A source that reports a duration of 10 frames and holds only the three
frames `(1, 2)`, `(3, 4)`, `(5, 6)`: it streams out the frames of the requested
window that exist, and nothing from position 3 on. -/
def truncatedSound : Sound where
  instance_id := 1
  DurationSamples := 10
  StreamOut := fun start count =>
    if start < 0 then [] else ([(1, 2), (3, 4), (5, 6)].drop start.toNat).take count
  StreamOut_le := by
    intro start count
    show (if start < 0 then []
      else (([(1, 2), (3, 4), (5, 6)] : List (Int × Int)).drop start.toNat).take count).length
        ≤ count
    split
    · simp
    · simp only [List.length_take]; exact Nat.min_le_left _ _

/-- A slot at cursor 2 and volume `1.0` on a source of three frames: one frame
is left to play. -/
def lastFrameSlot : SoundBuffer where
  sound := pcmSound 1 [(1, 2), (3, 4), (5, 6)]
  volume := F32.fin 1
  next_position := 2

/-- A mixer with the given slots, master volume `1.0` and all play counts
zero. -/
def mixerWith (buffers : List SoundBuffer) : SoundMixerState where
  master_volume := F32.fin 1
  buffers := buffers
  do_quit := false
  playing := fun _ => 0

/-- A mixer with the given slots and master volume `1.0` in which the play
count of every source is the number of its slots. -/
def playingMixer (buffers : List SoundBuffer) : SoundMixerState where
  master_volume := F32.fin 1
  buffers := buffers
  do_quit := false
  playing := fun i => (slotCount i buffers : Int)

/-! # Properties -/

/-! ## Rounding to binary32 -/

namespace F32

theorem roundEven_intCast (z : Int) : roundEven (z : ℚ) = z := by
  simp [roundEven]

theorem le_roundEven {n : Int} {x : ℚ} (h : (n : ℚ) ≤ x) : n ≤ roundEven x := by
  have hf : n ≤ ⌊x⌋ := Int.le_floor.mpr h
  unfold roundEven
  split_ifs <;> omega

theorem roundEven_le {n : Int} {x : ℚ} (h : x ≤ (n : ℚ)) : roundEven x ≤ n := by
  have hf : ⌊x⌋ ≤ n := by
    have := Int.floor_le x
    exact_mod_cast (Int.floor_le x).trans h
  unfold roundEven
  by_cases hx : x - ⌊x⌋ < 1 / 2
  · rw [if_pos hx]; exact hf
  · have hne : ⌊x⌋ ≠ n := by
      intro e
      rw [e] at hx
      apply hx
      have : x - n ≤ 0 := sub_nonpos.mpr h
      linarith
    have : ⌊x⌋ + 1 ≤ n := by omega
    rw [if_neg hx]
    split_ifs <;> omega

theorem two_zpow_pos (k : Int) : (0 : ℚ) < 2 ^ k := zpow_pos (by norm_num) k

/-- The exponent of the unit in the last place is below `k` for a nonzero
magnitude below `2 ^ (24 + k)`. -/
theorem ulpExp_le {q : ℚ} {k : Int} (hq : q ≠ 0) (hk : -149 ≤ k)
    (h : |q| < 2 ^ (24 + k)) : ulpExp q ≤ k := by
  have hpos : 0 < |q| := abs_pos.mpr hq
  have hlog : Int.log 2 |q| < 24 + k := by
    apply (Int.lt_zpow_iff_log_lt (by norm_num) hpos).mp
    simpa using h
  unfold ulpExp
  exact max_le (by omega) hk

/-- A quotient by a power of two below the exponent of a dyadic number is an
integer. -/
theorem dyadic_div (m : Int) {k u : Int} (h : u ≤ k) :
    ((m : ℚ) * 2 ^ k) / 2 ^ u = ((m * 2 ^ (k - u).toNat : Int) : ℚ) := by
  have h2 : (2 : ℚ) ≠ 0 := by norm_num
  have e : k = (k - u).toNat + u := by
    have := Int.toNat_of_nonneg (sub_nonneg.mpr h); omega
  conv_lhs => rw [e]
  rw [zpow_add₀ h2, ← mul_assoc, mul_div_assoc, div_self (zpow_ne_zero _ h2), mul_one]
  push_cast
  rw [zpow_natCast]

theorem round_of_roundEven_eq {q : ℚ}
    (h : ((roundEven (q / 2 ^ ulpExp q) : Int) : ℚ) * 2 ^ ulpExp q = q)
    (hlt : |q| < 2 ^ 128) : round q = fin q := by
  unfold round
  simp only [h]
  have h1 := abs_lt.mp hlt
  rw [if_neg (not_le.mpr h1.2), if_neg (not_le.mpr h1.1)]

/-- Dyadic numbers with a significand below `2 ^ 24` and an exponent in the
range of binary32 are not changed by rounding. -/
theorem round_exact (m k : Int) (hm : |m| < 2 ^ 24) (hk : -149 ≤ k) (hk2 : k ≤ 104) :
    round ((m : ℚ) * 2 ^ k) = fin ((m : ℚ) * 2 ^ k) := by
  have hmq : |(m : ℚ)| < 2 ^ 24 := by
    have : ((|m| : Int) : ℚ) < ((2 ^ 24 : Int) : ℚ) := Int.cast_lt.mpr hm
    simpa using this
  have habs : |(m : ℚ) * 2 ^ k| = |(m : ℚ)| * 2 ^ k := by
    rw [abs_mul, abs_of_pos (two_zpow_pos k)]
  have hlt : |(m : ℚ) * 2 ^ k| < 2 ^ (24 + k) := by
    rw [habs, zpow_add₀ (by norm_num : (2 : ℚ) ≠ 0)]
    have := mul_lt_mul_of_pos_right hmq (two_zpow_pos k)
    rw [show (2 : ℚ) ^ (24 : Int) = 2 ^ (24 : ℕ) by norm_cast]
    exact this
  have hlt2 : |(m : ℚ) * 2 ^ k| < 2 ^ 128 := by
    refine lt_of_lt_of_le hlt ?_
    have : (2 : ℚ) ^ (24 + k) ≤ 2 ^ (128 : Int) :=
      zpow_le_zpow_right₀ (by norm_num) (by omega)
    rw [show (2 : ℚ) ^ (128 : Int) = 2 ^ (128 : ℕ) by norm_cast] at this
    exact this
  apply round_of_roundEven_eq _ hlt2
  by_cases hm0 : m = 0
  · subst hm0; simp [roundEven]
  · have hq : (m : ℚ) * 2 ^ k ≠ 0 :=
      mul_ne_zero (Int.cast_ne_zero.mpr hm0) (ne_of_gt (two_zpow_pos k))
    have hu := ulpExp_le hq hk hlt
    rw [dyadic_div m hu, roundEven_intCast, ← dyadic_div m hu]
    exact div_mul_cancel₀ _ (ne_of_gt (two_zpow_pos _))

theorem round_intCast (n : Int) (hn : |n| < 2 ^ 24) : round (n : ℚ) = fin n := by
  have := round_exact n 0 hn (by norm_num) (by norm_num)
  simpa using this

theorem ofInt_eq (n : Int) (hn : |n| < 2 ^ 24) : ofInt n = fin n :=
  round_intCast n hn

theorem ulpExp_pos_imp {q : ℚ} (h : 0 < ulpExp q) : (2 : ℚ) ^ (24 : ℕ) ≤ |q| ∧
    (2 : ℚ) ^ (ulpExp q + 23) ≤ |q| := by
  unfold ulpExp at h ⊢
  have hlog : 24 ≤ Int.log 2 |q| := by
    rcases lt_max_iff.mp h with h1 | h1 <;> omega
  have hmax : Max.max (Int.log 2 |q| - 23) (-149) = Int.log 2 |q| - 23 :=
    max_eq_left (by omega)
  have hpos : 0 < |q| := by
    by_contra hc
    have : |q| ≤ 0 := not_lt.mp hc
    rw [Int.log_of_right_le_zero 2 this] at hlog
    omega
  have hle : ((2 : ℕ) : ℚ) ^ Int.log 2 |q| ≤ |q| := Int.zpow_log_le_self (by norm_num) hpos
  have hle2 : (2 : ℚ) ^ Int.log 2 |q| ≤ |q| := by simpa using hle
  constructor
  · refine le_trans ?_ hle2
    have : (2 : ℚ) ^ (24 : Int) ≤ 2 ^ Int.log 2 |q| :=
      zpow_le_zpow_right₀ (by norm_num) hlog
    rw [show (2 : ℚ) ^ (24 : Int) = 2 ^ (24 : ℕ) by norm_cast] at this
    exact this
  · rw [hmax]
    simpa using hle2

theorem intCast_abs_lt {c : Int} (hc : |c| < 2 ^ 24) : |(c : ℚ)| < 2 ^ (24 : ℕ) := by
  have : ((|c| : Int) : ℚ) < ((2 ^ 24 : Int) : ℚ) := Int.cast_lt.mpr hc
  simpa using this

/-- Rounding does not cross an integer below `2 ^ 24` in magnitude, from
above. -/
theorem roundValue_ge (c : Int) (hc : |c| < 2 ^ 24) {q : ℚ} (h : (c : ℚ) ≤ q) :
    (c : ℚ) ≤ (roundEven (q / 2 ^ ulpExp q) : ℚ) * 2 ^ ulpExp q := by
  have hcq := abs_lt.mp (intCast_abs_lt hc)
  have hu := two_zpow_pos (ulpExp q)
  rcases le_or_lt (ulpExp q) 0 with hle | hpos
  · have e : (c : ℚ) / 2 ^ ulpExp q = ((c * 2 ^ (0 - ulpExp q).toNat : Int) : ℚ) := by
      have := dyadic_div c hle
      simpa using this
    have h1 : ((c * 2 ^ (0 - ulpExp q).toNat : Int) : ℚ) ≤ q / 2 ^ ulpExp q := by
      rw [← e]; exact div_le_div_of_nonneg_right h (le_of_lt hu)
    have h2 := le_roundEven h1
    have h3 : ((c * 2 ^ (0 - ulpExp q).toNat : Int) : ℚ) ≤
        (roundEven (q / 2 ^ ulpExp q) : ℚ) := Int.cast_le.mpr h2
    rw [← e] at h3
    exact (div_le_iff₀ hu).mp h3
  · obtain ⟨h24, hbig⟩ := ulpExp_pos_imp hpos
    have hqpos : 0 < q := by
      by_contra hneg
      have hq0 : q ≤ 0 := not_lt.mp hneg
      rw [abs_of_nonpos hq0] at h24
      linarith
    rw [abs_of_pos hqpos] at hbig
    have e : (2 : ℚ) ^ (ulpExp q + 23) / 2 ^ ulpExp q = ((2 ^ 23 : Int) : ℚ) := by
      rw [zpow_add₀ (by norm_num : (2 : ℚ) ≠ 0), mul_comm, mul_div_assoc,
        div_self (ne_of_gt hu)]
      norm_num
    have h1 : ((2 ^ 23 : Int) : ℚ) ≤ q / 2 ^ ulpExp q := by
      rw [← e]; exact div_le_div_of_nonneg_right hbig (le_of_lt hu)
    have h3 : ((2 ^ 23 : Int) : ℚ) ≤ (roundEven (q / 2 ^ ulpExp q) : ℚ) :=
      Int.cast_le.mpr (le_roundEven h1)
    have h4 : (2 : ℚ) ≤ 2 ^ ulpExp q := by
      have : (2 : ℚ) ^ (1 : Int) ≤ 2 ^ ulpExp q :=
        zpow_le_zpow_right₀ (by norm_num) (by omega)
      simpa using this
    have h5 : (2 : ℚ) ^ (24 : ℕ) ≤ (roundEven (q / 2 ^ ulpExp q) : ℚ) * 2 ^ ulpExp q := by
      have : ((2 ^ 23 : Int) : ℚ) * 2 ≤ (roundEven (q / 2 ^ ulpExp q) : ℚ) * 2 ^ ulpExp q :=
        mul_le_mul h3 h4 (by norm_num) (le_trans (by norm_num) h3)
      refine le_trans ?_ this
      norm_num
    linarith

/-- Rounding does not cross an integer below `2 ^ 24` in magnitude, from
below. -/
theorem roundValue_le (c : Int) (hc : |c| < 2 ^ 24) {q : ℚ} (h : q ≤ (c : ℚ)) :
    (roundEven (q / 2 ^ ulpExp q) : ℚ) * 2 ^ ulpExp q ≤ (c : ℚ) := by
  have hcq := abs_lt.mp (intCast_abs_lt hc)
  have hu := two_zpow_pos (ulpExp q)
  rcases le_or_lt (ulpExp q) 0 with hle | hpos
  · have e : (c : ℚ) / 2 ^ ulpExp q = ((c * 2 ^ (0 - ulpExp q).toNat : Int) : ℚ) := by
      have := dyadic_div c hle
      simpa using this
    have h1 : q / 2 ^ ulpExp q ≤ ((c * 2 ^ (0 - ulpExp q).toNat : Int) : ℚ) := by
      rw [← e]; exact div_le_div_of_nonneg_right h (le_of_lt hu)
    have h3 : (roundEven (q / 2 ^ ulpExp q) : ℚ) ≤
        ((c * 2 ^ (0 - ulpExp q).toNat : Int) : ℚ) := Int.cast_le.mpr (roundEven_le h1)
    rw [← e] at h3
    exact (le_div_iff₀ hu).mp h3
  · obtain ⟨h24, hbig⟩ := ulpExp_pos_imp hpos
    have hqneg : q < 0 := by
      by_contra hneg
      have hq0 : 0 ≤ q := not_lt.mp hneg
      rw [abs_of_nonneg hq0] at h24
      linarith
    rw [abs_of_neg hqneg] at hbig
    have e : (2 : ℚ) ^ (ulpExp q + 23) / 2 ^ ulpExp q = ((2 ^ 23 : Int) : ℚ) := by
      rw [zpow_add₀ (by norm_num : (2 : ℚ) ≠ 0), mul_comm, mul_div_assoc,
        div_self (ne_of_gt hu)]
      norm_num
    have h1 : q / 2 ^ ulpExp q ≤ ((-(2 ^ 23) : Int) : ℚ) := by
      have : ((2 ^ 23 : Int) : ℚ) ≤ -q / 2 ^ ulpExp q := by
        rw [← e]; exact div_le_div_of_nonneg_right hbig (le_of_lt hu)
      rw [neg_div] at this
      push_cast at this ⊢
      linarith
    have h3 : (roundEven (q / 2 ^ ulpExp q) : ℚ) ≤ ((-(2 ^ 23) : Int) : ℚ) :=
      Int.cast_le.mpr (roundEven_le h1)
    have h4 : (2 : ℚ) ≤ 2 ^ ulpExp q := by
      have : (2 : ℚ) ^ (1 : Int) ≤ 2 ^ ulpExp q :=
        zpow_le_zpow_right₀ (by norm_num) (by omega)
      simpa using this
    have h5 : (roundEven (q / 2 ^ ulpExp q) : ℚ) * 2 ^ ulpExp q ≤ -(2 : ℚ) ^ (24 : ℕ) := by
      have h6 : (roundEven (q / 2 ^ ulpExp q) : ℚ) ≤ -(2 ^ 23) := by
        push_cast at h3; exact h3
      nlinarith
    linarith

end F32

/-! ## Swap-with-last removal -/

theorem moveLast_nil : moveLast [] = [] := rfl

theorem moveLast_concat (mid : List SoundBuffer) (l : SoundBuffer) :
    moveLast (mid ++ [l]) = l :: mid := by
  simp [moveLast]

theorem moveLast_perm (rest : List SoundBuffer) : (moveLast rest).Perm rest := by
  rcases List.eq_nil_or_concat rest with h | ⟨mid, l, h⟩
  · subst h; exact List.Perm.refl _
  · subst h
    rw [List.concat_eq_append, moveLast_concat]
    exact (List.perm_append_singleton l mid).symm

theorem moveLast_length (rest : List SoundBuffer) :
    (moveLast rest).length = rest.length :=
  (moveLast_perm rest).length_eq

/-- Overwriting slot `idx` with the last slot and popping the back removes
slot `idx` and moves the last slot into its place. -/
theorem assignLast_dropLast (pre rest : List SoundBuffer) (b : SoundBuffer) :
    (assignLast (pre ++ b :: rest) pre.length).dropLast = pre ++ moveLast rest := by
  rcases List.eq_nil_or_concat rest with h | ⟨mid, l, h⟩
  · subst h
    simp [assignLast, moveLast]
  · subst h
    rw [List.concat_eq_append, moveLast_concat]
    have h1 : (pre ++ b :: (mid ++ [l])).getLast? = some l := by
      rw [show pre ++ b :: (mid ++ [l]) = (pre ++ b :: mid) ++ [l] by simp]
      exact List.getLast?_concat _
    simp only [assignLast, h1]
    rw [List.set_append_right _ _ (le_refl _)]
    simp only [Nat.sub_self, List.set_cons_zero]
    rw [show pre ++ l :: (mid ++ [l]) = (pre ++ l :: mid) ++ [l] by simp]
    exact List.dropLast_concat

theorem getElem_append_cons_length (pre rest : List SoundBuffer) (b : SoundBuffer)
    (h : pre.length < (pre ++ b :: rest).length) :
    (pre ++ b :: rest)[pre.length] = b := by
  rw [List.getElem_append_right (le_refl _)]
  simp

/-! ## `StopSoundBuffer` -/

/-- Loop invariant of `StopSoundBuffer`: with the slots before `idx` already
known not to reference `inst` and enough iterations left, the loop returns
those slots followed by a rearrangement of the other slots behind them, and
lowers the play count of `inst` once per removed slot. -/
theorem stopLoop_spec (inst : Nat) :
    ∀ (fuel : Nat) (pre todo : List SoundBuffer) (playing : Nat → Int),
      todo.length ≤ fuel →
      (∀ b ∈ pre, b.sound.instance_id ≠ inst) →
      ∃ kept : List SoundBuffer,
        kept.Perm (others inst todo) ∧
        stopLoop inst fuel pre.length (pre ++ todo) playing =
          (pre ++ kept,
            Function.update playing inst (playing inst - (slotCount inst todo : Int))) := by
  intro fuel
  induction fuel with
  | zero =>
    intro pre todo playing hlen _
    have : todo = [] := List.length_eq_zero.mp (Nat.le_zero.mp hlen)
    subst this
    refine ⟨[], by simp [others], ?_⟩
    simp [stopLoop, slotCount]
  | succ fuel ih =>
    intro pre todo playing hlen hpre
    cases todo with
    | nil =>
      refine ⟨[], by simp [others], ?_⟩
      simp [stopLoop, slotCount]
    | cons b rest =>
      have hidx : pre.length < (pre ++ b :: rest).length := by simp
      have hget : (pre ++ b :: rest)[pre.length] = b :=
        getElem_append_cons_length pre rest b hidx
      have hrest : rest.length ≤ fuel := by
        simpa using hlen
      by_cases hb : b.sound.instance_id = inst
      · -- the slot at `idx` is removed
        have hnext : (if pre.length ≠ (pre ++ b :: rest).length - 1
              then assignLast (pre ++ b :: rest) pre.length
              else pre ++ b :: rest).dropLast = pre ++ moveLast rest := by
          by_cases hlast : pre.length ≠ (pre ++ b :: rest).length - 1
          · rw [if_pos hlast]; exact assignLast_dropLast pre rest b
          · rw [if_neg hlast]
            have hnil : rest = [] := by
              apply List.length_eq_zero.mp
              simp only [List.length_append, List.length_cons, ne_eq, not_not] at hlast
              omega
            subst hnil
            simp [moveLast]
        obtain ⟨kept, hperm, hrun⟩ :=
          ih pre (moveLast rest) (DecPlaying playing inst)
            (by rw [moveLast_length]; exact hrest) hpre
        refine ⟨kept, ?_, ?_⟩
        · have h1 : others inst (b :: rest) = others inst rest := by
            simp [others, hb]
          rw [h1]
          exact hperm.trans ((moveLast_perm rest).filter _)
        · rw [stopLoop, dif_pos hidx]
          simp only [hget, hb, if_true]
          rw [hnext, hrun]
          have hc : slotCount inst (moveLast rest) = slotCount inst rest :=
            (moveLast_perm rest).countP_eq _
          have hc2 : slotCount inst (b :: rest) = slotCount inst rest + 1 := by
            simp [slotCount, hb]
          rw [hc, hc2]
          congr 1
          funext i
          by_cases hi : i = inst
          · subst hi; simp [DecPlaying]; ring
          · simp [DecPlaying, Function.update, hi]
      · -- the slot at `idx` is kept
        obtain ⟨kept, hperm, hrun⟩ :=
          ih (pre ++ [b]) rest playing hrest (by
            intro x hx
            rcases List.mem_append.mp hx with h | h
            · exact hpre x h
            · simp at h; subst h; exact hb)
        refine ⟨b :: kept, ?_, ?_⟩
        · have h1 : others inst (b :: rest) = b :: others inst rest := by
            simp [others, hb]
          rw [h1]
          exact hperm.cons b
        · rw [stopLoop, dif_pos hidx]
          simp only [hget, hb, if_false]
          have e1 : pre.length + 1 = (pre ++ [b]).length := by simp
          have e2 : pre ++ b :: rest = (pre ++ [b]) ++ rest := by simp
          rw [e1, e2, hrun]
          have hc2 : slotCount inst (b :: rest) = slotCount inst rest := by
            simp [slotCount, hb]
          rw [hc2]
          simp

/-- When no slot from `idx` on references `inst`, the loop of `StopSoundBuffer`
changes nothing. -/
theorem stopLoop_absent (inst : Nat) :
    ∀ (fuel : Nat) (pre todo : List SoundBuffer) (playing : Nat → Int),
      (∀ b ∈ todo, b.sound.instance_id ≠ inst) →
      stopLoop inst fuel pre.length (pre ++ todo) playing = (pre ++ todo, playing) := by
  intro fuel
  induction fuel with
  | zero => intro pre todo playing _; rfl
  | succ fuel ih =>
    intro pre todo playing htodo
    cases todo with
    | nil => simp [stopLoop]
    | cons b rest =>
      have hidx : pre.length < (pre ++ b :: rest).length := by simp
      have hget : (pre ++ b :: rest)[pre.length] = b :=
        getElem_append_cons_length pre rest b hidx
      have hb : b.sound.instance_id ≠ inst := htodo b (List.mem_cons_self _ _)
      rw [stopLoop, dif_pos hidx]
      simp only [hget, hb, if_false]
      have e1 : pre.length + 1 = (pre ++ [b]).length := by simp
      have e2 : pre ++ b :: rest = (pre ++ [b]) ++ rest := by simp
      rw [e1, e2]
      exact ih (pre ++ [b]) rest playing
        (fun x hx => htodo x (List.mem_cons_of_mem _ hx))

theorem mem_others {inst : Nat} {buffers : List SoundBuffer} {b : SoundBuffer} :
    b ∈ others inst buffers ↔ b ∈ buffers ∧ b.sound.instance_id ≠ inst := by
  simp [others]

theorem slotCount_others_self (inst : Nat) (buffers : List SoundBuffer) :
    slotCount inst (others inst buffers) = 0 := by
  simp [slotCount, others, List.countP_eq_zero]

theorem slotCount_others_of_ne {inst other : Nat} (h : inst ≠ other)
    (buffers : List SoundBuffer) :
    slotCount inst (others other buffers) = slotCount inst buffers := by
  induction buffers with
  | nil => rfl
  | cons b rest ih =>
    by_cases hb : b.sound.instance_id = other
    · have hb2 : b.sound.instance_id ≠ inst := fun e => h (e.symm.trans hb)
      have e1 : others other (b :: rest) = others other rest := by simp [others, hb]
      have e2 : slotCount inst (b :: rest) = slotCount inst rest := by
        simp [slotCount, hb2]
      rw [e1, e2, ih]
    · have e1 : others other (b :: rest) = b :: others other rest := by
        simp [others, hb]
      rw [e1]
      simp only [slotCount, List.countP_cons] at ih ⊢
      rw [ih]

/-- The slot list left by `StopSoundBuffer` is a rearrangement of the slots of
the other sources. -/
theorem StopSoundBuffer_buffers_perm (st : SoundMixerState) (sound : Sound) :
    (StopSoundBuffer st sound).buffers.Perm (others sound.instance_id st.buffers) := by
  obtain ⟨kept, hperm, hrun⟩ :=
    stopLoop_spec sound.instance_id st.buffers.length [] st.buffers st.playing
      (le_refl _) (by simp)
  simp only [List.length_nil, List.nil_append] at hrun
  simp only [StopSoundBuffer, hrun]
  exact hperm

/-- The play counts left by `StopSoundBuffer`: one `DecPlaying` per removed
slot, all on the stopped instance. -/
theorem StopSoundBuffer_playing (st : SoundMixerState) (sound : Sound) :
    (StopSoundBuffer st sound).playing =
      Function.update st.playing sound.instance_id
        (st.playing sound.instance_id - (slotCount sound.instance_id st.buffers : Int)) := by
  obtain ⟨kept, _, hrun⟩ :=
    stopLoop_spec sound.instance_id st.buffers.length [] st.buffers st.playing
      (le_refl _) (by simp)
  simp only [List.length_nil, List.nil_append] at hrun
  simp only [StopSoundBuffer, hrun]

/-- Without a slot referencing the stopped source, `StopSoundBuffer` returns
the state it was given. -/
theorem StopSoundBuffer_absent (st : SoundMixerState) (sound : Sound)
    (h : ∀ b ∈ st.buffers, b.sound.instance_id ≠ sound.instance_id) :
    StopSoundBuffer st sound = st := by
  have hrun := stopLoop_absent sound.instance_id st.buffers.length [] st.buffers
    st.playing h
  simp only [List.length_nil, List.nil_append] at hrun
  simp only [StopSoundBuffer, hrun]

/-! ## The locked pass of `MixSound` -/

theorem wrapSi32_of_range {n : Int} (h1 : -(2 ^ 31) ≤ n) (h2 : n < 2 ^ 31) :
    wrapSi32 n = n := by
  unfold wrapSi32
  norm_num at h1 h2 ⊢
  omega

theorem wrapSi32_range (n : Int) : -(2 ^ 31) ≤ wrapSi32 n ∧ wrapSi32 n < 2 ^ 31 := by
  unfold wrapSi32
  norm_num
  omega

theorem wrapSi32_idem (n : Int) : wrapSi32 (wrapSi32 n) = wrapSi32 n :=
  wrapSi32_of_range (wrapSi32_range n).1 (wrapSi32_range n).2

theorem wrapSi32_add (a x : Int) : wrapSi32 (wrapSi32 a + x) = wrapSi32 (a + x) := by
  unfold wrapSi32
  norm_num
  omega

theorem wrapSi16_of_range {n : Int} (h1 : -(2 ^ 15) ≤ n) (h2 : n < 2 ^ 15) :
    wrapSi16 n = n := by
  unfold wrapSi16
  norm_num at h1 h2 ⊢
  omega

/-- Where C++ defines the conversion it is the truncation toward zero. -/
theorem toSi32_fin_of_range {r : ℚ} (h1 : -(2 ^ 31) ≤ F32.trunc r)
    (h2 : F32.trunc r ≤ 2 ^ 31 - 1) : F32.toSi32 (F32.fin r) = F32.trunc r :=
  if_pos ⟨h1, h2⟩

/-- A finite value whose truncation is not a value of `Si32` is converted to
`-2 ^ 31`. -/
theorem toSi32_fin_out_of_range {r : ℚ}
    (h : ¬ (-(2 ^ 31) ≤ F32.trunc r ∧ F32.trunc r ≤ 2 ^ 31 - 1)) :
    F32.toSi32 (F32.fin r) = -(2 ^ 31) :=
  if_neg h

theorem toSi32_range (x : F32) : -(2 ^ 31) ≤ F32.toSi32 x ∧ F32.toSi32 x < 2 ^ 31 := by
  cases x with
  | fin q =>
    by_cases h : -(2 ^ 31) ≤ F32.trunc q ∧ F32.trunc q ≤ 2 ^ 31 - 1
    · rw [toSi32_fin_of_range h.1 h.2]
      exact ⟨h.1, by omega⟩
    · rw [show F32.toSi32 (F32.fin q) = -(2 ^ 31) from if_neg h]
      decide
  | pinf => decide
  | ninf => decide
  | nan => decide
theorem accumulate_position (volume : F32) (in_data : List (Int × Int)) :
    ∀ (i : Nat) (mix : Nat → Int) (next_position : Int),
      (accumulate volume in_data i mix next_position).2 =
        next_position + (in_data.length : Int) := by
  induction in_data with
  | nil => intro i mix np; simp [accumulate]
  | cons frame rest ih =>
    intro i mix np
    obtain ⟨left, right⟩ := frame
    simp only [accumulate, ih, List.length_cons]
    push_cast
    ring

theorem sampleAt_nil (j : Nat) : sampleAt [] j = none := by
  simp [sampleAt]

theorem sampleAt_cons_zero (frame : Int × Int) (rest : List (Int × Int)) :
    sampleAt (frame :: rest) 0 = some frame.1 := by
  simp [sampleAt]

theorem sampleAt_cons_one (frame : Int × Int) (rest : List (Int × Int)) :
    sampleAt (frame :: rest) 1 = some frame.2 := by
  simp [sampleAt]

theorem sampleAt_cons_add_two (frame : Int × Int) (rest : List (Int × Int)) (j : Nat) :
    sampleAt (frame :: rest) (j + 2) = sampleAt rest j := by
  have h1 : (j + 2) / 2 = j / 2 + 1 := by omega
  have h2 : (j + 2) % 2 = j % 2 := by omega
  simp [sampleAt, h1, h2]

/-- The accumulators after the inner loop: accumulator `j` receives the scaled
sample of its frame, and only accumulators of the frames read change. -/
theorem accumulate_mix (volume : F32) (in_data : List (Int × Int)) :
    ∀ (i : Nat) (mix : Nat → Int) (next_position : Int) (j : Nat),
      (accumulate volume in_data i mix next_position).1 j =
        if j < i * 2 then mix j
        else match sampleAt in_data (j - i * 2) with
          | some x => wrapSi32 (mix j + F32.toSi32 (F32.mul (F32.ofInt x) volume))
          | none => mix j := by
  induction in_data with
  | nil => intro i mix np j; simp [accumulate, sampleAt_nil]
  | cons frame rest ih =>
    intro i mix np j
    obtain ⟨left, right⟩ := frame
    simp only [accumulate]
    rw [ih]
    by_cases h1 : j < i * 2
    · have h2 : j < (i + 1) * 2 := by omega
      rw [if_pos h1, if_pos h2]
      have e1 : j ≠ i * 2 + 1 := by omega
      have e2 : j ≠ i * 2 := by omega
      simp [Function.update, e1, e2]
    · rw [if_neg h1]
      by_cases h3 : j = i * 2
      · subst h3
        have h4 : i * 2 < (i + 1) * 2 := by omega
        rw [if_pos h4, Nat.sub_self, sampleAt_cons_zero]
        simp [Function.update]
      · by_cases h5 : j = i * 2 + 1
        · subst h5
          have h4 : i * 2 + 1 < (i + 1) * 2 := by omega
          have h6 : i * 2 + 1 - i * 2 = 1 := by omega
          rw [if_pos h4, h6, sampleAt_cons_one]
          simp [Function.update]
        · have h4 : ¬ j < (i + 1) * 2 := by omega
          have h6 : j - i * 2 = (j - (i + 1) * 2) + 2 := by omega
          rw [if_neg h4, h6, sampleAt_cons_add_two]
          simp [Function.update, h3, h5]

theorem accumulate_mix_zero (b : SoundBuffer) (period_size : Nat) (mix : Nat → Int)
    (hmix : ∀ j, wrapSi32 (mix j) = mix j) (j : Nat) :
    (accumulate b.volume (b.frames period_size) 0 mix b.next_position).1 j =
      wrapSi32 (mix j + b.contribution period_size j) := by
  rw [accumulate_mix]
  simp only [Nat.zero_mul, Nat.not_lt_zero, if_false, Nat.sub_zero,
    SoundBuffer.contribution]
  cases sampleAt (b.frames period_size) j with
  | none => simp [hmix]
  | some x => rfl
theorem set_append_cons_length (pre rest : List SoundBuffer) (b c : SoundBuffer) :
    (pre ++ b :: rest).set pre.length c = pre ++ c :: rest := by
  rw [List.set_append_right _ _ (le_refl _)]
  simp

/-- One iteration of the slot loop of `MixSound`, in terms of the slot at `idx`
and the slots before and behind it. -/
theorem mixLoop_step (period_size fuel : Nat) (pre rest : List SoundBuffer)
    (b : SoundBuffer) (playing mix : Nat → Int) :
    mixLoop period_size (fuel + 1) pre.length (pre ++ b :: rest) playing mix =
      if b.finished period_size then
        mixLoop period_size fuel pre.length (pre ++ moveLast rest)
          (DecPlaying playing b.sound.instance_id)
          (accumulate b.volume (b.frames period_size) 0 mix b.next_position).1
      else
        mixLoop period_size fuel (pre.length + 1) (pre ++ b.advance period_size :: rest)
          playing (accumulate b.volume (b.frames period_size) 0 mix b.next_position).1 := by
  have hidx : pre.length < (pre ++ b :: rest).length := by simp
  have hget : (pre ++ b :: rest)[pre.length] = b :=
    getElem_append_cons_length pre rest b hidx
  rw [mixLoop, dif_pos hidx]
  simp only [hget, accumulate_position, set_append_cons_length, assignLast_dropLast]
  rfl

theorem mixedSum_perm {period_size : Nat} {l1 l2 : List SoundBuffer} (h : l1.Perm l2)
    (j : Nat) : mixedSum period_size l1 j = mixedSum period_size l2 j :=
  (h.map _).sum_eq

theorem survivors_perm {period_size : Nat} {l1 l2 : List SoundBuffer} (h : l1.Perm l2) :
    (survivors period_size l1).Perm (survivors period_size l2) :=
  (h.filter _).map _

/-- Loop invariant of `MixSound`: with the slots before `idx` processed and
kept, the loop processes every slot from `idx` on once, keeps those that do
not meet the removal condition, calls `DecPlaying` once for each of the
others, and adds the contribution of every slot to the accumulators. -/
theorem mixLoop_spec (period_size : Nat) :
    ∀ (fuel : Nat) (pre todo : List SoundBuffer) (playing mix : Nat → Int),
      todo.length ≤ fuel →
      (∀ j, wrapSi32 (mix j) = mix j) →
      ∃ kept : List SoundBuffer,
        kept.Perm (survivors period_size todo) ∧
        mixLoop period_size fuel pre.length (pre ++ todo) playing mix =
          (pre ++ kept,
            (fun i => playing i - (removedCount period_size i todo : Int)),
            (fun j => wrapSi32 (mix j + mixedSum period_size todo j))) := by
  intro fuel
  induction fuel with
  | zero =>
    intro pre todo playing mix hlen hmix
    have : todo = [] := List.length_eq_zero.mp (Nat.le_zero.mp hlen)
    subst this
    refine ⟨[], by simp [survivors], ?_⟩
    simp [mixLoop, removedCount, mixedSum, hmix]
  | succ fuel ih =>
    intro pre todo playing mix hlen hmix
    cases todo with
    | nil =>
      refine ⟨[], by simp [survivors], ?_⟩
      simp [mixLoop, removedCount, mixedSum, hmix]
    | cons b rest =>
      have hrest : rest.length ≤ fuel := by simpa using hlen
      have hacc : ∀ j,
          wrapSi32 ((accumulate b.volume (b.frames period_size) 0 mix b.next_position).1 j) =
            (accumulate b.volume (b.frames period_size) 0 mix b.next_position).1 j := by
        intro j
        rw [accumulate_mix_zero b period_size mix hmix, wrapSi32_idem]
      have hsum : ∀ j, mixedSum period_size (b :: rest) j =
          b.contribution period_size j + mixedSum period_size rest j := by
        intro j; simp [mixedSum]
      rw [mixLoop_step]
      by_cases hb : b.finished period_size
      · rw [if_pos hb]
        obtain ⟨kept, hperm, hrun⟩ :=
          ih pre (moveLast rest) (DecPlaying playing b.sound.instance_id) _
            (by rw [moveLast_length]; exact hrest) hacc
        refine ⟨kept, ?_, ?_⟩
        · have h1 : survivors period_size (b :: rest) = survivors period_size rest := by
            simp [survivors, hb]
          rw [h1]
          exact hperm.trans (survivors_perm (moveLast_perm rest))
        · rw [hrun]
          refine Prod.ext rfl (Prod.ext ?_ ?_)
          · funext i
            have hc : removedCount period_size i (moveLast rest) =
                removedCount period_size i rest := (moveLast_perm rest).countP_eq _
            simp only [hc]
            by_cases hi : b.sound.instance_id = i
            · have hc2 : removedCount period_size i (b :: rest) =
                  removedCount period_size i rest + 1 := by
                simp [removedCount, hb, hi]
              rw [hc2]
              subst hi
              simp [DecPlaying]
              ring
            · have hc2 : removedCount period_size i (b :: rest) =
                  removedCount period_size i rest := by
                simp [removedCount, hb, hi]
              rw [hc2]
              simp [DecPlaying, Function.update, Ne.symm hi]
          · funext j
            simp only [mixedSum_perm (moveLast_perm rest) j]
            rw [accumulate_mix_zero b period_size mix hmix, wrapSi32_add, hsum, add_assoc]
      · rw [if_neg hb]
        obtain ⟨kept, hperm, hrun⟩ :=
          ih (pre ++ [b.advance period_size]) rest playing _ hrest hacc
        refine ⟨b.advance period_size :: kept, ?_, ?_⟩
        · have h1 : survivors period_size (b :: rest) =
              b.advance period_size :: survivors period_size rest := by
            simp [survivors, hb]
          rw [h1]
          exact hperm.cons _
        · have e1 : pre.length + 1 = (pre ++ [b.advance period_size]).length := by simp
          have e2 : pre ++ b.advance period_size :: rest =
              (pre ++ [b.advance period_size]) ++ rest := by simp
          rw [e1, e2, hrun]
          refine Prod.ext (by simp) (Prod.ext ?_ ?_)
          · funext i
            have hc2 : removedCount period_size i (b :: rest) =
                removedCount period_size i rest := by
              simp [removedCount, hb]
            simp only [hc2]
          · funext j
            simp only []
            rw [accumulate_mix_zero b period_size mix hmix, wrapSi32_add, hsum, add_assoc]

/-! ## `MixSound` as a whole and its output stage -/

theorem wrapSi32_zero : wrapSi32 0 = 0 := by decide

theorem MixSound_buffers_perm (period_size : Nat) (st : SoundMixerState) :
    (MixSound period_size st).1.buffers.Perm (survivors period_size st.buffers) := by
  obtain ⟨kept, hperm, hrun⟩ :=
    mixLoop_spec period_size st.buffers.length [] st.buffers st.playing (fun _ => 0)
      (le_refl _) (fun _ => wrapSi32_zero)
  simp only [List.length_nil, List.nil_append] at hrun
  simp only [MixSound, hrun]
  exact hperm

theorem MixSound_playing (period_size : Nat) (st : SoundMixerState) (i : Nat) :
    (MixSound period_size st).1.playing i =
      st.playing i - (removedCount period_size i st.buffers : Int) := by
  obtain ⟨kept, _, hrun⟩ :=
    mixLoop_spec period_size st.buffers.length [] st.buffers st.playing (fun _ => 0)
      (le_refl _) (fun _ => wrapSi32_zero)
  simp only [List.length_nil, List.nil_append] at hrun
  simp only [MixSound, hrun]

theorem mixAccumulators_eq (period_size : Nat) (st : SoundMixerState) (j : Nat) :
    mixAccumulators period_size st j = wrapSi32 (mixedSum period_size st.buffers j) := by
  obtain ⟨kept, _, hrun⟩ :=
    mixLoop_spec period_size st.buffers.length [] st.buffers st.playing (fun _ => 0)
      (le_refl _) (fun _ => wrapSi32_zero)
  simp only [List.length_nil, List.nil_append] at hrun
  simp only [mixAccumulators, hrun]
  simp

theorem MixSound_bytes (period_size : Nat) (st : SoundMixerState) :
    (MixSound period_size st).2 = (mixSamples period_size st).flatMap sampleBytes := by
  simp [MixSound, mixSamples, mixAccumulators, List.flatMap_map]

theorem mixSamples_length (period_size : Nat) (st : SoundMixerState) :
    (mixSamples period_size st).length = period_size * 2 := by
  simp [mixSamples]

theorem mixSamples_getElem? (period_size : Nat) (st : SoundMixerState) (j : Nat)
    (hj : j < period_size * 2) :
    (mixSamples period_size st)[j]? =
      some (outputSample st.master_volume (wrapSi32 (mixedSum period_size st.buffers j))) := by
  simp [mixSamples, hj, mixAccumulators_eq]
namespace F32

/-- The value `round` picks before the overflow test. -/
theorem round_eq_ite (q : ℚ) :
    round q =
      if (2 : ℚ) ^ 128 ≤ (roundEven (q / 2 ^ ulpExp q) : ℚ) * 2 ^ ulpExp q then pinf
      else if (roundEven (q / 2 ^ ulpExp q) : ℚ) * 2 ^ ulpExp q ≤ -(2 ^ 128) then ninf
      else fin ((roundEven (q / 2 ^ ulpExp q) : ℚ) * 2 ^ ulpExp q) := rfl

theorem two_pow_24_le : (2 : ℚ) ^ (24 : ℕ) ≤ 2 ^ 128 :=
  pow_le_pow_right₀ (by norm_num) (by norm_num)

theorem round_atLeast (c : Int) (hc : |c| < 2 ^ 24) {q : ℚ} (h : (c : ℚ) ≤ q) :
    atLeast c (round q) := by
  have hr := roundValue_ge c hc h
  have hcq := abs_lt.mp (intCast_abs_lt hc)
  have h24 := two_pow_24_le
  rw [round_eq_ite]
  by_cases h1 : (2 : ℚ) ^ 128 ≤ (roundEven (q / 2 ^ ulpExp q) : ℚ) * 2 ^ ulpExp q
  · rw [if_pos h1]; trivial
  · rw [if_neg h1]
    cases le_or_lt ((roundEven (q / 2 ^ ulpExp q) : ℚ) * 2 ^ ulpExp q) (-(2 ^ 128)) with
    | inl h2 => exfalso; linarith
    | inr h2 => rw [if_neg (not_le.mpr h2)]; exact hr

theorem round_atMost (c : Int) (hc : |c| < 2 ^ 24) {q : ℚ} (h : q ≤ (c : ℚ)) :
    atMost c (round q) := by
  have hr := roundValue_le c hc h
  have hcq := abs_lt.mp (intCast_abs_lt hc)
  have h24 := two_pow_24_le
  rw [round_eq_ite]
  by_cases h1 : (2 : ℚ) ^ 128 ≤ (roundEven (q / 2 ^ ulpExp q) : ℚ) * 2 ^ ulpExp q
  · exfalso; linarith
  · rw [if_neg h1]
    cases le_or_lt ((roundEven (q / 2 ^ ulpExp q) : ℚ) * 2 ^ ulpExp q) (-(2 ^ 128)) with
    | inl h2 => rw [if_pos h2]; trivial
    | inr h2 => rw [if_neg (not_le.mpr h2)]; exact hr

theorem mul_fin_one (r : ℚ) : mul (fin r) (fin 1) = round r := by
  simp [mul]

theorem trunc_intCast (n : Int) : trunc (n : ℚ) = n := by
  simp [trunc]

theorem trunc_bounds {r : ℚ} {a b : Int} (ha : a ≤ 0) (hb : 0 ≤ b)
    (h1 : (a : ℚ) ≤ r) (h2 : r ≤ (b : ℚ)) : a ≤ trunc r ∧ trunc r ≤ b := by
  unfold trunc
  split_ifs with h0
  · constructor
    · exact le_trans ha (Int.floor_nonneg.mpr h0)
    · have : ⌊r⌋ < b + 1 := Int.floor_lt.mpr (lt_of_le_of_lt h2 (by push_cast; linarith))
      omega
  · have hneg : r < 0 := not_le.mp h0
    constructor
    · exact Int.le_ceil_iff.mpr (by linarith)
    · have : ⌈r⌉ ≤ 0 := Int.ceil_le.mpr (by push_cast; linarith)
      omega

theorem trunc_nonneg {r : ℚ} (h : 0 ≤ r) : 0 ≤ trunc r := by
  unfold trunc
  rw [if_pos h]
  exact Int.floor_nonneg.mpr h

theorem trunc_nonpos {r : ℚ} (h : r ≤ 0) : trunc r ≤ 0 := by
  unfold trunc
  split_ifs with h0
  · have : r = 0 := le_antisymm h h0
    subst this; simp
  · exact Int.ceil_le.mpr (by push_cast; linarith)

end F32
theorem toSi16_fin_of_bounds {r : ℚ} (h1 : (-32767 : ℚ) ≤ r) (h2 : r ≤ 32767) :
    F32.toSi16 (F32.fin r) = F32.trunc r := by
  have hb := F32.trunc_bounds (a := -32767) (b := 32767) (by norm_num) (by norm_num)
    (by push_cast; exact h1) (by push_cast; exact h2)
  have e : F32.toSi32 (F32.fin r) = F32.trunc r :=
    toSi32_fin_of_range (by omega) (by omega)
  unfold F32.toSi16
  rw [e]
  exact wrapSi16_of_range (by omega) (by omega)

theorem clampOutput_fin (r : ℚ) :
    clampOutput (F32.fin r) =
      if r < -32767 then -32767 else if 32767 < r then 32767 else F32.trunc r := by
  unfold clampOutput F32.max F32.min
  by_cases h1 : r < -32767
  · have e1 : F32.lt (F32.fin r) (F32.fin (-32767)) = true := by simp [F32.lt, h1]
    have e2 : F32.lt (F32.fin 32767) (F32.fin (-32767)) = false := by
      simp only [F32.lt]; norm_num
    rw [if_pos h1, e1, if_pos rfl, e2]
    simp only [Bool.false_eq_true, if_false]
    rw [toSi16_fin_of_bounds (le_refl _) (by norm_num)]
    have := F32.trunc_intCast (-32767)
    push_cast at this
    exact this
  · have e1 : F32.lt (F32.fin r) (F32.fin (-32767)) = false := by simp [F32.lt, h1]
    rw [if_neg h1, e1]
    simp only [Bool.false_eq_true, if_false]
    by_cases h2 : 32767 < r
    · have e2 : F32.lt (F32.fin 32767) (F32.fin r) = true := by simp [F32.lt, h2]
      rw [if_pos h2, e2, if_pos rfl]
      rw [toSi16_fin_of_bounds (by norm_num) (le_refl _)]
      have := F32.trunc_intCast 32767
      push_cast at this
      exact this
    · have e2 : F32.lt (F32.fin 32767) (F32.fin r) = false := by simp [F32.lt, h2]
      rw [if_neg h2, e2]
      simp only [Bool.false_eq_true, if_false]
      exact toSi16_fin_of_bounds (not_lt.mp h1) (not_lt.mp h2)

theorem clampOutput_pinf : clampOutput F32.pinf = 32767 := by
  have e : clampOutput F32.pinf = F32.toSi16 (F32.fin 32767) := by
    simp [clampOutput, F32.max, F32.min, F32.lt]
  rw [e, toSi16_fin_of_bounds (by norm_num) (le_refl _)]
  have := F32.trunc_intCast 32767
  push_cast at this
  exact this

theorem clampOutput_ninf : clampOutput F32.ninf = -32767 := by
  have e : clampOutput F32.ninf = F32.toSi16 (F32.fin (-32767)) := by
    simp only [clampOutput, F32.max, F32.min, F32.lt, if_true]
    norm_num
  rw [e, toSi16_fin_of_bounds (le_refl _) (by norm_num)]
  have := F32.trunc_intCast (-32767)
  push_cast at this
  exact this

theorem clampOutput_nan : clampOutput F32.nan = 0 := by
  simp [clampOutput, F32.max, F32.min, F32.lt, F32.toSi16, F32.toSi32, wrapSi16]

/-- The output stage never leaves `[-32767, 32767]`. -/
theorem clampOutput_range (x : F32) : -32767 ≤ clampOutput x ∧ clampOutput x ≤ 32767 := by
  cases x with
  | fin r =>
    rw [clampOutput_fin]
    split_ifs with h1 h2
    · decide
    · decide
    · exact F32.trunc_bounds (a := -32767) (b := 32767) (by norm_num) (by norm_num)
        (by push_cast; exact not_lt.mp h1) (by push_cast; exact not_lt.mp h2)
  | pinf => rw [clampOutput_pinf]; decide
  | ninf => rw [clampOutput_ninf]; decide
  | nan => rw [clampOutput_nan]; decide

theorem clampOutput_atLeast {x : F32} (h : F32.atLeast 32767 x) : clampOutput x = 32767 := by
  cases x with
  | fin r =>
    have hr : (32767 : ℚ) ≤ r := h
    rw [clampOutput_fin, if_neg (by linarith)]
    by_cases h2 : 32767 < r
    · rw [if_pos h2]
    · rw [if_neg h2]
      have : r = 32767 := le_antisymm (not_lt.mp h2) hr
      subst this
      have := F32.trunc_intCast 32767
      push_cast at this
      exact this
  | pinf => exact clampOutput_pinf
  | ninf => exact absurd h (by simp [F32.atLeast])
  | nan => exact absurd h (by simp [F32.atLeast])

theorem clampOutput_atMost {x : F32} (h : F32.atMost (-32767) x) :
    clampOutput x = -32767 := by
  cases x with
  | fin r =>
    have hr : r ≤ (-32767 : ℚ) := h
    rw [clampOutput_fin]
    by_cases h1 : r < -32767
    · rw [if_pos h1]
    · rw [if_neg h1, if_neg (by linarith)]
      have : r = -32767 := le_antisymm hr (not_lt.mp h1)
      subst this
      have := F32.trunc_intCast (-32767)
      push_cast at this
      exact this
  | pinf => exact absurd h (by simp [F32.atMost])
  | ninf => exact clampOutput_ninf
  | nan => exact absurd h (by simp [F32.atMost])

theorem clampOutput_nonneg {x : F32} (h : F32.atLeast 0 x) : 0 ≤ clampOutput x := by
  cases x with
  | fin r =>
    have hr : (0 : ℚ) ≤ r := h
    rw [clampOutput_fin, if_neg (by linarith)]
    split_ifs
    · decide
    · exact F32.trunc_nonneg hr
  | pinf => rw [clampOutput_pinf]; decide
  | ninf => exact absurd h (by simp [F32.atLeast])
  | nan => exact absurd h (by simp [F32.atLeast])

theorem clampOutput_nonpos {x : F32} (h : F32.atMost 0 x) : clampOutput x ≤ 0 := by
  cases x with
  | fin r =>
    have hr : r ≤ (0 : ℚ) := h
    rw [clampOutput_fin]
    split_ifs with h1 h2
    · decide
    · exfalso; linarith
    · exact F32.trunc_nonpos hr
  | pinf => exact absurd h (by simp [F32.atMost])
  | ninf => rw [clampOutput_ninf]; decide
  | nan => exact absurd h (by simp [F32.atMost])

theorem outputSample_eq (master_volume : F32) (acc : Int) :
    outputSample master_volume acc =
      clampOutput (F32.mul (F32.ofInt acc) master_volume) := rfl

theorem mul_one_atLeast (c : Int) (hc : |c| < 2 ^ 24) {x : F32}
    (h : F32.atLeast c x) : F32.atLeast c (F32.mul x (F32.fin 1)) := by
  cases x with
  | fin r =>
    rw [F32.mul_fin_one]
    exact F32.round_atLeast c hc h
  | pinf => simp [F32.mul, F32.atLeast]
  | ninf => exact absurd h (by simp [F32.atLeast])
  | nan => exact absurd h (by simp [F32.atLeast])

theorem mul_one_atMost (c : Int) (hc : |c| < 2 ^ 24) {x : F32}
    (h : F32.atMost c x) : F32.atMost c (F32.mul x (F32.fin 1)) := by
  cases x with
  | fin r =>
    rw [F32.mul_fin_one]
    exact F32.round_atMost c hc h
  | pinf => exact absurd h (by simp [F32.atMost])
  | ninf => simp [F32.mul, F32.atMost]
  | nan => exact absurd h (by simp [F32.atMost])

/-- With master volume `1.0` the output stage saturates the accumulated
value at `-32767` and `32767` and changes nothing else. -/
theorem outputSample_one (acc : Int) : outputSample (F32.fin 1) acc = clampSi16 acc := by
  rw [outputSample_eq]
  rcases le_or_lt 32767 acc with h1 | h1
  · have ha : F32.atLeast ((32767 : Int) : ℚ) (F32.ofInt acc) :=
      F32.round_atLeast 32767 (by decide) (by exact_mod_cast h1)
    have hb := mul_one_atLeast 32767 (by decide) ha
    rw [clampOutput_atLeast (by simpa using hb)]
    unfold clampSi16
    omega
  · rcases le_or_lt acc (-32767) with h2 | h2
    · have ha : F32.atMost ((-32767 : Int) : ℚ) (F32.ofInt acc) :=
        F32.round_atMost (-32767) (by decide) (by exact_mod_cast h2)
      have hb := mul_one_atMost (-32767) (by decide) ha
      rw [clampOutput_atMost (by simpa using hb)]
      unfold clampSi16
      omega
    · have habs : |acc| < 2 ^ 24 := by
        rw [abs_lt]; constructor <;> norm_num <;> omega
      rw [F32.ofInt_eq acc habs, F32.mul_fin_one, F32.round_intCast acc habs,
        clampOutput_fin]
      have h3 : ¬ ((acc : ℚ) < -32767) := by
        have : (-32767 : ℚ) < acc := by exact_mod_cast h2
        linarith
      have h4 : ¬ ((32767 : ℚ) < acc) := by
        have : (acc : ℚ) < 32767 := by exact_mod_cast h1
        linarith
      rw [if_neg h3, if_neg h4, F32.trunc_intCast]
      unfold clampSi16
      omega

/-- With master volume `0` every output sample is `0`. -/
theorem outputSample_zero (acc : Int) : outputSample (F32.fin 0) acc = 0 := by
  rw [outputSample_eq]
  have h0 : F32.round 0 = F32.fin 0 := by
    have := F32.round_intCast 0 (by decide)
    simpa using this
  cases h : F32.ofInt acc with
  | fin r =>
    simp only [F32.mul, mul_zero, h0]
    rw [clampOutput_fin]
    norm_num [F32.trunc]
  | pinf => simp [F32.mul, clampOutput_nan]
  | ninf => simp [F32.mul, clampOutput_nan]
  | nan => simp [F32.mul, clampOutput_nan]

theorem mul_atLeast_zero {x m : F32} (hx : F32.atLeast 0 x) (hm : F32.atLeast 0 m) :
    F32.atLeast 0 (F32.mul x m) ∨ F32.mul x m = F32.nan := by
  cases x with
  | fin a =>
    have ha : (0 : ℚ) ≤ a := hx
    cases m with
    | fin b =>
      have hb : (0 : ℚ) ≤ b := hm
      left
      have := F32.round_atLeast 0 (by decide) (q := a * b) (by simpa using mul_nonneg ha hb)
      simpa [F32.mul] using this
    | pinf =>
      by_cases h0 : a = 0
      · right; simp [F32.mul, h0]
      · left
        have : 0 < a := lt_of_le_of_ne ha (Ne.symm h0)
        simp [F32.mul, h0, this, F32.atLeast]
    | ninf => exact absurd hm (by simp [F32.atLeast])
    | nan => exact absurd hm (by simp [F32.atLeast])
  | pinf =>
    cases m with
    | fin b =>
      have hb : (0 : ℚ) ≤ b := hm
      by_cases h0 : b = 0
      · right; simp [F32.mul, h0]
      · left
        have : 0 < b := lt_of_le_of_ne hb (Ne.symm h0)
        simp [F32.mul, h0, this, F32.atLeast]
    | pinf => left; simp [F32.mul, F32.atLeast]
    | ninf => exact absurd hm (by simp [F32.atLeast])
    | nan => exact absurd hm (by simp [F32.atLeast])
  | ninf => exact absurd hx (by simp [F32.atLeast])
  | nan => exact absurd hx (by simp [F32.atLeast])

theorem mul_atMost_zero {x m : F32} (hx : F32.atMost 0 x) (hm : F32.atLeast 0 m) :
    F32.atMost 0 (F32.mul x m) ∨ F32.mul x m = F32.nan := by
  cases x with
  | fin a =>
    have ha : a ≤ (0 : ℚ) := hx
    cases m with
    | fin b =>
      have hb : (0 : ℚ) ≤ b := hm
      left
      have := F32.round_atMost 0 (by decide) (q := a * b)
        (by simpa using mul_nonpos_of_nonpos_of_nonneg ha hb)
      simpa [F32.mul] using this
    | pinf =>
      by_cases h0 : a = 0
      · right; simp [F32.mul, h0]
      · left
        have : ¬ 0 < a := not_lt.mpr ha
        simp [F32.mul, h0, this, F32.atMost]
    | ninf => exact absurd hm (by simp [F32.atLeast])
    | nan => exact absurd hm (by simp [F32.atLeast])
  | ninf =>
    cases m with
    | fin b =>
      have hb : (0 : ℚ) ≤ b := hm
      by_cases h0 : b = 0
      · right; simp [F32.mul, h0]
      · left
        have : 0 < b := lt_of_le_of_ne hb (Ne.symm h0)
        simp [F32.mul, h0, this, F32.atMost]
    | pinf => left; simp [F32.mul, F32.atMost]
    | ninf => exact absurd hm (by simp [F32.atLeast])
    | nan => exact absurd hm (by simp [F32.atLeast])
  | pinf => exact absurd hx (by simp [F32.atMost])
  | nan => exact absurd hx (by simp [F32.atMost])

/-- The two bytes of output sample `j` within the output buffer. -/
theorem flatMap_sampleBytes_chunk (xs : List Int) :
    ∀ (j : Nat) (x : Int), xs[j]? = some x →
      ((xs.flatMap sampleBytes).drop (2 * j)).take 2 = sampleBytes x := by
  induction xs with
  | nil => intro j x h; simp at h
  | cons y rest ih =>
    intro j x h
    cases j with
    | zero =>
      simp at h
      subst h
      simp [sampleBytes]
    | succ j =>
      simp at h
      have e : 2 * (j + 1) = 2 * j + 2 := by ring
      rw [List.flatMap_cons, e]
      have := ih j x h
      simpa [sampleBytes, ← List.drop_drop] using this

theorem survivors_singleton (period_size : Nat) (b : SoundBuffer) :
    survivors period_size [b] =
      if b.finished period_size then [] else [b.advance period_size] := by
  by_cases h : b.finished period_size <;> simp [survivors, h]

theorem mixedSum_singleton (period_size : Nat) (b : SoundBuffer) (j : Nat) :
    mixedSum period_size [b] j = b.contribution period_size j := by
  simp [mixedSum]

theorem contribution_range (period_size : Nat) (b : SoundBuffer) (j : Nat) :
    -(2 ^ 31) ≤ b.contribution period_size j ∧ b.contribution period_size j < 2 ^ 31 := by
  unfold SoundBuffer.contribution
  cases sampleAt (b.frames period_size) j with
  | none => simp
  | some x => exact toSi32_range _

/-- A sample exists for accumulator `j` exactly when frame `j / 2` was
produced, so only for `j` below twice the period. -/
theorem sampleAt_lt (period_size : Nat) (b : SoundBuffer) (j : Nat) (x : Int)
    (h : sampleAt (b.frames period_size) j = some x) : j < period_size * 2 := by
  unfold sampleAt at h
  cases hf : (b.frames period_size)[j / 2]? with
  | none => rw [hf] at h; simp at h
  | some f =>
    have h1 : j / 2 < (b.frames period_size).length := by
      by_contra hc
      rw [List.getElem?_eq_none (not_lt.mp hc)] at hf
      exact absurd hf (by simp)
    have h2 := b.sound.StreamOut_le b.next_position period_size
    unfold SoundBuffer.frames at h1
    omega

/-! ## A single slot -/

/-- The output samples of a pass over a single slot at master volume `1.0`:
the contribution of the slot, saturated. -/
theorem mixSamples_single (period_size : Nat) (st : SoundMixerState) (b : SoundBuffer)
    (hb : st.buffers = [b]) (hm : st.master_volume = F32.fin 1) :
    mixSamples period_size st =
      (List.range (period_size * 2)).map fun j => clampSi16 (b.contribution period_size j) := by
  unfold mixSamples
  apply List.map_congr_left
  intro j _
  rw [mixAccumulators_eq, hb, hm, mixedSum_singleton, outputSample_one,
    wrapSi32_of_range (contribution_range period_size b j).1
      (contribution_range period_size b j).2]

theorem toSi32_intCast {x : Int} (h1 : -(2 ^ 31) ≤ x) (h2 : x < 2 ^ 31) :
    F32.toSi32 (F32.fin (x : ℚ)) = x := by
  have e := F32.trunc_intCast x
  rw [toSi32_fin_of_range (by omega) (by omega), e]

/-- At volume `1.0` a slot contributes its sample unchanged. -/
theorem scaled_unit (x : Int) (hx : |x| < 2 ^ 24) :
    F32.toSi32 (F32.mul (F32.ofInt x) (F32.fin 1)) = x := by
  rw [F32.ofInt_eq x hx, F32.mul_fin_one, F32.round_intCast x hx]
  have := abs_lt.mp hx
  exact toSi32_intCast (by norm_num at this ⊢; omega) (by norm_num at this ⊢; omega)

theorem contribution_of_sample (period_size : Nat) (b : SoundBuffer) (j : Nat) (x : Int)
    (h : sampleAt (b.frames period_size) j = some x) :
    b.contribution period_size j = F32.toSi32 (F32.mul (F32.ofInt x) b.volume) := by
  simp [SoundBuffer.contribution, h]

theorem contribution_of_none (period_size : Nat) (b : SoundBuffer) (j : Nat)
    (h : sampleAt (b.frames period_size) j = none) :
    b.contribution period_size j = 0 := by
  simp [SoundBuffer.contribution, h]

theorem mixSamples_getElem?_single (period_size : Nat) (st : SoundMixerState)
    (b : SoundBuffer) (hb : st.buffers = [b]) (hm : st.master_volume = F32.fin 1)
    (j : Nat) (hj : j < period_size * 2) :
    (mixSamples period_size st)[j]? = some (clampSi16 (b.contribution period_size j)) := by
  rw [mixSamples_single period_size st b hb hm]
  simp [hj]

theorem sampleAt_pcm_example :
    sampleAt ((freshSlot (pcmSound 1 [(-32768, 12345)])).frames 1) 0 = some (-32768) ∧
    sampleAt ((freshSlot (pcmSound 1 [(-32768, 12345)])).frames 1) 1 = some 12345 := by
  simp [sampleAt, SoundBuffer.frames, freshSlot, pcmSound]

theorem clampSi16_toSi32_fin (r : ℚ) (h1 : -(2 ^ 31) ≤ F32.trunc r)
    (h2 : F32.trunc r ≤ 2 ^ 31 - 1) :
    clampSi16 (F32.toSi32 (F32.fin r)) = clampSi16 (F32.trunc r) := by
  rw [toSi32_fin_of_range h1 h2]

theorem advance_next_position (period_size : Nat) (b : SoundBuffer) :
    (b.advance period_size).next_position =
      b.next_position + ((b.frames period_size).length : Int) := rfl

theorem MixSound_buffers_single (period_size : Nat) (st : SoundMixerState) (b : SoundBuffer)
    (hb : st.buffers = [b]) :
    (MixSound period_size st).1.buffers =
      if b.finished period_size then [] else [b.advance period_size] := by
  have h := MixSound_buffers_perm period_size st
  rw [hb, survivors_singleton] at h
  by_cases hf : b.finished period_size
  · rw [if_pos hf] at h ⊢; exact List.Perm.eq_nil h
  · rw [if_neg hf] at h ⊢; exact List.perm_singleton.mp h

theorem halfVolumeSlot_frames :
    halfVolumeSlot.frames 10 = List.replicate 10 (1000, -2001) := by
  simp [halfVolumeSlot, SoundBuffer.frames, pcmSound]

theorem halfVolumeSlot_sampleAt (j : Nat) (hj : j < 20) :
    sampleAt (halfVolumeSlot.frames 10) j = some (if j % 2 = 0 then 1000 else -2001) := by
  rw [halfVolumeSlot_frames]
  have h : j / 2 < 10 := by omega
  unfold sampleAt
  rw [List.getElem?_replicate, if_pos h]
  rfl

theorem half_of_1000 :
    F32.mul (F32.ofInt 1000) (F32.fin (1 / 2)) = F32.fin 500 := by
  rw [F32.ofInt_eq 1000 (by decide)]
  have := F32.round_intCast 500 (by decide)
  simp only [F32.mul]
  norm_num at this ⊢
  exact this

theorem half_of_minus_2001 :
    F32.mul (F32.ofInt (-2001)) (F32.fin (1 / 2)) = F32.fin (-2001 / 2) := by
  rw [F32.ofInt_eq (-2001) (by decide)]
  have := F32.round_exact (-2001) (-1) (by decide) (by decide) (by decide)
  simp only [F32.mul]
  norm_num at this ⊢
  exact this

theorem trunc_minus_2001_half : F32.trunc (-2001 / 2) = -1000 := by
  unfold F32.trunc
  rw [if_neg (by norm_num)]
  rw [Int.ceil_eq_iff]
  norm_num

theorem halfVolumeSlot_not_finished : ¬ halfVolumeSlot.finished 10 := by
  unfold SoundBuffer.finished
  rw [advance_next_position, halfVolumeSlot_frames]
  simp [halfVolumeSlot, pcmSound]

/-! ## Many slots playing the same sample -/

/-- The output stage never leaves `[-32767, 32767]`. -/
theorem outputSample_range (m : F32) (acc : Int) :
    -32767 ≤ outputSample m acc ∧ outputSample m acc ≤ 32767 := by
  rw [outputSample_eq]
  exact clampOutput_range _

/-- With a non-negative master volume, a non-negative sum gives a
non-negative output sample. -/
theorem outputSample_nonneg {m : F32} {acc : Int} (hm : F32.atLeast 0 m) (hacc : 0 ≤ acc) :
    0 ≤ outputSample m acc := by
  rw [outputSample_eq]
  have hx : F32.atLeast 0 (F32.ofInt acc) := by
    have := F32.round_atLeast 0 (by decide) (q := (acc : ℚ)) (by exact_mod_cast hacc)
    simpa using this
  rcases mul_atLeast_zero hx hm with h | h
  · exact clampOutput_nonneg h
  · rw [h, clampOutput_nan]

/-- With a non-negative master volume, a non-positive sum gives a
non-positive output sample. -/
theorem outputSample_nonpos {m : F32} {acc : Int} (hm : F32.atLeast 0 m) (hacc : acc ≤ 0) :
    outputSample m acc ≤ 0 := by
  rw [outputSample_eq]
  have hx : F32.atMost 0 (F32.ofInt acc) := by
    have := F32.round_atMost 0 (by decide) (q := (acc : ℚ)) (by exact_mod_cast hacc)
    simpa using this
  rcases mul_atMost_zero hx hm with h | h
  · exact clampOutput_nonpos h
  · rw [h, clampOutput_nan]

theorem mixedSum_const (period_size : Nat) (j : Nat) (c : Int) :
    ∀ buffers : List SoundBuffer, (∀ b ∈ buffers, b.contribution period_size j = c) →
      mixedSum period_size buffers j = (buffers.length : Int) * c := by
  intro buffers
  induction buffers with
  | nil => intro _; simp [mixedSum]
  | cons b rest ih =>
    intro h
    have h1 := h b (List.mem_cons_self _ _)
    have h2 := ih (fun x hx => h x (List.mem_cons_of_mem _ hx))
    simp only [mixedSum, List.map_cons, List.sum_cons, List.length_cons] at h2 ⊢
    rw [h1, h2]
    push_cast
    ring

/-- The output sample at accumulator `j` when every slot plays the same sample
`x` at volume `1.0` and the master volume is `1.0`: the `Si32` sum of the
samples, saturated. -/
theorem mixSamples_same_sample (period_size : Nat) (st : SoundMixerState) (j : Nat)
    (x : Int) (hx : |x| < 2 ^ 24) (hm : st.master_volume = F32.fin 1)
    (hj : j < period_size * 2)
    (h : ∀ b ∈ st.buffers,
      b.volume = F32.fin 1 ∧ sampleAt (b.frames period_size) j = some x) :
    (mixSamples period_size st)[j]? =
      some (clampSi16 (wrapSi32 ((st.buffers.length : Int) * x))) := by
  rw [mixSamples_getElem? period_size st j hj, hm, outputSample_one]
  rw [mixedSum_const period_size j x st.buffers]
  intro b hb
  rw [contribution_of_sample period_size b j x (h b hb).2, (h b hb).1, scaled_unit x hx]

theorem fullScaleSlot_sampleAt :
    sampleAt (fullScaleSlot.frames 1) 0 = some 32767 := by
  simp [sampleAt, SoundBuffer.frames, fullScaleSlot, freshSlot, pcmSound]

theorem fullScaleSlot_replicate (n : Nat) :
    ∀ b ∈ (mixerWith (List.replicate n fullScaleSlot)).buffers,
      b.volume = F32.fin 1 ∧ sampleAt (b.frames 1) 0 = some 32767 := by
  intro b hb
  have : b = fullScaleSlot := List.eq_of_mem_replicate hb
  subst this
  exact ⟨rfl, fullScaleSlot_sampleAt⟩

/-! ## Slots kept by a pass, cursor bounds, silence -/

theorem mem_survivors {period_size : Nat} {buffers : List SoundBuffer} {c : SoundBuffer} :
    c ∈ survivors period_size buffers ↔
      ∃ b ∈ buffers, ¬ b.finished period_size ∧ b.advance period_size = c := by
  simp [survivors, and_assoc]

theorem cursorInBounds_fresh (sound : Sound) (volume : F32) (h : sound.wellBehaved) :
    SoundBuffer.cursorInBounds { sound := sound, volume := volume, next_position := 0 } := by
  refine ⟨le_refl _, h.1, fun hne => lt_of_le_of_ne h.1 (Ne.symm hne)⟩

theorem cursorInBounds_advance (period_size : Nat) (b : SoundBuffer)
    (hw : b.sound.wellBehaved) (hb : b.cursorInBounds)
    (hfin : ¬ b.finished period_size) : (b.advance period_size).cursorInBounds := by
  obtain ⟨h0, h1, _⟩ := hb
  have hlen := hw.2 b.next_position period_size h0 h1
  have hne : (b.advance period_size).next_position ≠ b.sound.DurationSamples :=
    fun h => hfin (Or.inl h)
  have hle : (b.advance period_size).next_position ≤ b.sound.DurationSamples := by
    rw [advance_next_position]
    unfold SoundBuffer.frames
    rw [hlen]
    have := min_le_right (period_size : Int) (b.sound.DurationSamples - b.next_position)
    omega
  refine ⟨?_, hle, fun _ => lt_of_le_of_ne hle hne⟩
  rw [advance_next_position]
  omega

/-- The cursor bound and the source contract hold for every slot after any
sequence of calls, when they hold before and every started source obeys the
contract. -/
theorem runMixer_invariant (calls : List MixerCall) :
    ∀ st : SoundMixerState,
      (∀ b ∈ st.buffers, b.sound.wellBehaved ∧ b.cursorInBounds) →
      (∀ c ∈ calls, c.wellBehaved) →
      ∀ b ∈ (runMixer st calls).buffers, b.sound.wellBehaved ∧ b.cursorInBounds := by
  induction calls with
  | nil => intro st h _; exact h
  | cons c rest ih =>
    intro st h hc
    have hstep : ∀ b ∈ (c.run st).buffers, b.sound.wellBehaved ∧ b.cursorInBounds := by
      have hwc := hc c (List.mem_cons_self _ _)
      cases c with
      | start sound volume =>
        intro b hb
        simp only [MixerCall.run, StartSoundBuffer, List.mem_append,
          List.mem_singleton] at hb
        rcases hb with hb | hb
        · exact h b hb
        · subst hb
          exact ⟨hwc, cursorInBounds_fresh sound volume hwc⟩
      | stop sound =>
        intro b hb
        exact h b (mem_others.mp ((StopSoundBuffer_buffers_perm st sound).mem_iff.mp hb)).1
      | mix period_size =>
        intro b hb
        obtain ⟨a, ha, hfin, hadv⟩ :=
          mem_survivors.mp ((MixSound_buffers_perm period_size st).mem_iff.mp hb)
        subst hadv
        exact ⟨(h a ha).1, cursorInBounds_advance period_size a (h a ha).1 (h a ha).2 hfin⟩
    exact ih (c.run st) hstep (fun x hx => hc x (List.mem_cons_of_mem _ hx))

theorem pcmSound_wellBehaved (id : Nat) (frames : List (Int × Int)) :
    (pcmSound id frames).wellBehaved := by
  refine ⟨Int.natCast_nonneg _, ?_⟩
  intro start count h0 h1
  show (((if start < 0 then [] else (frames.drop start.toNat).take count) :
    List (Int × Int)).length : Int) = _
  rw [if_neg (not_lt.mpr h0)]
  simp only [List.length_take, List.length_drop]
  have h2 : ((pcmSound id frames).DurationSamples) = (frames.length : Int) := rfl
  rw [h2] at h1 ⊢
  have h3 : (start.toNat : Int) = start := Int.toNat_of_nonneg h0
  omega

theorem sampleAt_mem {in_data : List (Int × Int)} {j : Nat} {x : Int}
    (h : sampleAt in_data j = some x) : ∃ frame ∈ in_data, x = frame.1 ∨ x = frame.2 := by
  unfold sampleAt at h
  cases hf : in_data[j / 2]? with
  | none => rw [hf] at h; simp at h
  | some frame =>
    rw [hf] at h
    simp only [Option.map_some', Option.some.injEq] at h
    refine ⟨frame, List.getElem?_mem hf, ?_⟩
    split_ifs at h
    · exact Or.inl h.symm
    · exact Or.inr h.symm

theorem scaled_zero (q : ℚ) : F32.toSi32 (F32.mul (F32.ofInt 0) (F32.fin q)) = 0 := by
  have h0 : F32.round 0 = F32.fin 0 := by
    have := F32.round_intCast 0 (by decide)
    simpa using this
  rw [F32.ofInt_eq 0 (by decide)]
  simp only [F32.mul, Int.cast_zero, zero_mul, h0]
  have := toSi32_intCast (x := 0) (by decide) (by decide)
  simpa using this

theorem flatMap_sampleBytes_replicate_zero (n : Nat) :
    (List.replicate n (0 : Int)).flatMap sampleBytes = List.replicate (n * 2) 0 := by
  induction n with
  | zero => rfl
  | succ n ih =>
    rw [List.replicate_succ, List.flatMap_cons, ih]
    have e : (n + 1) * 2 = n * 2 + 1 + 1 := by ring
    rw [e, List.replicate_succ, List.replicate_succ]
    rfl

theorem silentSlot_frames (id : Nat) :
    (silentSlot id).frames 2 = List.replicate 2 (0, 0) := by
  simp [silentSlot, SoundBuffer.frames, pcmSound]

/-! ## The iteration budgets suffice -/

/-- The iteration budget of the slot loop of `MixSound` is never exhausted:
any budget of at least the number of slots still to process gives the same
result. -/
theorem mixLoop_fuel (period_size : Nat) :
    ∀ (fuel : Nat) (pre todo : List SoundBuffer) (playing mix : Nat → Int),
      todo.length ≤ fuel →
      mixLoop period_size fuel pre.length (pre ++ todo) playing mix =
        mixLoop period_size todo.length pre.length (pre ++ todo) playing mix := by
  intro fuel
  induction fuel with
  | zero =>
    intro pre todo playing mix hlen
    have : todo = [] := List.length_eq_zero.mp (Nat.le_zero.mp hlen)
    subst this
    rfl
  | succ fuel ih =>
    intro pre todo playing mix hlen
    cases todo with
    | nil => simp [mixLoop]
    | cons b rest =>
      have hrest : rest.length ≤ fuel := by simpa using hlen
      rw [List.length_cons, mixLoop_step, mixLoop_step]
      by_cases hb : b.finished period_size
      · rw [if_pos hb, if_pos hb, ih pre (moveLast rest) _ _
          (by rw [moveLast_length]; exact hrest), moveLast_length]
      · rw [if_neg hb, if_neg hb]
        have e1 : pre.length + 1 = (pre ++ [b.advance period_size]).length := by simp
        have e2 : pre ++ b.advance period_size :: rest =
            (pre ++ [b.advance period_size]) ++ rest := by simp
        rw [e1, e2, ih (pre ++ [b.advance period_size]) rest _ _ hrest]

/-- One iteration of the loop of `StopSoundBuffer`, in terms of the slot at
`idx` and the slots before and behind it. -/
theorem stopLoop_step (inst fuel : Nat) (pre rest : List SoundBuffer) (b : SoundBuffer)
    (playing : Nat → Int) :
    stopLoop inst (fuel + 1) pre.length (pre ++ b :: rest) playing =
      if b.sound.instance_id = inst then
        stopLoop inst fuel pre.length (pre ++ moveLast rest)
          (DecPlaying playing b.sound.instance_id)
      else
        stopLoop inst fuel (pre.length + 1) (pre ++ b :: rest) playing := by
  have hidx : pre.length < (pre ++ b :: rest).length := by simp
  have hget : (pre ++ b :: rest)[pre.length] = b :=
    getElem_append_cons_length pre rest b hidx
  rw [stopLoop, dif_pos hidx]
  simp only [hget]
  by_cases hb : b.sound.instance_id = inst
  · rw [if_pos hb, if_pos hb]
    by_cases hlast : pre.length ≠ (pre ++ b :: rest).length - 1
    · rw [if_pos hlast, assignLast_dropLast]
    · rw [if_neg hlast]
      have hnil : rest = [] := by
        apply List.length_eq_zero.mp
        simp only [List.length_append, List.length_cons, ne_eq, not_not] at hlast
        omega
      subst hnil
      simp [moveLast]
  · rw [if_neg hb, if_neg hb]

/-- The iteration budget of the loop of `StopSoundBuffer` is never exhausted. -/
theorem stopLoop_fuel (inst : Nat) :
    ∀ (fuel : Nat) (pre todo : List SoundBuffer) (playing : Nat → Int),
      todo.length ≤ fuel →
      stopLoop inst fuel pre.length (pre ++ todo) playing =
        stopLoop inst todo.length pre.length (pre ++ todo) playing := by
  intro fuel
  induction fuel with
  | zero =>
    intro pre todo playing hlen
    have : todo = [] := List.length_eq_zero.mp (Nat.le_zero.mp hlen)
    subst this
    rfl
  | succ fuel ih =>
    intro pre todo playing hlen
    cases todo with
    | nil => simp [stopLoop]
    | cons b rest =>
      have hrest : rest.length ≤ fuel := by simpa using hlen
      rw [List.length_cons, stopLoop_step, stopLoop_step]
      by_cases hb : b.sound.instance_id = inst
      · rw [if_pos hb, if_pos hb, ih pre (moveLast rest) _
          (by rw [moveLast_length]; exact hrest), moveLast_length]
      · rw [if_neg hb, if_neg hb]
        have e1 : pre.length + 1 = (pre ++ [b]).length := by simp
        have e2 : pre ++ b :: rest = (pre ++ [b]) ++ rest := by simp
        rw [e1, e2, ih (pre ++ [b]) rest _ hrest]

/-! ## The record of `StreamOut` calls -/

/-- The loop with the record of calls computes what `mixLoop` computes. -/
theorem mixLoopLog_eq (period_size : Nat) :
    ∀ (fuel idx : Nat) (buffers : List SoundBuffer) (playing mix : Nat → Int),
      ((mixLoopLog period_size fuel idx buffers playing mix).1,
        (mixLoopLog period_size fuel idx buffers playing mix).2.1,
        (mixLoopLog period_size fuel idx buffers playing mix).2.2.1) =
      mixLoop period_size fuel idx buffers playing mix := by
  intro fuel
  induction fuel with
  | zero => intro idx buffers playing mix; rfl
  | succ fuel ih =>
    intro idx buffers playing mix
    rw [mixLoopLog, mixLoop]
    by_cases h : idx < buffers.length
    · rw [dif_pos h, dif_pos h]
      simp only []
      split_ifs
      · exact ih _ _ _ _
      · exact ih _ _ _ _
    · rw [dif_neg h, dif_neg h]

/-- One iteration of the loop with the record of calls. -/
theorem mixLoopLog_visits_step (period_size fuel : Nat) (pre rest : List SoundBuffer)
    (b : SoundBuffer) (playing mix : Nat → Int) :
    (mixLoopLog period_size (fuel + 1) pre.length (pre ++ b :: rest) playing mix).2.2.2 =
      b :: if b.finished period_size then
        (mixLoopLog period_size fuel pre.length (pre ++ moveLast rest)
          (DecPlaying playing b.sound.instance_id)
          (accumulate b.volume (b.frames period_size) 0 mix b.next_position).1).2.2.2
      else
        (mixLoopLog period_size fuel (pre.length + 1) (pre ++ b.advance period_size :: rest)
          playing (accumulate b.volume (b.frames period_size) 0 mix b.next_position).1).2.2.2 := by
  have hidx : pre.length < (pre ++ b :: rest).length := by simp
  have hget : (pre ++ b :: rest)[pre.length] = b :=
    getElem_append_cons_length pre rest b hidx
  rw [mixLoopLog, dif_pos hidx]
  simp only [hget, accumulate_position, set_append_cons_length, assignLast_dropLast]
  by_cases hb : b.finished period_size
  · rw [if_pos hb]
    have hb2 : b.next_position + ((b.sound.StreamOut b.next_position period_size).length : Int) =
        b.sound.DurationSamples ∨
        (b.sound.StreamOut b.next_position period_size).length = 0 := hb
    rw [if_pos hb2]
    rfl
  · rw [if_neg hb]
    have hb2 : ¬ (b.next_position + ((b.sound.StreamOut b.next_position period_size).length : Int) =
        b.sound.DurationSamples ∨
        (b.sound.StreamOut b.next_position period_size).length = 0) := hb
    rw [if_neg hb2]
    rfl

/-- The record of calls of the slot loop: every slot from `idx` on, once. -/
theorem mixLoopLog_visits_perm (period_size : Nat) :
    ∀ (fuel : Nat) (pre todo : List SoundBuffer) (playing mix : Nat → Int),
      todo.length ≤ fuel →
      (mixLoopLog period_size fuel pre.length (pre ++ todo) playing mix).2.2.2.Perm todo := by
  intro fuel
  induction fuel with
  | zero =>
    intro pre todo playing mix hlen
    have : todo = [] := List.length_eq_zero.mp (Nat.le_zero.mp hlen)
    subst this
    exact List.Perm.refl _
  | succ fuel ih =>
    intro pre todo playing mix hlen
    cases todo with
    | nil => simp [mixLoopLog]
    | cons b rest =>
      have hrest : rest.length ≤ fuel := by simpa using hlen
      rw [mixLoopLog_visits_step]
      by_cases hb : b.finished period_size
      · rw [if_pos hb]
        exact ((ih pre (moveLast rest) _ _
          (by rw [moveLast_length]; exact hrest)).trans (moveLast_perm rest)).cons b
      · rw [if_neg hb]
        have e1 : pre.length + 1 = (pre ++ [b.advance period_size]).length := by simp
        have e2 : pre ++ b.advance period_size :: rest =
            (pre ++ [b.advance period_size]) ++ rest := by simp
        rw [e1, e2]
        exact (ih (pre ++ [b.advance period_size]) rest _ _ hrest).cons b

/-- The accumulator `j` after the slots `visited` have been accumulated in
turn, starting from the value `a`. -/
theorem foldl_wrap_eq (period_size : Nat) (j : Nat) :
    ∀ (visited : List SoundBuffer) (a : Int),
      visited.foldl (fun acc b => wrapSi32 (acc + b.contribution period_size j))
          (wrapSi32 a) =
        wrapSi32 (a + mixedSum period_size visited j) := by
  intro visited
  induction visited with
  | nil => intro a; simp [mixedSum]
  | cons b rest ih =>
    intro a
    rw [List.foldl_cons, wrapSi32_add, ih]
    simp [mixedSum, add_assoc]

/-- The accumulators after the slot loop are the result of adding the
contributions of the recorded slots one after the other, in `Si32`. -/
theorem mixLoopLog_mix_foldl (period_size : Nat) :
    ∀ (fuel : Nat) (pre todo : List SoundBuffer) (playing mix : Nat → Int),
      todo.length ≤ fuel →
      (∀ j, wrapSi32 (mix j) = mix j) →
      ∀ j, (mixLoopLog period_size fuel pre.length (pre ++ todo) playing mix).2.2.1 j =
        (mixLoopLog period_size fuel pre.length (pre ++ todo) playing mix).2.2.2.foldl
          (fun acc b => wrapSi32 (acc + b.contribution period_size j)) (mix j) := by
  intro fuel pre todo playing mix hlen hmix j
  have h1 := mixLoopLog_eq period_size fuel pre.length (pre ++ todo) playing mix
  obtain ⟨kept, _, hrun⟩ := mixLoop_spec period_size fuel pre todo playing mix hlen hmix
  rw [hrun] at h1
  have h2 : (mixLoopLog period_size fuel pre.length (pre ++ todo) playing mix).2.2.1 =
      fun j => wrapSi32 (mix j + mixedSum period_size todo j) :=
    congrArg (fun t => t.2.2) h1
  rw [h2]
  show wrapSi32 (mix j + mixedSum period_size todo j) = _
  conv_rhs => rw [← hmix j, foldl_wrap_eq]
  rw [mixedSum_perm (mixLoopLog_visits_perm period_size fuel pre todo playing mix hlen) j]

theorem mixVisits_perm (period_size : Nat) (st : SoundMixerState) :
    (mixVisits period_size st).Perm st.buffers := by
  have h := mixLoopLog_visits_perm period_size st.buffers.length [] st.buffers st.playing
    (fun _ => 0) (le_refl _)
  simpa [mixVisits] using h

theorem mixAccumulators_foldl (period_size : Nat) (st : SoundMixerState) (j : Nat) :
    mixAccumulators period_size st j =
      (mixVisits period_size st).foldl
        (fun acc b => wrapSi32 (acc + b.contribution period_size j)) 0 := by
  have h := mixLoopLog_mix_foldl period_size st.buffers.length [] st.buffers st.playing
    (fun _ => 0) (le_refl _) (fun _ => wrapSi32_zero) j
  have e := mixLoopLog_eq period_size st.buffers.length 0 st.buffers st.playing (fun _ => 0)
  simp only [List.length_nil, List.nil_append] at h
  unfold mixAccumulators mixVisits
  rw [← e]
  exact h

/-- A short read of a source that obeys the source contract, from a cursor
within the stream, brings the cursor to the duration. -/
theorem short_read_finishes (period_size : Nat) (b : SoundBuffer)
    (hw : b.sound.wellBehaved) (h0 : 0 ≤ b.next_position)
    (h1 : b.next_position ≤ b.sound.DurationSamples)
    (hshort : (b.frames period_size).length < period_size) : b.finished period_size := by
  have hlen := hw.2 b.next_position period_size h0 h1
  left
  rw [advance_next_position]
  unfold SoundBuffer.frames at hshort ⊢
  have h2 : ((b.sound.StreamOut b.next_position period_size).length : Int) < period_size := by
    exact_mod_cast hshort
  rcases min_choice (period_size : Int) (b.sound.DurationSamples - b.next_position) with h | h
  · rw [h] at hlen; omega
  · rw [h] at hlen; omega

/-! ## The bytes of the output buffer -/

theorem removedCount_perm {period_size : Nat} {l1 l2 : List SoundBuffer} (h : l1.Perm l2)
    (i : Nat) : removedCount period_size i l1 = removedCount period_size i l2 :=
  h.countP_eq _

theorem mixerWith_swap_perm (a b : SoundBuffer) :
    (mixerWith [a, b]).buffers.Perm (mixerWith [b, a]).buffers :=
  List.Perm.swap b a []

/-! ## Bounds on the accumulators -/

theorem scaled_bound (x : Int) (q : ℚ) (hx : isSi16 x) (h0 : 0 ≤ q) (h1 : q ≤ 1) :
    -32768 ≤ F32.toSi32 (F32.mul (F32.ofInt x) (F32.fin q)) ∧
      F32.toSi32 (F32.mul (F32.ofInt x) (F32.fin q)) ≤ 32768 := by
  obtain ⟨hx1, hx2⟩ := hx
  have habs : |x| < 2 ^ 24 := by
    rw [abs_lt]; constructor <;> norm_num <;> omega
  have hxq1 : (-32768 : ℚ) ≤ x := by exact_mod_cast hx1
  have hxq2 : (x : ℚ) ≤ 32767 := by exact_mod_cast hx2
  have hlo : ((-32768 : Int) : ℚ) ≤ (x : ℚ) * q := by
    push_cast
    rcases le_or_lt 0 (x : ℚ) with hpos | hneg
    · have := mul_nonneg hpos h0; linarith
    · nlinarith
  have hhi : (x : ℚ) * q ≤ ((32768 : Int) : ℚ) := by
    push_cast
    rcases le_or_lt 0 (x : ℚ) with hpos | hneg
    · nlinarith
    · have := mul_nonpos_of_nonpos_of_nonneg (le_of_lt hneg) h0; linarith
  have hge := F32.round_atLeast (-32768) (by decide) hlo
  have hle := F32.round_atMost 32768 (by decide) hhi
  rw [F32.ofInt_eq x habs]
  show -32768 ≤ F32.toSi32 (F32.round ((x : ℚ) * q)) ∧
    F32.toSi32 (F32.round ((x : ℚ) * q)) ≤ 32768
  cases hr : F32.round ((x : ℚ) * q) with
  | fin r =>
    rw [hr] at hge hle
    have hb := F32.trunc_bounds (a := -32768) (b := 32768) (by decide) (by decide) hge hle
    rw [toSi32_fin_of_range (by omega) (by omega)]
    exact hb
  | pinf => rw [hr] at hle; exact absurd hle (by simp [F32.atMost])
  | ninf => rw [hr] at hge; exact absurd hge (by simp [F32.atLeast])
  | nan => rw [hr] at hge; exact absurd hge (by simp [F32.atLeast])

theorem scaled_trunc (x : Int) (q : ℚ) (hx : isSi16 x) (h0 : 0 ≤ q) (h1 : q ≤ 1) :
    ∃ r : ℚ, F32.mul (F32.ofInt x) (F32.fin q) = F32.fin r ∧
      F32.toSi32 (F32.mul (F32.ofInt x) (F32.fin q)) = F32.trunc r := by
  have hb := scaled_bound x q hx h0 h1
  cases hr : F32.mul (F32.ofInt x) (F32.fin q) with
  | fin r =>
    refine ⟨r, rfl, ?_⟩
    rw [hr] at hb
    by_cases h : -(2 ^ 31) ≤ F32.trunc r ∧ F32.trunc r ≤ 2 ^ 31 - 1
    · exact toSi32_fin_of_range h.1 h.2
    · rw [show F32.toSi32 (F32.fin r) = -(2 ^ 31) from if_neg h] at hb
      exact absurd hb.1 (by decide)
  | pinf => rw [hr] at hb; exact absurd hb.1 (by decide)
  | ninf => rw [hr] at hb; exact absurd hb.1 (by decide)
  | nan =>
    exfalso
    obtain ⟨hx1, hx2⟩ := hx
    have habs : |x| < 2 ^ 24 := by
      rw [abs_lt]; constructor <;> norm_num <;> omega
    rw [F32.ofInt_eq x habs] at hr
    have hr2 : F32.round ((x : ℚ) * q) = F32.nan := hr
    rw [F32.round_eq_ite] at hr2
    split_ifs at hr2

/-- A slot of volume in `[0, 1]` on `Si16` samples adds at most `32768` in
magnitude to an accumulator. -/
theorem contribution_bound (period_size : Nat) (b : SoundBuffer) (j : Nat)
    (hvol : ∃ q : ℚ, b.volume = F32.fin q ∧ 0 ≤ q ∧ q ≤ 1)
    (hs : ∀ frame ∈ b.frames period_size, isSi16 frame.1 ∧ isSi16 frame.2) :
    -32768 ≤ b.contribution period_size j ∧ b.contribution period_size j ≤ 32768 := by
  cases hx : sampleAt (b.frames period_size) j with
  | none => rw [contribution_of_none period_size b j hx]; decide
  | some x =>
    obtain ⟨q, hq, h0, h1⟩ := hvol
    obtain ⟨frame, hframe, hxf⟩ := sampleAt_mem hx
    have hx16 : isSi16 x := by
      rcases hxf with h | h
      · rw [h]; exact (hs frame hframe).1
      · rw [h]; exact (hs frame hframe).2
    rw [contribution_of_sample period_size b j x hx, hq]
    exact scaled_bound x q hx16 h0 h1

theorem mixedSum_bound (period_size : Nat) (j : Nat) :
    ∀ l : List SoundBuffer,
      (∀ b ∈ l, -32768 ≤ b.contribution period_size j ∧
        b.contribution period_size j ≤ 32768) →
      -(32768 * (l.length : Int)) ≤ mixedSum period_size l j ∧
        mixedSum period_size l j ≤ 32768 * (l.length : Int) := by
  intro l
  induction l with
  | nil => intro _; simp [mixedSum]
  | cons b rest ih =>
    intro h
    have h1 := h b (List.mem_cons_self _ _)
    have h2 := ih (fun x hx => h x (List.mem_cons_of_mem _ hx))
    simp only [mixedSum, List.map_cons, List.sum_cons, List.length_cons] at h2 ⊢
    push_cast
    omega

theorem fullScaleSlot_frames_10 :
    fullScaleSlot.frames 10 = [(32767, 32767), (0, 0)] := by
  simp [fullScaleSlot, freshSlot, SoundBuffer.frames, pcmSound]

/-! ## Sequences of control calls -/

theorem slotCount_append_singleton (inst : Nat) (buffers : List SoundBuffer)
    (b : SoundBuffer) :
    slotCount inst (buffers ++ [b]) =
      slotCount inst buffers + (if b.sound.instance_id = inst then 1 else 0) := by
  simp [slotCount, List.countP_append, List.countP_cons]

theorem slotCount_StopSoundBuffer (inst : Nat) (st : SoundMixerState) (sound : Sound) :
    slotCount inst (StopSoundBuffer st sound).buffers =
      if sound.instance_id = inst then 0 else slotCount inst st.buffers := by
  have hperm := StopSoundBuffer_buffers_perm st sound
  have hc : slotCount inst (StopSoundBuffer st sound).buffers =
      slotCount inst (others sound.instance_id st.buffers) := hperm.countP_eq _
  rw [hc]
  by_cases h : sound.instance_id = inst
  · rw [if_pos h, ← h]; exact slotCount_others_self _ _
  · rw [if_neg h]; exact slotCount_others_of_ne (fun e => h e.symm) _

/-- Slot count of an instance after a sequence of control calls. -/
theorem slotCount_runControl (inst : Nat) (calls : List ControlCall) :
    ∀ st : SoundMixerState,
      slotCount inst (runControl st calls).buffers =
        (if stoppedIn inst calls then 0 else slotCount inst st.buffers) +
          startsSinceStop inst calls := by
  induction calls using List.reverseRecOn with
  | nil => intro st; simp [runControl, stoppedIn, startsSinceStop, startsSinceStopRev]
  | append_singleton calls c ih =>
    intro st
    have hrun : runControl st (calls ++ [c]) = c.run (runControl st calls) := by
      simp [runControl, List.foldl_append]
    rw [hrun]
    cases c with
    | start sound volume =>
      have h1 : stoppedIn inst (calls ++ [ControlCall.start sound volume]) =
          stoppedIn inst calls := by
        simp [stoppedIn]
      have h2 : startsSinceStop inst (calls ++ [ControlCall.start sound volume]) =
          (if sound.instance_id = inst then 1 else 0) + startsSinceStop inst calls := by
        simp [startsSinceStop, startsSinceStopRev]
      rw [h1, h2]
      simp only [ControlCall.run, StartSoundBuffer]
      rw [slotCount_append_singleton, ih st]
      ring
    | stop sound =>
      simp only [ControlCall.run]
      rw [slotCount_StopSoundBuffer]
      by_cases h : sound.instance_id = inst
      · have h1 : stoppedIn inst (calls ++ [ControlCall.stop sound]) = true := by
          simp [stoppedIn, h]
        have h2 : startsSinceStop inst (calls ++ [ControlCall.stop sound]) = 0 := by
          simp [startsSinceStop, startsSinceStopRev, h]
        rw [h1, h2]; simp [h]
      · have h1 : stoppedIn inst (calls ++ [ControlCall.stop sound]) =
            stoppedIn inst calls := by
          simp [stoppedIn, h]
        have h2 : startsSinceStop inst (calls ++ [ControlCall.stop sound]) =
            startsSinceStop inst calls := by
          simp [startsSinceStop, startsSinceStopRev, h]
        rw [h1, h2, if_neg h, ih st]

/-! ## Play counts and slot counts -/

theorem slotCount_survivors (period_size i : Nat) :
    ∀ buffers : List SoundBuffer,
      (slotCount i (survivors period_size buffers) : Int) =
        (slotCount i buffers : Int) - (removedCount period_size i buffers : Int) := by
  intro buffers
  induction buffers with
  | nil => simp [slotCount, survivors, removedCount]
  | cons b rest ih =>
    have hinst : (b.advance period_size).sound.instance_id = b.sound.instance_id := rfl
    by_cases hfin : b.finished period_size
    · have e1 : survivors period_size (b :: rest) = survivors period_size rest := by
        simp [survivors, hfin]
      rw [e1, ih]
      by_cases hi : b.sound.instance_id = i
      · have e2 : slotCount i (b :: rest) = slotCount i rest + 1 := by
          simp [slotCount, hi]
        have e3 : removedCount period_size i (b :: rest) =
            removedCount period_size i rest + 1 := by
          simp [removedCount, hfin, hi]
        rw [e2, e3]; push_cast; ring
      · have e2 : slotCount i (b :: rest) = slotCount i rest := by
          simp [slotCount, hi]
        have e3 : removedCount period_size i (b :: rest) =
            removedCount period_size i rest := by
          simp [removedCount, hi]
        rw [e2, e3]
    · have e1 : survivors period_size (b :: rest) =
          b.advance period_size :: survivors period_size rest := by
        simp [survivors, hfin]
      have e3 : removedCount period_size i (b :: rest) =
          removedCount period_size i rest := by
        simp [removedCount, hfin]
      rw [e1, e3]
      by_cases hi : b.sound.instance_id = i
      · have e2 : slotCount i (b :: rest) = slotCount i rest + 1 := by
          simp [slotCount, hi]
        have e4 : slotCount i (b.advance period_size :: survivors period_size rest) =
            slotCount i (survivors period_size rest) + 1 := by
          simp [slotCount, hinst, hi]
        rw [e2, e4]; push_cast; rw [ih]; ring
      · have e2 : slotCount i (b :: rest) = slotCount i rest := by
          simp [slotCount, hi]
        have e4 : slotCount i (b.advance period_size :: survivors period_size rest) =
            slotCount i (survivors period_size rest) := by
          simp [slotCount, hinst, hi]
        rw [e2, e4, ih]

/-- Each call keeps the play count of every instance equal to the number of
its active slots. -/
theorem MixerCall_run_counts (st : SoundMixerState) (c : MixerCall)
    (h : ∀ i, st.playing i = (slotCount i st.buffers : Int)) :
    ∀ i, (c.run st).playing i = (slotCount i (c.run st).buffers : Int) := by
  intro i
  cases c with
  | start sound volume =>
    simp only [MixerCall.run, StartSoundBuffer]
    rw [slotCount_append_singleton]
    by_cases hi : sound.instance_id = i
    · subst hi; simp [IncPlaying, h]
    · simp [IncPlaying, Function.update, hi, Ne.symm hi, h]
  | stop sound =>
    simp only [MixerCall.run]
    rw [StopSoundBuffer_playing, slotCount_StopSoundBuffer]
    by_cases hi : sound.instance_id = i
    · subst hi; simp [h]
    · simp [Function.update, hi, Ne.symm hi, h]
  | mix period_size =>
    simp only [MixerCall.run]
    have hc : slotCount i (MixSound period_size st).1.buffers =
        slotCount i (survivors period_size st.buffers) :=
      (MixSound_buffers_perm period_size st).countP_eq _
    rw [MixSound_playing, h i, hc]
    exact (slotCount_survivors period_size i st.buffers).symm

theorem runMixer_counts (calls : List MixerCall) :
    ∀ st : SoundMixerState, (∀ i, st.playing i = (slotCount i st.buffers : Int)) →
      ∀ i, (runMixer st calls).playing i = (slotCount i (runMixer st calls).buffers : Int) := by
  induction calls with
  | nil => intro st h; exact h
  | cons c rest ih =>
    intro st h
    exact ih (c.run st) (MixerCall_run_counts st c h)

/-! ## The write loop of the polling thread -/

theorem ulpExp_scaled_full : F32.ulpExp (32767 * 1000000) = 11 := by
  have e : |(32767 * 1000000 : ℚ)| = ((32767000000 : ℕ) : ℚ) := by norm_num
  have hl : Nat.log 2 32767000000 = 34 :=
    Nat.log_eq_of_pow_le_of_lt_pow (by norm_num) (by norm_num)
  unfold F32.ulpExp
  rw [e, Int.log_natCast, hl]
  decide

theorem roundEven_scaled_full :
    F32.roundEven (32767 * 1000000 / 2 ^ (11 : Int)) = 15999512 := by
  have hf : ⌊(32767 * 1000000 / 2 ^ (11 : Int) : ℚ)⌋ = 15999511 := by
    rw [Int.floor_eq_iff]
    norm_num
  unfold F32.roundEven
  rw [hf]
  norm_num

/-- The float product of the sample `32767` and the volume `1000000.0`. -/
theorem million_times_32767 :
    F32.mul (F32.ofInt 32767) (F32.fin 1000000) = F32.fin 32767000576 := by
  rw [F32.ofInt_eq 32767 (by decide)]
  show F32.round (((32767 : Int) : ℚ) * 1000000) = F32.fin 32767000576
  have e : (((32767 : Int) : ℚ) * 1000000) = 32767 * 1000000 := by norm_num
  rw [e, F32.round_eq_ite, ulpExp_scaled_full, roundEven_scaled_full]
  have v : (((15999512 : Int) : ℚ)) * 2 ^ (11 : Int) = 32767000576 := by norm_num
  rw [v]
  rw [if_neg (by norm_num), if_neg (by norm_num)]

theorem trunc_scaled_full : F32.trunc 32767000576 = 32767000576 := by
  have := F32.trunc_intCast 32767000576
  push_cast at this
  exact this

theorem amplifiedSlot_sampleAt : sampleAt (amplifiedSlot.frames 1) 0 = some 32767 := by
  simp [sampleAt, SoundBuffer.frames, amplifiedSlot, pcmSound]

theorem truncatedSound_frames :
    (freshSlot truncatedSound).frames 4 = [(1, 2), (3, 4), (5, 6)] := by
  simp [SoundBuffer.frames, freshSlot, truncatedSound]

theorem truncatedSound_end (start : Int) (count : Nat) (h : 3 ≤ start) :
    truncatedSound.StreamOut start count = [] := by
  show (if start < 0 then []
    else (([(1, 2), (3, 4), (5, 6)] : List (Int × Int)).drop start.toNat).take count) = []
  rw [if_neg (by omega)]
  have h3 : 3 ≤ start.toNat := by omega
  rw [List.drop_eq_nil_of_le (by simpa using h3), List.take_nil]

theorem truncatedSound_not_finished : ¬ (freshSlot truncatedSound).finished 4 := by
  unfold SoundBuffer.finished
  rw [advance_next_position, truncatedSound_frames]
  simp [freshSlot, truncatedSound]

theorem truncatedSound_advance_finished :
    ((freshSlot truncatedSound).advance 4).finished 4 := by
  right
  have h : ((freshSlot truncatedSound).advance 4).next_position = 3 := by
    rw [advance_next_position, truncatedSound_frames]
    rfl
  unfold SoundBuffer.frames
  rw [h]
  show (truncatedSound.StreamOut 3 4).length = 0
  rw [truncatedSound_end 3 4 (le_refl _)]
  rfl

theorem lastFrameSlot_frames : lastFrameSlot.frames 2 = [(5, 6)] := by
  simp [SoundBuffer.frames, lastFrameSlot, pcmSound]

theorem removedCount_singleton (period_size i : Nat) (b : SoundBuffer) :
    removedCount period_size i [b] =
      if b.finished period_size ∧ b.sound.instance_id = i then 1 else 0 := by
  by_cases h : b.finished period_size ∧ b.sound.instance_id = i <;>
    simp [removedCount, h]

theorem slotCount_MixSound (period_size i : Nat) (st : SoundMixerState) :
    slotCount i (MixSound period_size st).1.buffers + removedCount period_size i st.buffers =
      slotCount i st.buffers := by
  have hperm := MixSound_buffers_perm period_size st
  have hc : slotCount i (MixSound period_size st).1.buffers =
      slotCount i (survivors period_size st.buffers) := hperm.countP_eq _
  have hs := slotCount_survivors period_size i st.buffers
  rw [hc]
  omega

/-! # The claims -/

/-- C1. After `StopSoundBuffer(s)` no active slot references `s`; the slot list
is a permutation of the prior list with exactly the slots referencing `s`
deleted (every slot of another source is kept once, volume and cursor
included); and after any sequence of start and stop calls the number of
active slots of `s` is the number of starts of `s` since its last stop (added
to the slots present initially when `s` was never stopped, none for a mixer
that starts empty). -/
theorem C1_stop_removes_every_slot_of_source (st : SoundMixerState) (s : Sound) :
    (∀ b ∈ (StopSoundBuffer st s).buffers, b.sound.instance_id ≠ s.instance_id) ∧
    (StopSoundBuffer st s).buffers.Perm
      (st.buffers.filter fun b => decide (b.sound.instance_id ≠ s.instance_id)) ∧
    (∀ calls : List ControlCall,
      slotCount s.instance_id (runControl st calls).buffers =
        (if stoppedIn s.instance_id calls then 0 else slotCount s.instance_id st.buffers) +
          startsSinceStop s.instance_id calls) ∧
    (∀ calls : List ControlCall, st.buffers = [] →
      slotCount s.instance_id (runControl st calls).buffers =
        startsSinceStop s.instance_id calls) := by
  refine ⟨?_, StopSoundBuffer_buffers_perm st s, ?_, ?_⟩
  · intro b hb
    exact (mem_others.mp ((StopSoundBuffer_buffers_perm st s).mem_iff.mp hb)).2
  · intro calls
    exact slotCount_runControl s.instance_id calls st
  · intro calls hempty
    rw [slotCount_runControl s.instance_id calls st, hempty]
    simp [slotCount]

/-- Instance of C1: for a mixer that starts empty, the slot count of source 1
after a start, a stop and three more starts (one of another source) is the
number of its starts since the stop. -/
theorem C1_stop_removes_every_slot_of_source_witness :
    (mixerWith []).buffers = [] ∧
    slotCount 1 (runControl (mixerWith [])
        [ControlCall.start (pcmSound 1 []) (F32.fin 1),
          ControlCall.stop (pcmSound 1 []),
          ControlCall.start (pcmSound 1 []) (F32.fin 1),
          ControlCall.start (pcmSound 2 []) (F32.fin 1),
          ControlCall.start (pcmSound 1 []) (F32.fin 1)]).buffers =
      startsSinceStop 1
        [ControlCall.start (pcmSound 1 []) (F32.fin 1),
          ControlCall.stop (pcmSound 1 []),
          ControlCall.start (pcmSound 1 []) (F32.fin 1),
          ControlCall.start (pcmSound 2 []) (F32.fin 1),
          ControlCall.start (pcmSound 1 []) (F32.fin 1)] :=
  ⟨rfl, (C1_stop_removes_every_slot_of_source (mixerWith []) (pcmSound 1 [])).2.2.2 _ rfl⟩

/-- C2. `StartSoundBuffer(source, volume)` appends exactly one slot
`{source, volume, next_position = 0}` at the end of the slot list, whatever
the volume; the prior slots, the master volume and the quit flag are
unchanged, the play count of the source goes up by one and no other play
count moves. -/
theorem C2_start_appends_one_slot (st : SoundMixerState) (source : Sound) (volume : F32) :
    (StartSoundBuffer st source volume).buffers =
      st.buffers ++ [{ sound := source, volume := volume, next_position := 0 }] ∧
    (StartSoundBuffer st source volume).master_volume = st.master_volume ∧
    (StartSoundBuffer st source volume).do_quit = st.do_quit ∧
    (StartSoundBuffer st source volume).playing source.instance_id =
      st.playing source.instance_id + 1 ∧
    (∀ i, i ≠ source.instance_id →
      (StartSoundBuffer st source volume).playing i = st.playing i) := by
  refine ⟨rfl, rfl, rfl, ?_, ?_⟩
  · simp [StartSoundBuffer, IncPlaying]
  · intro i hi
    simp [StartSoundBuffer, IncPlaying, Function.update, hi]

/-- C3. When no active slot references `s` (in particular when the slot list
is empty), `StopSoundBuffer(s)` returns the very state it was given: slot
list, master volume and play counts are unchanged.  Hence a second
`StopSoundBuffer(s)` changes nothing after a first one. -/
theorem C3_stop_absent_source_is_noop (st : SoundMixerState) (s : Sound) :
    ((∀ b ∈ st.buffers, b.sound.instance_id ≠ s.instance_id) →
      StopSoundBuffer st s = st) ∧
    (st.buffers = [] → StopSoundBuffer st s = st) ∧
    StopSoundBuffer (StopSoundBuffer st s) s = StopSoundBuffer st s := by
  refine ⟨StopSoundBuffer_absent st s, ?_, ?_⟩
  · intro h
    exact StopSoundBuffer_absent st s (by rw [h]; simp)
  · apply StopSoundBuffer_absent
    intro b hb
    exact (mem_others.mp ((StopSoundBuffer_buffers_perm st s).mem_iff.mp hb)).2

/-- Instance of C3: stopping source 1 in a mixer whose only slot plays source 2
changes nothing. -/
theorem C3_stop_absent_source_is_noop_witness :
    (∀ b ∈ (mixerWith [freshSlot (pcmSound 2 [(1, 1)])]).buffers,
      b.sound.instance_id ≠ (pcmSound 1 []).instance_id) ∧
    StopSoundBuffer (mixerWith [freshSlot (pcmSound 2 [(1, 1)])]) (pcmSound 1 []) =
      mixerWith [freshSlot (pcmSound 2 [(1, 1)])] :=
  ⟨by simp [mixerWith, pcmSound, freshSlot],
    (C3_stop_absent_source_is_noop _ _).1 (by simp [mixerWith, pcmSound, freshSlot])⟩

/-- C4, as amended. For a single active slot with volume `1.0` and master volume
`1.0`, the two bytes `MixSound` writes for a sample the source produced are
the little-endian bytes of that sample when it lies in `[-32767, 32767]`; a
sample of `-32768` is written as `-32767`. -/
theorem C4_identity_mixing_within_clamp (period_size : Nat) (st : SoundMixerState)
    (b : SoundBuffer) (hb : st.buffers = [b]) (hv : b.volume = F32.fin 1)
    (hm : st.master_volume = F32.fin 1) (j : Nat) (x : Int)
    (hx : sampleAt (b.frames period_size) j = some x) :
    (-32767 ≤ x ∧ x ≤ 32767 →
      ((MixSound period_size st).2.drop (2 * j)).take 2 = sampleBytes x) ∧
    (x = -32768 →
      ((MixSound period_size st).2.drop (2 * j)).take 2 = sampleBytes (-32767)) := by
  have hj := sampleAt_lt period_size b j x hx
  have hs := mixSamples_getElem?_single period_size st b hb hm j hj
  rw [contribution_of_sample period_size b j x hx, hv] at hs
  rw [MixSound_bytes]
  constructor
  · intro hr
    have habs : |x| < 2 ^ 24 := by
      rw [abs_lt]; constructor <;> norm_num <;> omega
    rw [scaled_unit x habs] at hs
    have hc : clampSi16 x = x := by unfold clampSi16; omega
    rw [hc] at hs
    exact flatMap_sampleBytes_chunk _ j x hs
  · intro hr
    subst hr
    rw [scaled_unit (-32768) (by decide)] at hs
    exact flatMap_sampleBytes_chunk _ j _ hs

/-- Instance of C4 as amended: the right sample `12345` of the only frame is
written with its own bytes. -/
theorem C4_identity_mixing_within_clamp_witness :
    (mixerWith [freshSlot (pcmSound 1 [(-32768, 12345)])]).buffers =
      [freshSlot (pcmSound 1 [(-32768, 12345)])] ∧
    (freshSlot (pcmSound 1 [(-32768, 12345)])).volume = F32.fin 1 ∧
    (mixerWith [freshSlot (pcmSound 1 [(-32768, 12345)])]).master_volume = F32.fin 1 ∧
    sampleAt ((freshSlot (pcmSound 1 [(-32768, 12345)])).frames 1) 1 = some 12345 ∧
    (((MixSound 1 (mixerWith [freshSlot (pcmSound 1 [(-32768, 12345)])])).2.drop
      (2 * 1)).take 2 = sampleBytes 12345) :=
  ⟨rfl, rfl, rfl, sampleAt_pcm_example.2,
    (C4_identity_mixing_within_clamp 1 _ _ rfl rfl rfl 1 12345 sampleAt_pcm_example.2).1
      (by decide)⟩

/-- Counterexample to C4 as stated: a source whose only frame is
`(-32768, 12345)`, played by a single slot at volume `1.0` with master volume
`1.0`, yields the bytes `01 80` for the left sample, not the bytes `00 80` of
`-32768`. -/
theorem C4_identity_fails_at_minimum_sample :
    (MixSound 1 (mixerWith [freshSlot (pcmSound 1 [(-32768, 12345)])])).2 =
      [1, 128, 57, 48] ∧
    sampleBytes (-32768) ++ sampleBytes 12345 = [0, 128, 57, 48] ∧
    (MixSound 1 (mixerWith [freshSlot (pcmSound 1 [(-32768, 12345)])])).2 ≠
      sampleBytes (-32768) ++ sampleBytes 12345 := by
  have h : (MixSound 1 (mixerWith [freshSlot (pcmSound 1 [(-32768, 12345)])])).2 =
      [1, 128, 57, 48] := by
    rw [MixSound_bytes, mixSamples_single 1 _ (freshSlot (pcmSound 1 [(-32768, 12345)])) rfl rfl]
    have e0 := contribution_of_sample 1 _ 0 _ sampleAt_pcm_example.1
    have e1 := contribution_of_sample 1 _ 1 _ sampleAt_pcm_example.2
    rw [show (freshSlot (pcmSound 1 [(-32768, 12345)])).volume = F32.fin 1 from rfl] at e0 e1
    rw [scaled_unit (-32768) (by decide)] at e0
    rw [scaled_unit 12345 (by decide)] at e1
    simp only [Nat.one_mul, List.range_succ, List.range_zero, List.nil_append,
      List.cons_append, List.map_cons, List.map_nil, e0, e1]
    decide
  refine ⟨h, by decide, ?_⟩
  rw [h]
  decide

/-- C5, as amended. For a single active slot `b` with cursor `p` and volume
`v` and master volume `1.0`: the output sample for a channel sample `x` the
source produced is the float product `x * v` truncated toward zero and
saturated at `-32767` and `32767`, whenever that product is finite and its
truncation is a value of `Si32` (which it is for every `Si16` sample at a
volume in `[0, 1]`); every output sample of a frame the source did not produce
is 0; the bytes written are those of these samples; and the slot leaves the
pass with `next_position = p + size`, one step per frame, unless it met the
removal condition and was removed. -/
theorem C5_single_slot_scaled_and_advanced (period_size : Nat) (st : SoundMixerState)
    (b : SoundBuffer) (hb : st.buffers = [b]) (hm : st.master_volume = F32.fin 1) :
    (∀ j x r, sampleAt (b.frames period_size) j = some x →
      F32.mul (F32.ofInt x) b.volume = F32.fin r →
      -(2 ^ 31) ≤ F32.trunc r → F32.trunc r ≤ 2 ^ 31 - 1 →
      (mixSamples period_size st)[j]? = some (clampSi16 (F32.trunc r))) ∧
    (∀ j x q, sampleAt (b.frames period_size) j = some x → isSi16 x →
      b.volume = F32.fin q → 0 ≤ q → q ≤ 1 →
      ∃ r, F32.mul (F32.ofInt x) b.volume = F32.fin r ∧
        -(2 ^ 31) ≤ F32.trunc r ∧ F32.trunc r ≤ 2 ^ 31 - 1 ∧
        (mixSamples period_size st)[j]? = some (clampSi16 (F32.trunc r))) ∧
    (∀ j, j < period_size * 2 → sampleAt (b.frames period_size) j = none →
      (mixSamples period_size st)[j]? = some 0) ∧
    (MixSound period_size st).2 = (mixSamples period_size st).flatMap sampleBytes ∧
    (MixSound period_size st).1.buffers =
      (if b.finished period_size then [] else [b.advance period_size]) ∧
    (b.advance period_size).next_position =
      b.next_position + ((b.frames period_size).length : Int) := by
  have hsome : ∀ j x, sampleAt (b.frames period_size) j = some x →
      (mixSamples period_size st)[j]? =
        some (clampSi16 (F32.toSi32 (F32.mul (F32.ofInt x) b.volume))) := by
    intro j x hx
    rw [mixSamples_getElem?_single period_size st b hb hm j
      (sampleAt_lt period_size b j x hx), contribution_of_sample period_size b j x hx]
  refine ⟨?_, ?_, ?_, MixSound_bytes period_size st,
    MixSound_buffers_single period_size st b hb, rfl⟩
  · intro j x r hx hr h1 h2
    rw [hsome j x hx, hr, clampSi16_toSi32_fin r h1 h2]
  · intro j x q hx hx16 hq h0 h1
    have hbound := scaled_bound x q hx16 h0 h1
    obtain ⟨r, hr, ht⟩ := scaled_trunc x q hx16 h0 h1
    rw [← hq] at hr ht hbound
    rw [ht] at hbound
    refine ⟨r, hr, by omega, by omega, ?_⟩
    rw [hsome j x hx, ht]
  · intro j hj hnone
    rw [mixSamples_getElem?_single period_size st b hb hm j hj,
      contribution_of_none period_size b j hnone]
    rfl

/-- Instance of C5, the scenario of the specification: a source of 100 frames
played at volume `0.5` from cursor 0, one period of 10 frames, master volume
`1.0`.  The samples `1000` and `-2001` of the first frame come out as `500`
and `-1000`, and the slot stays active with `next_position = 10`. -/
theorem C5_single_slot_scaled_and_advanced_witness :
    (mixerWith [halfVolumeSlot]).buffers = [halfVolumeSlot] ∧
    (mixerWith [halfVolumeSlot]).master_volume = F32.fin 1 ∧
    (mixSamples 10 (mixerWith [halfVolumeSlot]))[0]? = some 500 ∧
    (mixSamples 10 (mixerWith [halfVolumeSlot]))[1]? = some (-1000) ∧
    (MixSound 10 (mixerWith [halfVolumeSlot])).1.buffers = [halfVolumeSlot.advance 10] ∧
    (halfVolumeSlot.advance 10).next_position = 10 := by
  have h := C5_single_slot_scaled_and_advanced 10 (mixerWith [halfVolumeSlot])
    halfVolumeSlot rfl rfl
  have e : F32.trunc 500 = 500 := by
    have := F32.trunc_intCast 500
    push_cast at this
    exact this
  refine ⟨rfl, rfl, ?_, ?_, ?_, ?_⟩
  · rw [h.1 0 1000 500 (halfVolumeSlot_sampleAt 0 (by decide)) half_of_1000
      (by rw [e]; decide) (by rw [e]; decide), e]
    rfl
  · rw [h.1 1 (-2001) (-2001 / 2) (halfVolumeSlot_sampleAt 1 (by decide))
      half_of_minus_2001 (by rw [trunc_minus_2001_half]; decide)
      (by rw [trunc_minus_2001_half]; decide), trunc_minus_2001_half]
    rfl
  · rw [h.2.2.2.2.1, if_neg halfVolumeSlot_not_finished]
  · rw [h.2.2.2.2.2, halfVolumeSlot_frames]
    rfl

/-- Counterexample to C5 as stated: a single slot at volume `1000000.0` on the
sample `32767`, master volume `1.0`.  The float product `32767000576` is
finite and beyond the range of `Si32`; the claimed output is its truncation
saturated at `32767`, and the output sample computed is `-32767`. -/
theorem C5_product_beyond_Si32_not_saturated :
    (mixerWith [amplifiedSlot]).buffers = [amplifiedSlot] ∧
    (mixerWith [amplifiedSlot]).master_volume = F32.fin 1 ∧
    sampleAt (amplifiedSlot.frames 1) 0 = some 32767 ∧
    F32.mul (F32.ofInt 32767) amplifiedSlot.volume = F32.fin 32767000576 ∧
    clampSi16 (F32.trunc 32767000576) = 32767 ∧
    (mixSamples 1 (mixerWith [amplifiedSlot]))[0]? = some (-32767) ∧
    (mixSamples 1 (mixerWith [amplifiedSlot]))[0]? ≠
      some (clampSi16 (F32.trunc 32767000576)) := by
  have hout : (mixSamples 1 (mixerWith [amplifiedSlot]))[0]? = some (-32767) := by
    rw [mixSamples_getElem?_single 1 (mixerWith [amplifiedSlot]) amplifiedSlot rfl rfl 0
      (by decide), contribution_of_sample 1 amplifiedSlot 0 32767 amplifiedSlot_sampleAt]
    rw [show amplifiedSlot.volume = F32.fin 1000000 from rfl, million_times_32767]
    have hn : ¬ (-(2 ^ 31) ≤ F32.trunc 32767000576 ∧
        F32.trunc 32767000576 ≤ 2 ^ 31 - 1) := by
      rw [trunc_scaled_full]; decide
    rw [toSi32_fin_out_of_range hn]
    rfl
  have hclaim : clampSi16 (F32.trunc 32767000576) = 32767 := by
    rw [trunc_scaled_full]
    rfl
  refine ⟨rfl, rfl, amplifiedSlot_sampleAt, million_times_32767, hclaim, hout, ?_⟩
  rw [hout, hclaim]
  decide

/-- C6, as amended. The output stage yields a value in `[-32767, 32767]` whose
sign is never opposite to that of the accumulated sum, for every sum and
every non-negative master volume.  With volume `1.0` and master volume `1.0`,
`n` slots that all supply `+32767` at a position give exactly `+32767` there
for `2 ≤ n ≤ 65538`, and `n` slots that all supply `-32768` give exactly
`-32767` for `2 ≤ n ≤ 65536`; beyond these counts the `Si32` accumulator
overflows. -/
theorem C6_output_saturates_without_wrap :
    (∀ (acc : Int) (m : F32), F32.atLeast 0 m →
      -32767 ≤ outputSample m acc ∧ outputSample m acc ≤ 32767 ∧
      (0 ≤ acc → 0 ≤ outputSample m acc) ∧ (acc ≤ 0 → outputSample m acc ≤ 0)) ∧
    (∀ (acc : Int) (q : ℚ), 0 ≤ q →
      (0 < (acc : ℚ) * q → 0 ≤ outputSample (F32.fin q) acc) ∧
      ((acc : ℚ) * q < 0 → outputSample (F32.fin q) acc ≤ 0)) ∧
    (∀ (period_size : Nat) (st : SoundMixerState),
      (MixSound period_size st).2 = (mixSamples period_size st).flatMap sampleBytes) ∧
    (∀ (period_size : Nat) (st : SoundMixerState) (j : Nat),
      st.master_volume = F32.fin 1 →
      (∀ b ∈ st.buffers,
        b.volume = F32.fin 1 ∧ sampleAt (b.frames period_size) j = some 32767) →
      2 ≤ st.buffers.length → st.buffers.length ≤ 65538 →
      (mixSamples period_size st)[j]? = some 32767) ∧
    (∀ (period_size : Nat) (st : SoundMixerState) (j : Nat),
      st.master_volume = F32.fin 1 →
      (∀ b ∈ st.buffers,
        b.volume = F32.fin 1 ∧ sampleAt (b.frames period_size) j = some (-32768)) →
      2 ≤ st.buffers.length → st.buffers.length ≤ 65536 →
      (mixSamples period_size st)[j]? = some (-32767)) := by
  refine ⟨?_, ?_, MixSound_bytes, ?_, ?_⟩
  · intro acc m hm
    exact ⟨(outputSample_range m acc).1, (outputSample_range m acc).2,
      outputSample_nonneg hm, outputSample_nonpos hm⟩
  · intro acc q hq
    constructor
    · intro h
      have hacc : 0 < (acc : ℚ) := pos_of_mul_pos_left h hq
      exact outputSample_nonneg (m := F32.fin q) hq (by exact_mod_cast le_of_lt hacc)
    · intro h
      have hacc : (acc : ℚ) < 0 := by
        by_contra hc
        exact absurd (mul_nonneg (not_lt.mp hc) hq) (not_le.mpr h)
      exact outputSample_nonpos (m := F32.fin q) hq (by exact_mod_cast le_of_lt hacc)
  · intro period_size st j hm h h2 h3
    obtain ⟨b, hb⟩ := List.exists_mem_of_length_pos (by omega : 0 < st.buffers.length)
    have hj := sampleAt_lt period_size b j _ (h b hb).2
    rw [mixSamples_same_sample period_size st j 32767 (by decide) hm hj h]
    have hn : (2 : Int) ≤ st.buffers.length ∧ (st.buffers.length : Int) ≤ 65538 := by
      constructor <;> exact_mod_cast (by assumption)
    rw [wrapSi32_of_range (by norm_num; omega) (by norm_num; omega)]
    unfold clampSi16
    congr 1
    omega
  · intro period_size st j hm h h2 h3
    obtain ⟨b, hb⟩ := List.exists_mem_of_length_pos (by omega : 0 < st.buffers.length)
    have hj := sampleAt_lt period_size b j _ (h b hb).2
    rw [mixSamples_same_sample period_size st j (-32768) (by decide) hm hj h]
    have hn : (2 : Int) ≤ st.buffers.length ∧ (st.buffers.length : Int) ≤ 65536 := by
      constructor <;> exact_mod_cast (by assumption)
    rw [wrapSi32_of_range (by norm_num; omega) (by norm_num; omega)]
    unfold clampSi16
    congr 1
    omega

/-- Instance of C6 as amended: two full-scale slots at `+32767` give `+32767`. -/
theorem C6_output_saturates_without_wrap_witness :
    (mixerWith (List.replicate 2 fullScaleSlot)).master_volume = F32.fin 1 ∧
    (∀ b ∈ (mixerWith (List.replicate 2 fullScaleSlot)).buffers,
      b.volume = F32.fin 1 ∧ sampleAt (b.frames 1) 0 = some 32767) ∧
    2 ≤ (mixerWith (List.replicate 2 fullScaleSlot)).buffers.length ∧
    (mixerWith (List.replicate 2 fullScaleSlot)).buffers.length ≤ 65538 ∧
    (mixSamples 1 (mixerWith (List.replicate 2 fullScaleSlot)))[0]? = some 32767 :=
  ⟨rfl, fullScaleSlot_replicate 2, by decide, by decide,
    C6_output_saturates_without_wrap.2.2.2.1 1 _ 0 rfl (fullScaleSlot_replicate 2)
      (by decide) (by decide)⟩

/-- Counterexample to C6 as stated: with 65539 slots at volume `1.0` that all
supply `+32767`, and master volume `1.0`, the `Si32` accumulator wraps to
`-2147450883` and the output sample is `-32767`, of the opposite sign. -/
theorem C6_full_scale_sum_wraps :
    (mixerWith (List.replicate 65539 fullScaleSlot)).buffers.length = 65539 ∧
    mixAccumulators 1 (mixerWith (List.replicate 65539 fullScaleSlot)) 0 = -2147450883 ∧
    (mixSamples 1 (mixerWith (List.replicate 65539 fullScaleSlot)))[0]? = some (-32767) ∧
    (mixSamples 1 (mixerWith (List.replicate 65539 fullScaleSlot)))[0]? ≠ some 32767 ∧
    (MixSound 1 (mixerWith (List.replicate 65539 fullScaleSlot))).2.take 2 = [1, 128] ∧
    sampleBytes 32767 = [255, 127] := by
  have hlen : (mixerWith (List.replicate 65539 fullScaleSlot)).buffers.length = 65539 :=
    List.length_replicate _ _
  have hsum : mixedSum 1 (mixerWith (List.replicate 65539 fullScaleSlot)).buffers 0 =
      65539 * 32767 := by
    rw [mixedSum_const 1 0 32767, hlen]
    · rfl
    · intro b hb
      have h := fullScaleSlot_replicate 65539 b hb
      rw [contribution_of_sample 1 b 0 32767 h.2, h.1, scaled_unit 32767 (by decide)]
  have hs : (mixSamples 1 (mixerWith (List.replicate 65539 fullScaleSlot)))[0]? =
      some (-32767) := by
    rw [mixSamples_same_sample 1 _ 0 32767 (by decide) rfl (by decide)
      (fullScaleSlot_replicate 65539), hlen]
    decide
  refine ⟨hlen, ?_, hs, ?_, ?_, by decide⟩
  · rw [mixAccumulators_eq, hsum]
    decide
  · rw [hs]
    decide
  · have h := flatMap_sampleBytes_chunk _ 0 _ hs
    have e : sampleBytes (-32767) = [1, 128] := by decide
    rw [Nat.mul_zero, List.drop_zero, e] at h
    rw [MixSound_bytes]
    exact h

/-- C7. A pass of `MixSound` keeps exactly the slots that do not meet the
removal condition, each advanced past its frames.  A slot whose cursor equals
the duration of its source after the frames of the pass is absent from the
slot list afterwards (no slot left has its cursor at the duration), and the
play count of every instance drops by exactly the number of its slots that met
the removal condition: one `DecPlaying` for each of them, none for the slots
kept. -/
theorem C7_end_of_stream_slot_removed_once (period_size : Nat) (st : SoundMixerState) :
    (MixSound period_size st).1.buffers.Perm (survivors period_size st.buffers) ∧
    (∀ b ∈ st.buffers,
      (b.advance period_size).next_position = b.sound.DurationSamples →
      b.advance period_size ∉ (MixSound period_size st).1.buffers) ∧
    (∀ c ∈ (MixSound period_size st).1.buffers,
      c.next_position ≠ c.sound.DurationSamples) ∧
    (∀ i, (MixSound period_size st).1.playing i =
      st.playing i -
        ((st.buffers.countP fun b =>
          decide (b.finished period_size ∧ b.sound.instance_id = i) : Nat) : Int)) := by
  have hperm := MixSound_buffers_perm period_size st
  have hleft : ∀ c ∈ (MixSound period_size st).1.buffers,
      c.next_position ≠ c.sound.DurationSamples := by
    intro c hc
    obtain ⟨b, _, hfin, hadv⟩ := mem_survivors.mp (hperm.mem_iff.mp hc)
    subst hadv
    intro h
    exact hfin (Or.inl h)
  refine ⟨hperm, ?_, hleft, fun i => MixSound_playing period_size st i⟩
  intro b _ hend hmem
  exact hleft _ hmem hend

/-- C8. In every mixer state reached from a mixer without slots by a sequence
of `StartSoundBuffer`, `StopSoundBuffer` and `MixSound` calls, with sources
whose `StreamOut(start, count)` returns `min(count, duration - start)` frames,
every active slot has `0 ≤ next_position ≤ DurationSamples()`, and
`next_position < DurationSamples()` when the duration is not zero. -/
theorem C8_cursor_within_duration (st : SoundMixerState) (calls : List MixerCall)
    (hempty : st.buffers = []) (hcalls : ∀ c ∈ calls, c.wellBehaved) :
    ∀ b ∈ (runMixer st calls).buffers,
      0 ≤ b.next_position ∧ b.next_position ≤ b.sound.DurationSamples ∧
        (b.sound.DurationSamples ≠ 0 → b.next_position < b.sound.DurationSamples) := by
  intro b hb
  exact (runMixer_invariant calls st (by rw [hempty]; simp) hcalls b hb).2

/-- Instance of C8: two sources of three frames, the first stopped before the
second is started, with mixing passes over periods of two frames. -/
theorem C8_cursor_within_duration_witness :
    (mixerWith []).buffers = [] ∧
    (∀ c ∈ [MixerCall.start (pcmSound 1 [(1, 2), (3, 4), (5, 6)]) (F32.fin 1),
        MixerCall.mix 2, MixerCall.stop (pcmSound 1 []),
        MixerCall.start (pcmSound 2 [(1, 2), (3, 4), (5, 6)]) (F32.fin 1),
        MixerCall.mix 2], c.wellBehaved) ∧
    (∀ b ∈ (runMixer (mixerWith [])
        [MixerCall.start (pcmSound 1 [(1, 2), (3, 4), (5, 6)]) (F32.fin 1),
          MixerCall.mix 2, MixerCall.stop (pcmSound 1 []),
          MixerCall.start (pcmSound 2 [(1, 2), (3, 4), (5, 6)]) (F32.fin 1),
          MixerCall.mix 2]).buffers,
      0 ≤ b.next_position ∧ b.next_position ≤ b.sound.DurationSamples ∧
        (b.sound.DurationSamples ≠ 0 → b.next_position < b.sound.DurationSamples)) :=
  have hcalls : ∀ c ∈ [MixerCall.start (pcmSound 1 [(1, 2), (3, 4), (5, 6)]) (F32.fin 1),
      MixerCall.mix 2, MixerCall.stop (pcmSound 1 []),
      MixerCall.start (pcmSound 2 [(1, 2), (3, 4), (5, 6)]) (F32.fin 1),
      MixerCall.mix 2], c.wellBehaved := by
    intro c hc
    simp only [List.mem_cons, List.mem_singleton, List.not_mem_nil, or_false] at hc
    rcases hc with h | h | h | h | h <;> subst h
    · exact pcmSound_wellBehaved _ _
    · trivial
    · trivial
    · exact pcmSound_wellBehaved _ _
    · trivial
  ⟨rfl, hcalls, C8_cursor_within_duration (mixerWith []) _ rfl hcalls⟩

/-- C9. With master volume 0 and any number of active slots, all of finite
volume and all on sources that produce only zero samples, every accumulator
stays 0 and `MixSound` writes `period_size * 4` bytes, all of them zero. -/
theorem C9_silent_slots_give_zero_bytes (period_size : Nat) (st : SoundMixerState)
    (hm : st.master_volume = F32.fin 0)
    (hvol : ∀ b ∈ st.buffers, ∃ q : ℚ, b.volume = F32.fin q)
    (hsilent : ∀ b ∈ st.buffers, ∀ frame ∈ b.frames period_size, frame = (0, 0)) :
    (MixSound period_size st).2 = List.replicate (period_size * 4) 0 ∧
    (MixSound period_size st).2.length = period_size * 4 ∧
    (∀ j, mixAccumulators period_size st j = 0) := by
  have hbytes : (MixSound period_size st).2 = List.replicate (period_size * 4) 0 := by
    have hs : mixSamples period_size st = List.replicate (period_size * 2) 0 := by
      apply List.eq_replicate_iff.mpr
      refine ⟨mixSamples_length period_size st, ?_⟩
      intro x hx
      simp only [mixSamples, List.mem_map] at hx
      obtain ⟨j, _, hj⟩ := hx
      rw [hm, outputSample_zero] at hj
      exact hj.symm
    rw [MixSound_bytes, hs, flatMap_sampleBytes_replicate_zero]
    congr 1
    ring
  refine ⟨hbytes, by rw [hbytes, List.length_replicate], ?_⟩
  intro j
  rw [mixAccumulators_eq, mixedSum_const period_size j 0 st.buffers, mul_zero]
  · rfl
  · intro b hb
    obtain ⟨q, hq⟩ := hvol b hb
    cases hx : sampleAt (b.frames period_size) j with
    | none => exact contribution_of_none period_size b j hx
    | some x =>
      obtain ⟨frame, hframe, hxf⟩ := sampleAt_mem hx
      have h0 : x = 0 := by
        have := hsilent b hb frame hframe
        subst this
        rcases hxf with h | h <;> exact h
      subst h0
      rw [contribution_of_sample period_size b j 0 hx, hq, scaled_zero]

/-- Instance of C9: three silent slots at volume `0.3`, master volume 0, a
period of two frames. -/
theorem C9_silent_slots_give_zero_bytes_witness :
    (SetMasterVolume (mixerWith [silentSlot 1, silentSlot 2, silentSlot 1])
      (F32.fin 0)).master_volume = F32.fin 0 ∧
    (∀ b ∈ (SetMasterVolume (mixerWith [silentSlot 1, silentSlot 2, silentSlot 1])
      (F32.fin 0)).buffers, ∃ q : ℚ, b.volume = F32.fin q) ∧
    (∀ b ∈ (SetMasterVolume (mixerWith [silentSlot 1, silentSlot 2, silentSlot 1])
      (F32.fin 0)).buffers, ∀ frame ∈ b.frames 2, frame = (0, 0)) ∧
    (MixSound 2 (SetMasterVolume (mixerWith [silentSlot 1, silentSlot 2, silentSlot 1])
      (F32.fin 0))).2 = [0, 0, 0, 0, 0, 0, 0, 0] :=
  have hvol : ∀ b ∈ (SetMasterVolume (mixerWith [silentSlot 1, silentSlot 2, silentSlot 1])
      (F32.fin 0)).buffers, ∃ q : ℚ, b.volume = F32.fin q := by
    intro b hb
    simp only [SetMasterVolume, mixerWith, List.mem_cons, List.mem_singleton,
      List.not_mem_nil, or_false] at hb
    rcases hb with h | h | h <;> subst h <;> exact ⟨3 / 10, rfl⟩
  have hsilent : ∀ b ∈ (SetMasterVolume
      (mixerWith [silentSlot 1, silentSlot 2, silentSlot 1]) (F32.fin 0)).buffers,
      ∀ frame ∈ b.frames 2, frame = (0, 0) := by
    intro b hb frame hframe
    simp only [SetMasterVolume, mixerWith, List.mem_cons, List.mem_singleton,
      List.not_mem_nil, or_false] at hb
    rcases hb with h | h | h <;> subst h <;>
      (rw [silentSlot_frames] at hframe; exact List.eq_of_mem_replicate hframe)
  ⟨rfl, hvol, hsilent,
    (C9_silent_slots_give_zero_bytes 2 _ rfl hvol hsilent).1⟩

/-- C10. `GetMasterVolume()` after `SetMasterVolume(v)` returns `v` itself for
every float `v` (finite of either sign, infinite or NaN), and
`SetMasterVolume` changes neither the slot list nor a play count. -/
theorem C10_master_volume_roundtrip (st : SoundMixerState) (v : F32) :
    GetMasterVolume (SetMasterVolume st v) = v ∧
    (SetMasterVolume st v).buffers = st.buffers ∧
    (SetMasterVolume st v).playing = st.playing :=
  ⟨rfl, rfl, rfl⟩

/-- C12. One pass of `MixSound` calls `StreamOut` on, and accumulates, every
initially active slot exactly once, whichever slots meet the removal
condition: the record of the calls is a rearrangement of the initial slot
list, the accumulators are the result of adding the contribution of each
recorded slot once, and the slots left are exactly the initial slots that do
not meet the removal condition, each advanced past its frames.  The loop with
the record of calls computes the slot list, play counts and accumulators of
the loop of `MixSound`. -/
theorem C12_every_slot_processed_exactly_once (period_size : Nat) (st : SoundMixerState) :
    (mixVisits period_size st).Perm st.buffers ∧
    (∀ j, mixAccumulators period_size st j =
      (mixVisits period_size st).foldl
        (fun acc b => wrapSi32 (acc + b.contribution period_size j)) 0) ∧
    (MixSound period_size st).1.buffers.Perm
      ((st.buffers.filter fun b => decide (¬ b.finished period_size)).map
        (SoundBuffer.advance period_size)) ∧
    (∀ (fuel idx : Nat) (buffers : List SoundBuffer) (playing mix : Nat → Int),
      ((mixLoopLog period_size fuel idx buffers playing mix).1,
        (mixLoopLog period_size fuel idx buffers playing mix).2.1,
        (mixLoopLog period_size fuel idx buffers playing mix).2.2.1) =
      mixLoop period_size fuel idx buffers playing mix) :=
  ⟨mixVisits_perm period_size st, mixAccumulators_foldl period_size st,
    MixSound_buffers_perm period_size st, mixLoopLog_eq period_size⟩

/-- C13, as amended. In a pass of `MixSound`, a slot whose source returns
`min(count, duration - start)` frames and whose cursor lies within the stream
meets the removal condition whenever its source returns fewer frames than
`period_size`, whatever the other slots are.  For arbitrary sources the
removal condition is that the read brings the cursor to the duration or
returns no frame: the slots left are exactly the slots that do not meet it,
each advanced past its frames, the number of slots of a source drops by the
number of its slots that meet it, and so does its play count, one decrement
for each removed slot; a slot that does not meet it stays in the list, short
read or not. -/
theorem C13_short_read_removed_under_source_contract (period_size : Nat)
    (st : SoundMixerState) :
    (∀ b ∈ st.buffers, b.sound.wellBehaved → 0 ≤ b.next_position →
      b.next_position ≤ b.sound.DurationSamples →
      (b.frames period_size).length < period_size → b.finished period_size) ∧
    (∀ b : SoundBuffer, b.finished period_size ↔
      (b.next_position + ((b.sound.StreamOut b.next_position period_size).length : Int) =
          b.sound.DurationSamples ∨
        (b.sound.StreamOut b.next_position period_size).length = 0)) ∧
    (MixSound period_size st).1.buffers.Perm
      ((st.buffers.filter fun b => decide (¬ b.finished period_size)).map
        (SoundBuffer.advance period_size)) ∧
    (∀ i, slotCount i (MixSound period_size st).1.buffers +
      removedCount period_size i st.buffers = slotCount i st.buffers) ∧
    (∀ i, (MixSound period_size st).1.playing i =
      st.playing i - (removedCount period_size i st.buffers : Int)) ∧
    (∀ b ∈ st.buffers, ¬ b.finished period_size →
      b.advance period_size ∈ (MixSound period_size st).1.buffers) ∧
    (∀ b, st.buffers = [b] → b.finished period_size →
      (MixSound period_size st).1.buffers = [] ∧
      (MixSound period_size st).1.playing b.sound.instance_id =
        st.playing b.sound.instance_id - 1) := by
  refine ⟨fun b _ hw h0 h1 hs => short_read_finishes period_size b hw h0 h1 hs,
    fun b => Iff.rfl, MixSound_buffers_perm period_size st,
    fun i => slotCount_MixSound period_size i st,
    MixSound_playing period_size st, ?_, ?_⟩
  · intro b hb hfin
    exact (MixSound_buffers_perm period_size st).mem_iff.mpr
      (mem_survivors.mpr ⟨b, hb, hfin, rfl⟩)
  · intro b hb hfin
    constructor
    · rw [MixSound_buffers_single period_size st b hb, if_pos hfin]
    · rw [MixSound_playing, hb, removedCount_singleton, if_pos ⟨hfin, rfl⟩]
      rfl

/-- Instance of C13 as amended: a slot at cursor 2 of a source of three frames
reads one frame of a period of two; it is removed in that pass and the play
count of its source goes from 1 to 0. -/
theorem C13_short_read_removed_under_source_contract_witness :
    lastFrameSlot.sound.wellBehaved ∧
    (lastFrameSlot.frames 2).length = 1 ∧
    (MixSound 2 (playingMixer [lastFrameSlot])).1.buffers = [] ∧
    (playingMixer [lastFrameSlot]).playing 1 = 1 ∧
    (MixSound 2 (playingMixer [lastFrameSlot])).1.playing 1 = 0 := by
  have h := C13_short_read_removed_under_source_contract 2 (playingMixer [lastFrameSlot])
  have hw : lastFrameSlot.sound.wellBehaved := pcmSound_wellBehaved _ _
  have hlen : (lastFrameSlot.frames 2).length = 1 := by rw [lastFrameSlot_frames]; rfl
  have hfin : lastFrameSlot.finished 2 :=
    h.1 lastFrameSlot (List.mem_singleton.mpr rfl) hw (by decide) (by decide)
      (by rw [hlen]; decide)
  have hone : (playingMixer [lastFrameSlot]).playing 1 = 1 := by
    simp [playingMixer, slotCount, lastFrameSlot, pcmSound]
  have hrem := h.2.2.2.2.2.2 lastFrameSlot rfl hfin
  refine ⟨hw, hlen, hrem.1, hone, ?_⟩
  have e : lastFrameSlot.sound.instance_id = 1 := rfl
  rw [e, hone] at hrem
  rw [hrem.2]
  rfl

/-- Counterexample to C13 as stated: a source that reports a duration of 10
frames and holds three.  Its slot, started at cursor 0, reads three frames of
a period of four, and the source has nothing left from the new cursor on: the
short read is the end of its data.  The slot stays in the slot list with its
cursor at 3 and the play count is not decremented in that pass; the slot is
removed by the next pass, which reads no frame. -/
theorem C13_slot_kept_at_end_of_data :
    (playingMixer [freshSlot truncatedSound]).buffers = [freshSlot truncatedSound] ∧
    ((freshSlot truncatedSound).frames 4).length = 3 ∧
    (∀ (start : Int) (count : Nat), 3 ≤ start → truncatedSound.StreamOut start count = []) ∧
    (MixSound 4 (playingMixer [freshSlot truncatedSound])).1.buffers =
      [(freshSlot truncatedSound).advance 4] ∧
    ((freshSlot truncatedSound).advance 4).next_position = 3 ∧
    (playingMixer [freshSlot truncatedSound]).playing 1 = 1 ∧
    (MixSound 4 (playingMixer [freshSlot truncatedSound])).1.playing 1 = 1 ∧
    (MixSound 4 (MixSound 4 (playingMixer [freshSlot truncatedSound])).1).1.buffers = [] ∧
    (MixSound 4 (MixSound 4 (playingMixer [freshSlot truncatedSound])).1).1.playing 1 = 0 := by
  have hlen : ((freshSlot truncatedSound).frames 4).length = 3 := by
    rw [truncatedSound_frames]; rfl
  have hbuf : (MixSound 4 (playingMixer [freshSlot truncatedSound])).1.buffers =
      [(freshSlot truncatedSound).advance 4] := by
    rw [MixSound_buffers_single 4 _ (freshSlot truncatedSound) rfl,
      if_neg truncatedSound_not_finished]
  have hone : (playingMixer [freshSlot truncatedSound]).playing 1 = 1 := by
    simp [playingMixer, slotCount, freshSlot, truncatedSound]
  have hplay : (MixSound 4 (playingMixer [freshSlot truncatedSound])).1.playing 1 = 1 := by
    rw [MixSound_playing, hone]
    simp [removedCount, playingMixer, truncatedSound_not_finished]
  refine ⟨rfl, hlen, truncatedSound_end, hbuf, ?_, hone, hplay, ?_, ?_⟩
  · rw [advance_next_position, hlen]; rfl
  · rw [MixSound_buffers_single 4 _ ((freshSlot truncatedSound).advance 4) hbuf,
      if_pos truncatedSound_advance_finished]
  · rw [MixSound_playing, hplay, hbuf, removedCount_singleton,
      if_pos ⟨truncatedSound_advance_finished, rfl⟩]
    rfl

/-- C15. Two slot lists that are permutations of each other, mixed with the
same master volume over the same period, give identical output bytes and
leave permutations of the same slots with the same cursors; from equal play
counts they leave equal play counts.  The output does not depend on the order
of the slots, with or without overflow of an accumulator, `Si32` addition
being commutative. -/
theorem C15_output_independent_of_slot_order (period_size : Nat)
    (st1 st2 : SoundMixerState) (hperm : st1.buffers.Perm st2.buffers)
    (hm : st1.master_volume = st2.master_volume) :
    (MixSound period_size st1).2 = (MixSound period_size st2).2 ∧
    (MixSound period_size st1).1.buffers.Perm (MixSound period_size st2).1.buffers ∧
    (st1.playing = st2.playing →
      (MixSound period_size st1).1.playing = (MixSound period_size st2).1.playing) := by
  refine ⟨?_, ?_, ?_⟩
  · rw [MixSound_bytes, MixSound_bytes]
    congr 1
    unfold mixSamples
    apply List.map_congr_left
    intro j _
    rw [mixAccumulators_eq, mixAccumulators_eq, hm, mixedSum_perm hperm j]
  · exact (MixSound_buffers_perm period_size st1).trans
      ((survivors_perm hperm).trans (MixSound_buffers_perm period_size st2).symm)
  · intro hpl
    funext i
    rw [MixSound_playing, MixSound_playing, hpl, removedCount_perm hperm i]

/-- Instance of C15: two slots in either order. -/
theorem C15_output_independent_of_slot_order_witness :
    (mixerWith [halfVolumeSlot, fullScaleSlot]).buffers.Perm
      (mixerWith [fullScaleSlot, halfVolumeSlot]).buffers ∧
    (mixerWith [halfVolumeSlot, fullScaleSlot]).master_volume =
      (mixerWith [fullScaleSlot, halfVolumeSlot]).master_volume ∧
    (MixSound 10 (mixerWith [halfVolumeSlot, fullScaleSlot])).2 =
      (MixSound 10 (mixerWith [fullScaleSlot, halfVolumeSlot])).2 :=
  ⟨mixerWith_swap_perm halfVolumeSlot fullScaleSlot, Eq.refl (F32.fin 1),
    (C15_output_independent_of_slot_order 10 (mixerWith [halfVolumeSlot, fullScaleSlot])
      (mixerWith [fullScaleSlot, halfVolumeSlot])
      (mixerWith_swap_perm halfVolumeSlot fullScaleSlot) (Eq.refl (F32.fin 1))).1⟩

/-- C16. In a pass of `MixSound` over at most 65535 slots with volumes in
`[0, 1]` and `Si16` samples, accumulator `j` stays within the range of `Si32`
at every point of the summation: after any number `k` of slots, in the order
in which the loop processes them, the exact sum of their contributions lies
in `[-2^31, 2^31 - 1]` and is the value the `Si32` additions have produced.
Each accumulated value is therefore the exact sum of the contributions of all
slots. -/
theorem C16_accumulator_never_overflows (period_size : Nat) (st : SoundMixerState)
    (hn : st.buffers.length ≤ 65535)
    (hvol : ∀ b ∈ st.buffers, ∃ q : ℚ, b.volume = F32.fin q ∧ 0 ≤ q ∧ q ≤ 1)
    (hs : ∀ b ∈ st.buffers, ∀ frame ∈ b.frames period_size,
      isSi16 frame.1 ∧ isSi16 frame.2) (j : Nat) :
    (∀ k : Nat,
      -(2 ^ 31) ≤ mixedSum period_size ((mixVisits period_size st).take k) j ∧
      mixedSum period_size ((mixVisits period_size st).take k) j ≤ 2 ^ 31 - 1 ∧
      ((mixVisits period_size st).take k).foldl
          (fun acc b => wrapSi32 (acc + b.contribution period_size j)) 0 =
        mixedSum period_size ((mixVisits period_size st).take k) j) ∧
    mixAccumulators period_size st j = mixedSum period_size st.buffers j ∧
    (∀ b ∈ st.buffers, ∀ x, sampleAt (b.frames period_size) j = some x →
      ∃ r : ℚ, F32.mul (F32.ofInt x) b.volume = F32.fin r ∧
        b.contribution period_size j = F32.trunc r) := by
  have hperm := mixVisits_perm period_size st
  have hrange : ∀ l : List SoundBuffer, (∀ b ∈ l, b ∈ st.buffers) → l.length ≤ 65535 →
      -(2 ^ 31) ≤ mixedSum period_size l j ∧ mixedSum period_size l j ≤ 2 ^ 31 - 1 := by
    intro l hl hlen
    have hb := mixedSum_bound period_size j l
      (fun b hb => contribution_bound period_size b j (hvol b (hl b hb)) (hs b (hl b hb)))
    have hlen2 : (l.length : Int) ≤ 65535 := by exact_mod_cast hlen
    constructor
    · norm_num; omega
    · norm_num; omega
  refine ⟨?_, ?_, ?_⟩
  · intro k
    have hmem : ∀ b ∈ (mixVisits period_size st).take k, b ∈ st.buffers := fun b hb =>
      hperm.mem_iff.mp (List.mem_of_mem_take hb)
    have hlen : ((mixVisits period_size st).take k).length ≤ 65535 := by
      rw [List.length_take]
      have := hperm.length_eq
      omega
    have hr := hrange _ hmem hlen
    refine ⟨hr.1, hr.2, ?_⟩
    have e := foldl_wrap_eq period_size j ((mixVisits period_size st).take k) 0
    rw [wrapSi32_zero, zero_add] at e
    rw [e]
    exact wrapSi32_of_range hr.1 (by omega)
  · rw [mixAccumulators_eq]
    have hr := hrange st.buffers (fun _ hb => hb) hn
    exact wrapSi32_of_range hr.1 (by omega)
  · intro b hb x hx
    obtain ⟨q, hq, h0, h1⟩ := hvol b hb
    obtain ⟨frame, hframe, hxf⟩ := sampleAt_mem hx
    have hx16 : isSi16 x := by
      rcases hxf with h | h
      · rw [h]; exact (hs b hb frame hframe).1
      · rw [h]; exact (hs b hb frame hframe).2
    rw [contribution_of_sample period_size b j x hx, hq]
    exact scaled_trunc x q hx16 h0 h1

/-- Instance of C16: the slot at volume `0.5` and the full-scale slot at
volume `1.0` mixed over a period of ten frames. -/
theorem C16_accumulator_never_overflows_witness :
    (mixerWith [halfVolumeSlot, fullScaleSlot]).buffers.length ≤ 65535 ∧
    (∀ b ∈ (mixerWith [halfVolumeSlot, fullScaleSlot]).buffers,
      ∃ q : ℚ, b.volume = F32.fin q ∧ 0 ≤ q ∧ q ≤ 1) ∧
    (∀ b ∈ (mixerWith [halfVolumeSlot, fullScaleSlot]).buffers,
      ∀ frame ∈ b.frames 10, isSi16 frame.1 ∧ isSi16 frame.2) ∧
    mixAccumulators 10 (mixerWith [halfVolumeSlot, fullScaleSlot]) 0 =
      mixedSum 10 (mixerWith [halfVolumeSlot, fullScaleSlot]).buffers 0 :=
  have hvol : ∀ b ∈ (mixerWith [halfVolumeSlot, fullScaleSlot]).buffers,
      ∃ q : ℚ, b.volume = F32.fin q ∧ 0 ≤ q ∧ q ≤ 1 := by
    intro b hb
    simp only [mixerWith, List.mem_cons, List.mem_singleton, List.not_mem_nil,
      or_false] at hb
    rcases hb with h | h <;> subst h
    · exact ⟨1 / 2, rfl, by norm_num, by norm_num⟩
    · exact ⟨1, rfl, by norm_num, by norm_num⟩
  have hs : ∀ b ∈ (mixerWith [halfVolumeSlot, fullScaleSlot]).buffers,
      ∀ frame ∈ b.frames 10, isSi16 frame.1 ∧ isSi16 frame.2 := by
    intro b hb frame hframe
    simp only [mixerWith, List.mem_cons, List.mem_singleton, List.not_mem_nil,
      or_false] at hb
    rcases hb with h | h <;> subst h
    · rw [halfVolumeSlot_frames] at hframe
      rw [List.eq_of_mem_replicate hframe]
      decide
    · rw [fullScaleSlot_frames_10] at hframe
      simp only [List.mem_cons, List.mem_singleton, List.not_mem_nil, or_false] at hframe
      rcases hframe with h | h <;> subst h <;> decide
  ⟨by decide, hvol, hs,
    (C16_accumulator_never_overflows 10 (mixerWith [halfVolumeSlot, fullScaleSlot])
      (by decide) hvol hs 0).2.1⟩

/-- C17. Starting from a mixer without slots and with all play counts zero,
after every sequence of `StartSoundBuffer`, `StopSoundBuffer` and `MixSound`
calls the play count of each source equals the number of active slots that
reference it, so it is never negative; a stop lowers the count of the stopped
source by the number of its slots and a mixing pass lowers each count by the
number of slots of that source it removes, one `DecPlaying` per removed slot
on the source of that slot. -/
theorem C17_play_count_equals_slot_count (st : SoundMixerState) (calls : List MixerCall)
    (hempty : st.buffers = []) (hzero : ∀ i, st.playing i = 0) :
    (∀ i, (runMixer st calls).playing i = (slotCount i (runMixer st calls).buffers : Int)) ∧
    (∀ i, 0 ≤ (runMixer st calls).playing i) ∧
    (∀ (sound : Sound) (i : Nat),
      (StopSoundBuffer (runMixer st calls) sound).playing i =
        (runMixer st calls).playing i -
          (if i = sound.instance_id
            then (slotCount sound.instance_id (runMixer st calls).buffers : Int) else 0)) ∧
    (∀ (period_size i : Nat),
      (MixSound period_size (runMixer st calls)).1.playing i =
        (runMixer st calls).playing i -
          (removedCount period_size i (runMixer st calls).buffers : Int)) := by
  have hinv := runMixer_counts calls st (by intro i; rw [hzero i, hempty]; rfl)
  refine ⟨hinv, ?_, ?_, ?_⟩
  · intro i
    rw [hinv i]
    exact Int.natCast_nonneg _
  · intro sound i
    rw [StopSoundBuffer_playing]
    by_cases hi : i = sound.instance_id
    · subst hi; simp
    · simp [Function.update, hi]
  · intro period_size i
    exact MixSound_playing period_size _ i

/-- Instance of C17: two starts of a source of three frames, a mixing pass,
a stop and another start. -/
theorem C17_play_count_equals_slot_count_witness :
    (mixerWith []).buffers = [] ∧ (∀ i, (mixerWith []).playing i = 0) ∧
    (∀ i, (runMixer (mixerWith [])
        [MixerCall.start (pcmSound 1 [(1, 2), (3, 4), (5, 6)]) (F32.fin 1),
          MixerCall.start (pcmSound 1 [(1, 2), (3, 4), (5, 6)]) (F32.fin 1),
          MixerCall.mix 2, MixerCall.stop (pcmSound 1 []),
          MixerCall.start (pcmSound 2 []) (F32.fin 1)]).playing i =
      (slotCount i (runMixer (mixerWith [])
        [MixerCall.start (pcmSound 1 [(1, 2), (3, 4), (5, 6)]) (F32.fin 1),
          MixerCall.start (pcmSound 1 [(1, 2), (3, 4), (5, 6)]) (F32.fin 1),
          MixerCall.mix 2, MixerCall.stop (pcmSound 1 []),
          MixerCall.start (pcmSound 2 []) (F32.fin 1)]).buffers : Int)) :=
  ⟨rfl, fun _ => rfl,
    (C17_play_count_equals_slot_count (mixerWith []) _ rfl (fun _ => rfl)).1⟩

/-- C19. `StopSoundMixer` evaluated after each of the two running strategies.
After the polling strategy (a thread was started, no handler registered) it
sets the quit flag, joins the thread, skips the handler and closes the
device.  After the callback strategy (a handler was registered, no thread
started) its unconditional `sound_thread.join()` throws `std::system_error`:
the handler is not deregistered and the device is not closed. -/
theorem C19_stop_joins_without_thread (period_size handler : Nat) (del_result : Int) :
    (∀ (writes : Int × Int × Int) (prepared : Bool) (start_result : Int),
      startStrategy configuredRuntime period_size (-ENOSYS) handler writes prepared
          start_result =
        ([RuntimeCall.add_handler, RuntimeCall.start_thread],
          Except.ok { do_quit := false, thread_joinable := true, ahandler := none,
                      handle_open := true })) ∧
    StopSoundMixer { do_quit := false, thread_joinable := true, ahandler := none,
                     handle_open := true } del_result =
      ([RuntimeCall.join_thread, RuntimeCall.close_device],
        Except.ok { do_quit := true, thread_joinable := false, ahandler := none,
                    handle_open := false }) ∧
    startStrategy configuredRuntime period_size 0 handler
        (period_size, period_size, period_size) true 0 =
      ([RuntimeCall.add_handler, RuntimeCall.initial_write, RuntimeCall.initial_write,
        RuntimeCall.initial_write, RuntimeCall.pcm_start],
        Except.ok { do_quit := false, thread_joinable := false, ahandler := some handler,
                    handle_open := true }) ∧
    StopSoundMixer { do_quit := false, thread_joinable := false, ahandler := some handler,
                     handle_open := true } del_result =
      ([RuntimeCall.join_thread], Except.error Failure.system_error) := by
  refine ⟨?_, rfl, ?_, rfl⟩
  · intro writes prepared start_result
    simp [startStrategy, configuredRuntime]
  · simp [startStrategy, configuredRuntime, ENOSYS]

/-- C20, as amended. For a null device name `StartSoundMixer` opens `"default"`
and, if that open reports no-such-device, falls back to opening
`"plughw:0,0"`; for every other name, the empty string included, it opens
exactly that device with no fallback; every other open failure is fatal. -/
theorem C20_default_device_only_for_null (snd_pcm_open : String → Int) :
    (0 ≤ snd_pcm_open "default" →
      openOutputDevice none snd_pcm_open = (["default"], Except.ok "default")) ∧
    (snd_pcm_open "default" = -ENOENT → 0 ≤ snd_pcm_open "plughw:0,0" →
      openOutputDevice none snd_pcm_open =
        (["default", "plughw:0,0"], Except.ok "plughw:0,0")) ∧
    (snd_pcm_open "default" = -ENOENT → snd_pcm_open "plughw:0,0" < 0 →
      openOutputDevice none snd_pcm_open =
        (["default", "plughw:0,0"], Except.error Failure.fatal)) ∧
    (snd_pcm_open "default" < 0 → snd_pcm_open "default" ≠ -ENOENT →
      openOutputDevice none snd_pcm_open = (["default"], Except.error Failure.fatal)) ∧
    (∀ name : String, 0 ≤ snd_pcm_open name →
      openOutputDevice (some name) snd_pcm_open = ([name], Except.ok name)) ∧
    (∀ name : String, snd_pcm_open name < 0 →
      openOutputDevice (some name) snd_pcm_open = ([name], Except.error Failure.fatal)) := by
  refine ⟨?_, ?_, ?_, ?_, ?_, ?_⟩
  · intro h
    have hne : snd_pcm_open "default" ≠ -ENOENT := by unfold ENOENT; omega
    simp [openOutputDevice, hne, h]
  · intro h1 h2
    simp [openOutputDevice, h1, h2]
  · intro h1 h2
    simp [openOutputDevice, h1, not_le.mpr h2]
  · intro h1 h2
    simp [openOutputDevice, h2, not_le.mpr h1]
  · intro name h
    simp [openOutputDevice, h]
  · intro name h
    simp [openOutputDevice, not_le.mpr h]

/-- Instance of C20 as amended: with a system on which every device opens,
the name `"hw:1,0"` opens that device and the null name opens `"default"`. -/
theorem C20_default_device_only_for_null_witness :
    (0 : Int) ≤ (fun _ : String => (0 : Int)) "default" ∧
    openOutputDevice none (fun _ => 0) = (["default"], Except.ok "default") ∧
    openOutputDevice (some "hw:1,0") (fun _ => 0) = (["hw:1,0"], Except.ok "hw:1,0") :=
  ⟨le_refl _, (C20_default_device_only_for_null (fun _ => 0)).1 (le_refl _),
    (C20_default_device_only_for_null (fun _ => 0)).2.2.2.2.1 "hw:1,0" (le_refl _)⟩

/-- Counterexample to C20 as stated: on a system where `"default"` opens and
no device has the empty name, the empty device name does not select the
default device: `snd_pcm_open` is called on `""` only and its failure is
fatal. -/
theorem C20_empty_name_is_not_default :
    openOutputDevice (some "") (fun name => if name = "" then -ENOENT else 0) =
      ([""], Except.error Failure.fatal) ∧
    openOutputDevice none (fun name => if name = "" then -ENOENT else 0) =
      (["default"], Except.ok "default") := by
  constructor
  · simp [openOutputDevice, ENOENT]
  · simp [openOutputDevice, ENOENT]

/-- C21. The input messages `WndProc` pushes, by window message.  `WM_KEYUP`
pushes exactly one keyboard message with `key_state` 2, `WM_KEYDOWN` exactly
one with `key_state` 1, `WM_DESTROY` and every message other than these and
`WM_PAINT` push none.  `WM_PAINT`, whose case has no `break`, runs on into the
case of `WM_KEYUP` and pushes one keyboard message with `key_state` 2, made
from the `word_param` of the paint message. -/
theorem C21_paint_falls_through_to_key_up {KeyCode : Type}
    (TranslateKeyCode : Nat → KeyCode) (DefWindowProc : Nat → Nat → Int → Int)
    (word_param : Nat) (long_param : Int) :
    pushedMessages
        (WndProc TranslateKeyCode DefWindowProc WM_PAINT word_param long_param).1 =
      [{ kind := InputMessageKind.kKeyboard, key := TranslateKeyCode word_param,
         key_state := 2 }] ∧
    (WndProc TranslateKeyCode DefWindowProc WM_PAINT word_param long_param).1 =
      [WindowCall.BeginPaint, WindowCall.EndPaint,
        WindowCall.PushInputMessage
          { kind := InputMessageKind.kKeyboard, key := TranslateKeyCode word_param,
            key_state := 2 }] ∧
    pushedMessages
        (WndProc TranslateKeyCode DefWindowProc WM_KEYUP word_param long_param).1 =
      [{ kind := InputMessageKind.kKeyboard, key := TranslateKeyCode word_param,
         key_state := 2 }] ∧
    pushedMessages
        (WndProc TranslateKeyCode DefWindowProc WM_KEYDOWN word_param long_param).1 =
      [{ kind := InputMessageKind.kKeyboard, key := TranslateKeyCode word_param,
         key_state := 1 }] ∧
    pushedMessages
        (WndProc TranslateKeyCode DefWindowProc WM_DESTROY word_param long_param).1 = [] ∧
    (∀ message : Nat, message ≠ WM_PAINT → message ≠ WM_KEYUP → message ≠ WM_KEYDOWN →
      pushedMessages
        (WndProc TranslateKeyCode DefWindowProc message word_param long_param).1 = []) := by
  refine ⟨rfl, rfl, rfl, rfl, rfl, ?_⟩
  intro message h1 h2 h3
  unfold WndProc
  rw [if_neg h1, if_neg h2, if_neg h3]
  by_cases h4 : message = WM_DESTROY
  · rw [if_pos h4]; rfl
  · rw [if_neg h4]; rfl

end arctic
